import Mathlib

/-!
# Block header of `lib/block/blockheader.js`

A shallow embedding of the block header entity: its decoding from a byte cursor, its
encoding through a byte writer, the derived hash, the compact-bits target, the difficulty
score and the two validation predicates.

Conventions of the embedding.

* A JavaScript property that may be `undefined` is an `Option`; `none` is `undefined`.
* Numbers that the layout documents as unsigned are `Nat`, signed ones are `Int`;
  fixed widths are made explicit with `%`.
* A `Buffer` is a list of bytes, a JavaScript string a list of characters.
* Functions that can throw return `Except Error`.
* The digest `Hash.sha256` (`lib/crypto/hash`) is a parameter `sha256 : Buffer → Buffer`.
-/

namespace Bitcore

/-! ## Bytes and fixed-width integers -/

abbrev Byte := Fin 256

abbrev Buffer := List Byte

/-- Errors the header code can raise. -/
inductive Error where
  | unrecognizedArgument
  | outOfBounds
  | hashMismatch
  deriving DecidableEq, Repr

/-- Unsigned value of a byte span read least significant byte first. -/
def leNat : List Byte → Nat
  | [] => 0
  | b :: bs => b.val + 256 * leNat bs

/-- Unsigned value of a byte span read most significant byte first. -/
def beNat (bs : List Byte) : Nat :=
  bs.foldl (fun acc b => acc * 256 + b.val) 0

/-- Two's complement reading of an unsigned `w`-bit value. -/
def toSigned (w : Nat) (n : Nat) : Int :=
  if n < 2 ^ (w - 1) then (n : Int) else (n : Int) - 2 ^ w

/-- The `w` least significant bytes of `n`, least significant first. -/
def leBytes : Nat → Nat → List Byte
  | 0, _ => []
  | w + 1, n => Fin.ofNat (n % 256) :: leBytes w (n / 256)

/-- The bytes of `buf` from offset `off`, `len` of them. -/
def slice (buf : Buffer) (off len : Nat) : Buffer :=
  (buf.drop off).take len

/-- The unsigned little-endian integer of `w` bytes at offset `off`. -/
def uintLEAt (buf : Buffer) (off w : Nat) : Nat :=
  leNat (slice buf off w)

/-- The signed little-endian integer of `w` bytes at offset `off`. -/
def intLEAt (buf : Buffer) (off w : Nat) : Int :=
  toSigned (8 * w) (uintLEAt buf off w)

/-- JavaScript's numeric reading of a possibly absent unsigned property
(`undefined` stored into a byte array is 0). -/
def toNumber (v : Option Nat) : Nat := v.getD 0

/-- JavaScript's numeric reading of a possibly absent signed property. -/
def toNumberInt (v : Option Int) : Int := v.getD 0

/-- JavaScript truthiness of a possibly absent number. -/
def truthy (v : Option Nat) : Bool :=
  match v with
  | some n => n != 0
  | none => false

/-- JavaScript truthiness of a possibly absent string. -/
def truthyStr (v : Option (List Char)) : Bool :=
  match v with
  | some s => !s.isEmpty
  | none => false

/-! ## Byte cursor codec -/

/-- Modelled from the spec: the sequential reader of `lib/encoding/bufferreader`, which is
not among the sources. It is an immutable buffer with a position cursor. -/
structure BufferReader where
  buf : Buffer
  pos : Nat
  deriving DecidableEq, Repr

namespace BufferReader

/-- The reader `BufferReader(buf)`, positioned at the start of the buffer. -/
def ofBuffer (buf : Buffer) : BufferReader := { buf := buf, pos := 0 }

/-- Modelled from the spec: `read(len)` returns the next `len` raw bytes and advances the
cursor by `len`; it fails with `OutOfBounds` if fewer than `len` bytes remain. -/
def read (br : BufferReader) (len : Nat) : Except Error (Buffer × BufferReader) :=
  if br.pos + len ≤ br.buf.length then
    .ok (slice br.buf br.pos len, { br with pos := br.pos + len })
  else
    .error .outOfBounds

/-- Modelled from the spec: an unsigned little-endian integer of `w` bytes. -/
def readUIntLE (br : BufferReader) (w : Nat) : Except Error (Nat × BufferReader) :=
  match br.read w with
  | .ok (bs, br1) => .ok (leNat bs, br1)
  | .error e => .error e

/-- Modelled from the spec: a signed little-endian integer of `w` bytes. -/
def readIntLE (br : BufferReader) (w : Nat) : Except Error (Int × BufferReader) :=
  match br.read w with
  | .ok (bs, br1) => .ok (toSigned (8 * w) (leNat bs), br1)
  | .error e => .error e

def readUInt8 (br : BufferReader) : Except Error (Nat × BufferReader) := br.readUIntLE 1

def readUInt16LE (br : BufferReader) : Except Error (Nat × BufferReader) := br.readUIntLE 2

def readUInt32LE (br : BufferReader) : Except Error (Nat × BufferReader) := br.readUIntLE 4

def readInt32LE (br : BufferReader) : Except Error (Int × BufferReader) := br.readIntLE 4

def readInt64 (br : BufferReader) : Except Error (Int × BufferReader) := br.readIntLE 8

end BufferReader

/-- Modelled from the spec: the sequential writer of `lib/encoding/bufferwriter`, which is
not among the sources. It collects the spans appended so far; the spec gives it no failure
mode. -/
structure BufferWriter where
  bufs : List Buffer
  deriving DecidableEq, Repr

namespace BufferWriter

/-- The writer `new BufferWriter()`. -/
def empty : BufferWriter := { bufs := [] }

/-- Modelled from the spec: `write(buf)` appends a raw byte span. An absent span
(`undefined`) has no bytes to append. -/
def write (bw : BufferWriter) (buf : Option Buffer) : BufferWriter :=
  { bufs := bw.bufs ++ [buf.getD []] }

/-- Modelled from the spec: an unsigned integer appended as `w` little-endian bytes. -/
def writeUIntLE (bw : BufferWriter) (w : Nat) (n : Option Nat) : BufferWriter :=
  { bufs := bw.bufs ++ [leBytes w (toNumber n % 2 ^ (8 * w))] }

/-- Modelled from the spec: a signed integer appended as `w` little-endian bytes in two's
complement. -/
def writeIntLE (bw : BufferWriter) (w : Nat) (n : Option Int) : BufferWriter :=
  { bufs := bw.bufs ++ [leBytes w (toNumberInt n % 2 ^ (8 * w)).toNat] }

def writeUInt8 (bw : BufferWriter) (n : Option Nat) : BufferWriter := bw.writeUIntLE 1 n

def writeUInt16LE (bw : BufferWriter) (n : Option Nat) : BufferWriter := bw.writeUIntLE 2 n

def writeUInt32LE (bw : BufferWriter) (n : Option Nat) : BufferWriter := bw.writeUIntLE 4 n

def writeInt16LE (bw : BufferWriter) (n : Option Int) : BufferWriter := bw.writeIntLE 2 n

def writeInt32LE (bw : BufferWriter) (n : Option Int) : BufferWriter := bw.writeIntLE 4 n

def writeInt64 (bw : BufferWriter) (n : Option Int) : BufferWriter := bw.writeIntLE 8 n

/-- Modelled from the spec: `concat()` produces the final concatenated buffer. -/
def concat (bw : BufferWriter) : Buffer := bw.bufs.flatten

end BufferWriter

/-! ## Text forms of byte spans -/

namespace BufferUtil

/-- The byte span in the opposite order, `BufferUtil.reverse`. -/
def reverse (buf : Buffer) : Buffer := List.reverse buf

end BufferUtil

/-- The lower-case hexadecimal digit of a value below 16. -/
def hexDigit (n : Nat) : Char :=
  match n with
  | 0 => '0' | 1 => '1' | 2 => '2' | 3 => '3' | 4 => '4' | 5 => '5' | 6 => '6' | 7 => '7'
  | 8 => '8' | 9 => '9' | 10 => 'a' | 11 => 'b' | 12 => 'c' | 13 => 'd' | 14 => 'e'
  | _ => 'f'

/-- The value of a hexadecimal digit, if the character is one. -/
def hexVal (c : Char) : Option Nat :=
  if c = '0' then some 0 else if c = '1' then some 1 else if c = '2' then some 2
  else if c = '3' then some 3 else if c = '4' then some 4 else if c = '5' then some 5
  else if c = '6' then some 6 else if c = '7' then some 7 else if c = '8' then some 8
  else if c = '9' then some 9
  else if c = 'a' ∨ c = 'A' then some 10 else if c = 'b' ∨ c = 'B' then some 11
  else if c = 'c' ∨ c = 'C' then some 12 else if c = 'd' ∨ c = 'D' then some 13
  else if c = 'e' ∨ c = 'E' then some 14 else if c = 'f' ∨ c = 'F' then some 15
  else none

/-- The text `buf.toString('hex')`: two lower-case digits per byte. -/
def toHexString (buf : Buffer) : List Char :=
  buf.flatMap fun b => [hexDigit (b.val / 16), hexDigit (b.val % 16)]

/-- The buffer `new Buffer(str, 'hex')`: one byte per pair of hexadecimal digits, up to
the first pair that is not hexadecimal. -/
def bufferFromHex : List Char → Buffer
  | c :: d :: rest =>
    match hexVal c, hexVal d with
    | some hi, some lo => Fin.ofNat (hi * 16 + lo) :: bufferFromHex rest
    | _, _ => []
  | _ => []

namespace BN

/-- Modelled from the spec: the arbitrary-precision integer `new BN(str, 'hex')` of
`lib/crypto/bn`, the value of a hexadecimal string read most significant digit first. -/
def fromHex (s : List Char) : Nat :=
  s.foldl (fun acc c => acc * 16 + (hexVal c).getD 0) 0

/-- Modelled from the spec: the decimal text `bn.toString(10)`. -/
def toString10 (n : Nat) : List Char := Nat.toDigits 10 n

end BN

/-! ## The header and the objects it is built from -/

/-- One of the three hash-like properties of a field map: a big-endian hex string or the
raw bytes. -/
inductive HashField where
  | hex (s : List Char)
  | raw (b : Buffer)
  deriving DecidableEq, Repr

/-- The object handed to the constructor or to `_fromObject`: every property may be
absent. -/
structure FieldMap where
  version : Option Int := none
  prevHash : Option HashField := none
  merkleRoot : Option HashField := none
  stakeRoot : Option HashField := none
  voteBits : Option Nat := none
  finalState : Option Buffer := none
  voters : Option Int := none
  freshStake : Option Nat := none
  revocations : Option Nat := none
  poolSize : Option Nat := none
  bits : Option Nat := none
  sbits : Option Int := none
  height : Option Nat := none
  size : Option Nat := none
  timestamp : Option Nat := none
  nonce : Option Nat := none
  extraData : Option Buffer := none
  stakeVersion : Option Nat := none
  equihashSolution : Option Buffer := none
  hash : Option (List Char) := none
  time : Option Nat := none
  deriving DecidableEq, Repr

/-- The `info` object that `_fromObject` and `_fromBufferReader` return. -/
structure Info where
  version : Option Int := none
  prevHash : Option Buffer := none
  merkleRoot : Option Buffer := none
  stakeRoot : Option Buffer := none
  voteBits : Option Nat := none
  finalState : Option Buffer := none
  voters : Option Int := none
  freshStake : Option Nat := none
  revocations : Option Nat := none
  poolSize : Option Nat := none
  bits : Option Nat := none
  sbits : Option Int := none
  height : Option Nat := none
  size : Option Nat := none
  timestamp : Option Nat := none
  nonce : Option Nat := none
  extraData : Option Buffer := none
  stakeVersion : Option Nat := none
  equihashSolution : Option Buffer := none
  hash : Option (List Char) := none
  time : Option Nat := none
  deriving DecidableEq, Repr

/-- The instance fields the constructor assigns, and the `_id` cache of the `hash`/`id`
accessor. -/
structure BlockHeader where
  version : Option Int := none
  prevHash : Option Buffer := none
  merkleRoot : Option Buffer := none
  stakeRoot : Option Buffer := none
  voteBits : Option Nat := none
  finalState : Option Buffer := none
  voters : Option Int := none
  freshStake : Option Nat := none
  revocations : Option Nat := none
  poolSize : Option Nat := none
  bits : Option Nat := none
  sbits : Option Int := none
  height : Option Nat := none
  size : Option Nat := none
  timestamp : Option Nat := none
  nonce : Option Nat := none
  extraData : Option Buffer := none
  stakeVersion : Option Nat := none
  equihashSolution : Option Buffer := none
  time : Option Nat := none
  _id : Option (List Char) := none
  deriving DecidableEq, Repr

/-- An `info` object seen as a field map, as when it is passed on to the constructor. -/
def Info.toFieldMap (info : Info) : FieldMap :=
  { version := info.version
    prevHash := info.prevHash.map HashField.raw
    merkleRoot := info.merkleRoot.map HashField.raw
    stakeRoot := info.stakeRoot.map HashField.raw
    voteBits := info.voteBits
    finalState := info.finalState
    voters := info.voters
    freshStake := info.freshStake
    revocations := info.revocations
    poolSize := info.poolSize
    bits := info.bits
    sbits := info.sbits
    height := info.height
    size := info.size
    timestamp := info.timestamp
    nonce := info.nonce
    extraData := info.extraData
    stakeVersion := info.stakeVersion
    equihashSolution := info.equihashSolution
    hash := info.hash
    time := info.time }

/-- The argument of the constructor: a buffer, an object, a string, or anything else. -/
inductive Arg where
  | buffer (b : Buffer)
  | object (o : FieldMap)
  | string (s : List Char)
  | other
  deriving DecidableEq, Repr

/-! ## Construction -/

namespace BlockHeader

/-- The constants `BlockHeader.Constants.START_OF_HEADER` and `MAX_TIME_OFFSET`. -/
def Constants.START_OF_HEADER : Nat := 8

def Constants.MAX_TIME_OFFSET : Nat := 2 * 60 * 60

def GENESIS_BITS : Nat := 0x1d00ffff

/-- The decoder `BlockHeader._fromBufferReader`: the reads in source order, each one
moving the cursor on; the result is the `info` object and the reader after the last read. -/
def _fromBufferReader (br : BufferReader) : Except Error (Info × BufferReader) := do
  let (version, br) ← br.readInt32LE
  let (prevHash, br) ← br.read 32
  let (merkleRoot, br) ← br.read 32
  let (stakeRoot, br) ← br.read 32
  let (voteBits, br) ← br.readUInt16LE
  let (freshStake, br) ← br.readUInt8
  let (revocations, br) ← br.readUInt8
  let (poolSize, br) ← br.readUInt32LE
  let (bits, br) ← br.readUInt32LE
  let (sbits, br) ← br.readInt64
  let (height, br) ← br.readUInt32LE
  let (size, br) ← br.readUInt32LE
  let (timestamp, br) ← br.readUInt32LE
  let (nonce, br) ← br.readUInt32LE
  let (extraData, br) ← br.read 32
  let (stakeVersion, br) ← br.readUInt32LE
  let (equihashSolution, br) ← br.read 100
  let info : Info :=
    { version := some version
      prevHash := some prevHash
      merkleRoot := some merkleRoot
      stakeRoot := some stakeRoot
      voteBits := some voteBits
      freshStake := some freshStake
      revocations := some revocations
      poolSize := some poolSize
      bits := some bits
      sbits := some sbits
      height := some height
      size := some size
      timestamp := some timestamp
      nonce := some nonce
      extraData := some extraData
      stakeVersion := some stakeVersion
      equihashSolution := some equihashSolution
      time := some timestamp }
  return (info, br)

/-- The conversion `_fromObject` applies to a hash-like property: a string is decoded from
hex and byte-reversed, anything else is kept. -/
def hashFieldBytes (v : Option HashField) : Option Buffer :=
  match v with
  | some (HashField.hex s) => some (BufferUtil.reverse (bufferFromHex s))
  | some (HashField.raw b) => some b
  | none => none

/-- The function `BlockHeader._fromObject`. The `info` literal lists neither `voters` nor
`freshStake`, so both are absent from the result. -/
def _fromObject (data : FieldMap) : Info :=
  let prevHash := hashFieldBytes data.prevHash
  let merkleRoot := hashFieldBytes data.merkleRoot
  let stakeRoot := hashFieldBytes data.stakeRoot
  let info : Info :=
    { version := data.version
      prevHash := prevHash
      merkleRoot := merkleRoot
      stakeRoot := stakeRoot
      voteBits := data.voteBits
      finalState := data.finalState
      revocations := data.revocations
      poolSize := data.poolSize
      bits := data.bits
      sbits := data.sbits
      height := data.height
      size := data.size
      timestamp := data.timestamp
      nonce := data.nonce
      extraData := data.extraData
      stakeVersion := data.stakeVersion
      equihashSolution := data.equihashSolution
      hash := data.hash
      time := data.timestamp }
  if !truthy data.timestamp then
    { info with time := data.time, timestamp := data.time }
  else
    info

/-- The dispatch `BlockHeader._from` on the kind of argument. -/
def _from (arg : Arg) : Except Error Info :=
  match arg with
  | Arg.buffer b =>
    match _fromBufferReader (BufferReader.ofBuffer b) with
    | .ok (info, _) => .ok info
    | .error e => .error e
  | Arg.object o => .ok (_fromObject o)
  | _ => .error Error.unrecognizedArgument

/-- The encoder `toBufferWriter(bw)`: the writes in source order. -/
def toBufferWriter (h : BlockHeader) (bw : Option BufferWriter) : BufferWriter :=
  let bw := bw.getD BufferWriter.empty
  let bw := bw.writeInt32LE h.version
  let bw := bw.write h.prevHash
  let bw := bw.write h.merkleRoot
  let bw := bw.write h.stakeRoot
  let bw := bw.writeUInt16LE h.voteBits
  let bw := bw.write h.finalState
  let bw := bw.writeInt16LE h.voters
  let bw := bw.writeUInt8 h.freshStake
  let bw := bw.writeUInt8 h.revocations
  let bw := bw.writeUInt32LE h.poolSize
  let bw := bw.writeUInt32LE h.bits
  let bw := bw.writeInt64 h.sbits
  let bw := bw.writeUInt32LE h.height
  let bw := bw.writeUInt32LE h.size
  let bw := bw.writeUInt32LE h.timestamp
  let bw := bw.writeUInt32LE h.nonce
  let bw := bw.write h.extraData
  let bw := bw.writeUInt32LE h.stakeVersion
  let bw := bw.write h.equihashSolution
  bw

/-- The method `toBuffer`. -/
def toBuffer (h : BlockHeader) : Buffer :=
  (h.toBufferWriter none).concat

/-- The method `_getHash`: the digest of the encoding. -/
def _getHash (sha256 : Buffer → Buffer) (h : BlockHeader) : Buffer :=
  sha256 h.toBuffer

/-- The accessor behind `id` and `hash`: the cached text if there is a non-empty one,
otherwise the byte-reversed digest in hex, which is then cached. The second component is
the header after the read. -/
def id (sha256 : Buffer → Buffer) (h : BlockHeader) : List Char × BlockHeader :=
  if !truthyStr h._id then
    let s := toHexString (BufferUtil.reverse (h._getHash sha256))
    (s, { h with _id := some s })
  else
    (h._id.getD [], h)

/-- The assignments `this.version = info.version; ...; this.time = info.time` of the
constructor; the cache `_id` is still empty. -/
def assignFields (info : Info) : BlockHeader :=
  { version := info.version
    prevHash := info.prevHash
    merkleRoot := info.merkleRoot
    stakeRoot := info.stakeRoot
    voteBits := info.voteBits
    finalState := info.finalState
    voters := info.voters
    freshStake := info.freshStake
    revocations := info.revocations
    poolSize := info.poolSize
    bits := info.bits
    sbits := info.sbits
    height := info.height
    size := info.size
    timestamp := info.timestamp
    nonce := info.nonce
    extraData := info.extraData
    stakeVersion := info.stakeVersion
    equihashSolution := info.equihashSolution
    time := info.time }

/-- The statement `if (!this.timestamp) { this.timestamp = this.time; }`. -/
def defaultTimestamp (self : BlockHeader) : BlockHeader :=
  if !truthy self.timestamp then { self with timestamp := self.time } else self

/-- The statement `if (info.hash) { $.checkState(this.hash === info.hash, ...); }`;
reading `this.hash` fills the cache. -/
def checkHash (sha256 : Buffer → Buffer) (info : Info) (self : BlockHeader) :
    Except Error BlockHeader :=
  if truthyStr info.hash then
    let (hash, self) := self.id sha256
    if some hash = info.hash then
      .ok self
    else
      .error Error.hashMismatch
  else
    .ok self

/-- The constructor `new BlockHeader(arg)`. -/
def new (sha256 : Buffer → Buffer) (arg : Arg) : Except Error BlockHeader :=
  match _from arg with
  | .ok info => checkHash sha256 info (defaultTimestamp (assignFields info))
  | .error e => .error e

/-- The factory `BlockHeader.fromBuffer`. -/
def fromBuffer (sha256 : Buffer → Buffer) (buf : Buffer) : Except Error BlockHeader := do
  let (info, _) ← _fromBufferReader (BufferReader.ofBuffer buf)
  new sha256 (Arg.object info.toFieldMap)

/-- The factory `BlockHeader.fromBufferReader`; the reader after the call is returned
with the header. -/
def fromBufferReader (sha256 : Buffer → Buffer) (br : BufferReader) :
    Except Error (BlockHeader × BufferReader) := do
  let (info, br) ← _fromBufferReader br
  let h ← new sha256 (Arg.object info.toFieldMap)
  return (h, br)

/-- The factory `BlockHeader.fromString` on a hex encoded header. -/
def fromString (sha256 : Buffer → Buffer) (str : List Char) : Except Error BlockHeader :=
  fromBuffer sha256 (bufferFromHex str)

/-- The method `toString`: the encoding in hex. -/
def toString (h : BlockHeader) : List Char :=
  toHexString h.toBuffer

/-- The factory `BlockHeader.fromObject`. -/
def fromObject (sha256 : Buffer → Buffer) (obj : FieldMap) : Except Error BlockHeader :=
  new sha256 (Arg.object (_fromObject obj).toFieldMap)

/-- The factory `BlockHeader.fromRawBlock` on a buffer argument: the cursor is set to
`START_OF_HEADER` before decoding. -/
def fromRawBlock (sha256 : Buffer → Buffer) (data : Buffer) : Except Error BlockHeader := do
  let br := { BufferReader.ofBuffer data with pos := Constants.START_OF_HEADER }
  let (info, _) ← _fromBufferReader br
  new sha256 (Arg.object info.toFieldMap)

/-! ## Difficulty and validation -/

/-- The loop `while (mov-- > 0) { target = target.mul(new BN(2)); }`, given the number of
times its condition holds. -/
def doubling : Nat → Nat → Nat
  | 0, target => target
  | n + 1, target => doubling n (target * 2)

/-- The method `getTargetDifficulty(bits)`. `bits || this.bits` takes the header's bits
when the argument is absent or 0; the two bit operators work on the 32-bit reading of the
number; the loop condition holds `mov` times when `mov` is positive and never otherwise. -/
def getTargetDifficulty (h : BlockHeader) (bits : Option Nat) : Nat :=
  let bits := if truthy bits then bits else h.bits
  let word := toNumber bits % 2 ^ 32
  let target := word &&& 0xffffff
  let mov : Int := 8 * (((word >>> 24 : Nat) : Int) - 3)
  doubling mov.toNat target

/-- The string method `slice(start, end)` of JavaScript: a negative index counts from the
end of the string, every index is clamped to the string, and an absent `end` is the
length. -/
def jsSlice (s : List Char) (start : Int) (stop : Option Int) : List Char :=
  let len : Int := s.length
  let clamp : Int → Int := fun i => if i < 0 then max (len + i) 0 else min i len
  let lo := clamp start
  let hi := match stop with
    | some e => clamp e
    | none => len
  (s.drop lo.toNat).take (hi - lo).toNat

/-- The text `getDifficulty` hands to `parseFloat`: the quotient in decimal with a point
inserted at `length - 8`. There is no text when the current target is 0, where the
quotient does not exist. -/
def getDifficultyString (h : BlockHeader) : Option (List Char) :=
  let difficulty1TargetBN := getTargetDifficulty h (some GENESIS_BITS) * 10 ^ 8
  let currentTargetBN := getTargetDifficulty h none
  if currentTargetBN = 0 then
    none
  else
    let difficultyString := BN.toString10 (difficulty1TargetBN / currentTargetBN)
    let decimalPos : Int := (difficultyString.length : Int) - 8
    some (jsSlice difficultyString 0 (some decimalPos) ++ ['.'] ++
      jsSlice difficultyString decimalPos none)

/-- The value of a run of decimal digits. -/
def digitsValue (s : List Char) : Nat :=
  s.foldl (fun acc c => acc * 10 + (c.toNat - 48)) 0

/-- The number `parseFloat` reads from a text made of digits and a point: the leading
digits, then optionally a point and more digits; no number (`NaN`) when there is no digit
at all. The value is the exact decimal; `parseFloat` returns the double nearest to it. -/
def parseFloat (s : List Char) : Option ℚ :=
  let intPart := s.takeWhile Char.isDigit
  let fracPart := match s.dropWhile Char.isDigit with
    | '.' :: t => t.takeWhile Char.isDigit
    | _ => []
  if intPart.isEmpty && fracPart.isEmpty then
    none
  else
    some ((digitsValue (intPart ++ fracPart) : ℚ) / 10 ^ fracPart.length)

/-- The method `getDifficulty`. -/
def getDifficulty (h : BlockHeader) : Option ℚ :=
  match getDifficultyString h with
  | some s => parseFloat s
  | none => none

/-- The seconds `Math.round(new Date().getTime() / 1000)` for a clock reading in
milliseconds. -/
def currentTime (nowMs : Nat) : Nat := (nowMs + 500) / 1000

/-- The method `validTimestamp`, given the clock reading `new Date().getTime()`. An
absent `time` compares false with every number. -/
def validTimestamp (nowMs : Nat) (h : BlockHeader) : Bool :=
  match h.time with
  | some t => if t > currentTime nowMs + Constants.MAX_TIME_OFFSET then false else true
  | none => true

/-- The method `validProofOfWork`; reading `this.id` may fill the cache, so the header
after the call is returned with the verdict. -/
def validProofOfWork (sha256 : Buffer → Buffer) (h : BlockHeader) : Bool × BlockHeader :=
  let (id, h) := h.id sha256
  let pow := BN.fromHex id
  let target := getTargetDifficulty h none
  (if pow > target then false else true, h)

end BlockHeader


open BlockHeader

/-! ## The documented layout -/

/-- The field widths of the documented binary layout, in order. -/
def layoutWidths : List Nat :=
  [4, 32, 32, 32, 2, 1, 1, 4, 4, 8, 4, 4, 4, 4, 32, 4, 100]

/-- The `info` object the documented layout describes for a header that starts at offset
`off` of `buf`: every field read at its own offset, `time` being the timestamp. -/
def layoutInfo (buf : Buffer) (off : Nat) : Info :=
  { version := some (intLEAt buf off 4)
    prevHash := some (slice buf (off + 4) 32)
    merkleRoot := some (slice buf (off + 36) 32)
    stakeRoot := some (slice buf (off + 68) 32)
    voteBits := some (uintLEAt buf (off + 100) 2)
    freshStake := some (uintLEAt buf (off + 102) 1)
    revocations := some (uintLEAt buf (off + 103) 1)
    poolSize := some (uintLEAt buf (off + 104) 4)
    bits := some (uintLEAt buf (off + 108) 4)
    sbits := some (intLEAt buf (off + 112) 8)
    height := some (uintLEAt buf (off + 120) 4)
    size := some (uintLEAt buf (off + 124) 4)
    timestamp := some (uintLEAt buf (off + 128) 4)
    nonce := some (uintLEAt buf (off + 132) 4)
    extraData := some (slice buf (off + 136) 32)
    stakeVersion := some (uintLEAt buf (off + 168) 4)
    equihashSolution := some (slice buf (off + 172) 100)
    time := some (uintLEAt buf (off + 128) 4) }

/-- A present byte span of exactly `n` bytes. -/
def hasBytes (v : Option Buffer) (n : Nat) : Bool :=
  match v with
  | some b => b.length == n
  | none => false

/-- A present unsigned number that fits `w` bits. -/
def isUInt (v : Option Nat) (w : Nat) : Bool :=
  match v with
  | some n => decide (n < 2 ^ w)
  | none => false

/-- A present signed number that fits `w` bits in two's complement. -/
def isInt (v : Option Int) (w : Nat) : Bool :=
  match v with
  | some n => decide (-(2 : Int) ^ (w - 1) ≤ n) && decide (n < (2 : Int) ^ (w - 1))
  | none => false

/-- Every encoded field of the header is present with its documented width, `finalState`
with 6 bytes and `voters` with 16 bits. -/
def hasDocumentedWidths (h : BlockHeader) : Bool :=
  isInt h.version 32 && hasBytes h.prevHash 32 && hasBytes h.merkleRoot 32 &&
  hasBytes h.stakeRoot 32 && isUInt h.voteBits 16 && hasBytes h.finalState 6 &&
  isInt h.voters 16 && isUInt h.freshStake 8 && isUInt h.revocations 8 &&
  isUInt h.poolSize 32 && isUInt h.bits 32 && isInt h.sbits 64 && isUInt h.height 32 &&
  isUInt h.size 32 && isUInt h.timestamp 32 && isUInt h.nonce 32 &&
  hasBytes h.extraData 32 && isUInt h.stakeVersion 32 && hasBytes h.equihashSolution 100

/-! ## Sample inputs -/

/-- A stand-in digest of 32 bytes, used where a statement is evaluated on a sample. -/
def sampleDigest : Buffer → Buffer :=
  fun b => List.replicate 31 0 ++ [Fin.ofNat b.length]

/-- A buffer of 272 zero bytes. -/
def zeroBuffer : Buffer := List.replicate 272 0

/-- A buffer whose byte at offset `i` is `i` modulo 256. -/
def sampleBuffer : Buffer := (List.range 272).map Fin.ofNat

/-- A header with every field present in its documented width. -/
def sampleHeader : BlockHeader :=
  { version := some 1
    prevHash := some (List.replicate 32 1)
    merkleRoot := some (List.replicate 32 2)
    stakeRoot := some (List.replicate 32 3)
    voteBits := some 1
    finalState := some [10, 11, 12, 13, 14, 15]
    voters := some 5
    freshStake := some 4
    revocations := some 7
    poolSize := some 1000
    bits := some 0x1d00ffff
    sbits := some 200000000
    height := some 42
    size := some 500
    timestamp := some 1531731600
    nonce := some 9
    extraData := some (List.replicate 32 4)
    stakeVersion := some 1
    equihashSolution := some (List.replicate 100 5)
    time := some 1531731600 }

/-- The accessor `hash`: it is defined with the same `idProperty` as `id`. -/
def BlockHeader.hash (sha256 : Buffer → Buffer) (h : BlockHeader) : List Char × BlockHeader :=
  h.id sha256

/-- An assignment `header.field = value` to one of the instance fields, or to `hash` or
`id`. -/
inductive Assignment where
  | version (v : Option Int)
  | prevHash (v : Option Buffer)
  | merkleRoot (v : Option Buffer)
  | stakeRoot (v : Option Buffer)
  | voteBits (v : Option Nat)
  | finalState (v : Option Buffer)
  | voters (v : Option Int)
  | freshStake (v : Option Nat)
  | revocations (v : Option Nat)
  | poolSize (v : Option Nat)
  | bits (v : Option Nat)
  | sbits (v : Option Int)
  | height (v : Option Nat)
  | size (v : Option Nat)
  | timestamp (v : Option Nat)
  | nonce (v : Option Nat)
  | extraData (v : Option Buffer)
  | stakeVersion (v : Option Nat)
  | equihashSolution (v : Option Buffer)
  | time (v : Option Nat)
  | hash (v : Option (List Char))
  | id (v : Option (List Char))
  deriving DecidableEq, Repr

/-- The header after an assignment. A field takes the assigned value; `hash` and `id`
have the setter `_.noop`, which leaves the header as it is. -/
def BlockHeader.assign (h : BlockHeader) (a : Assignment) : BlockHeader :=
  match a with
  | Assignment.version v => { h with version := v }
  | Assignment.prevHash v => { h with prevHash := v }
  | Assignment.merkleRoot v => { h with merkleRoot := v }
  | Assignment.stakeRoot v => { h with stakeRoot := v }
  | Assignment.voteBits v => { h with voteBits := v }
  | Assignment.finalState v => { h with finalState := v }
  | Assignment.voters v => { h with voters := v }
  | Assignment.freshStake v => { h with freshStake := v }
  | Assignment.revocations v => { h with revocations := v }
  | Assignment.poolSize v => { h with poolSize := v }
  | Assignment.bits v => { h with bits := v }
  | Assignment.sbits v => { h with sbits := v }
  | Assignment.height v => { h with height := v }
  | Assignment.size v => { h with size := v }
  | Assignment.timestamp v => { h with timestamp := v }
  | Assignment.nonce v => { h with nonce := v }
  | Assignment.extraData v => { h with extraData := v }
  | Assignment.stakeVersion v => { h with stakeVersion := v }
  | Assignment.equihashSolution v => { h with equihashSolution := v }
  | Assignment.time v => { h with time := v }
  | Assignment.hash _ => h
  | Assignment.id _ => h

/-- One step of a program that uses a header: an assignment, a read of `hash`, or a read
of `id`. -/
inductive Action where
  | assign (a : Assignment)
  | readHash
  | readId
  deriving DecidableEq, Repr

/-- The texts the reads of a sequence of steps return, in order, and the header after the
last step. -/
def BlockHeader.run (sha256 : Buffer → Buffer) (h : BlockHeader) :
    List Action → List (List Char) × BlockHeader
  | [] => ([], h)
  | Action.assign a :: rest => BlockHeader.run sha256 (h.assign a) rest
  | Action.readHash :: rest =>
    let r := h.hash sha256
    let out := BlockHeader.run sha256 r.2 rest
    (r.1 :: out.1, out.2)
  | Action.readId :: rest =>
    let r := h.id sha256
    let out := BlockHeader.run sha256 r.2 rest
    (r.1 :: out.1, out.2)

/-! ## JavaScript numbers -/

/-- A JavaScript number: a finite double given by its exact value, `NaN`, or an infinity.
The two zeros are not told apart. -/
inductive JSNumber where
  | finite (q : ℚ)
  | nan
  | posInf
  | negInf
  deriving DecidableEq, Repr

/-- The power of two with an integer exponent. -/
def pow2 (k : ℤ) : ℚ :=
  if 0 ≤ k then ((2 ^ k.toNat : ℕ) : ℚ) else 1 / ((2 ^ (-k).toNat : ℕ) : ℚ)

/-- The number of halvings that bring `n` below 2, with `fuel` steps at most. -/
def natLog2Aux : Nat → Nat → Nat
  | 0, _ => 0
  | fuel + 1, n => if 2 ≤ n then natLog2Aux fuel (n / 2) + 1 else 0

/-- The binary logarithm of a natural number, rounded down. -/
def natLog2 (n : Nat) : Nat := natLog2Aux n n

/-- The binary logarithm of a positive rational, rounded down. -/
def floorLog2 (q : ℚ) : ℤ :=
  let a : ℤ := natLog2 q.num.natAbs
  let b : ℤ := natLog2 q.den
  if pow2 (a - b) ≤ q then a - b else a - b - 1

/-- The integer nearest to a non-negative rational, the even one of two equally near. -/
def roundHalfEven (x : ℚ) : ℕ :=
  let f := x.floor.toNat
  let r := x - f
  if r < 1 / 2 then f else if 1 / 2 < r then f + 1 else if f % 2 = 0 then f else f + 1

/-- The integer nearest to a non-negative rational, the larger one of two equally near. -/
def roundHalfUp (x : ℚ) : ℕ :=
  let f := x.floor.toNat
  if x - f < 1 / 2 then f else f + 1

/-- The double nearest to a rational (IEEE 754 binary64, round to nearest, ties to even):
53 significant bits, least exponent -1074, infinity from 2^1024 on. -/
def roundDouble (q : ℚ) : JSNumber :=
  if q = 0 then JSNumber.finite 0
  else
    let a := |q|
    let e := max (floorLog2 a - 52) (-1074)
    let m := roundHalfEven (a / pow2 e)
    let v := (m : ℚ) * pow2 e
    if pow2 1024 ≤ v then (if 0 < q then JSNumber.posInf else JSNumber.negInf)
    else JSNumber.finite (if 0 < q then v else -v)

namespace JSNumber

/-- The product `x * y` of two numbers. -/
def mul (x y : JSNumber) : JSNumber :=
  match x, y with
  | nan, _ => nan
  | _, nan => nan
  | finite a, finite b => roundDouble (a * b)
  | finite a, posInf => if a = 0 then nan else if 0 < a then posInf else negInf
  | finite a, negInf => if a = 0 then nan else if 0 < a then negInf else posInf
  | posInf, finite b => if b = 0 then nan else if 0 < b then posInf else negInf
  | negInf, finite b => if b = 0 then nan else if 0 < b then negInf else posInf
  | posInf, posInf => posInf
  | negInf, negInf => posInf
  | posInf, negInf => negInf
  | negInf, posInf => negInf

/-- The quotient `x / y` of two numbers; a zero divisor is taken as `+0`. -/
def div (x y : JSNumber) : JSNumber :=
  match x, y with
  | nan, _ => nan
  | _, nan => nan
  | finite a, finite b =>
    if b = 0 then (if a = 0 then nan else if 0 < a then posInf else negInf)
    else roundDouble (a / b)
  | finite _, posInf => finite 0
  | finite _, negInf => finite 0
  | posInf, finite b => if 0 ≤ b then posInf else negInf
  | negInf, finite b => if 0 ≤ b then negInf else posInf
  | posInf, posInf => nan
  | negInf, negInf => nan
  | posInf, negInf => nan
  | negInf, posInf => nan

/-- The comparison `x <= 0`. -/
def leZero (x : JSNumber) : Bool :=
  match x with
  | finite q => decide (q ≤ 0)
  | nan => false
  | posInf => false
  | negInf => true

end JSNumber

/-! ## Texts of numbers -/

/-- The digits of `s` without the zeros at its end. -/
def stripTrailingZeros (s : List Char) : List Char :=
  (s.reverse.dropWhile (fun c => c == '0')).reverse

/-- The power of ten that `k` significant digits of the double `a` are multiples of, for
`a` at least 10^21. -/
def digitUnit (a : ℚ) (k : Nat) : Nat :=
  10 ^ ((Nat.toDigits 10 a.floor.toNat).length - k)

/-- The integer whose decimal text is the shortest one that reads back as the double `a`,
for `a` at least 10^21. For `k` significant digits the candidates are the two multiples
of `digitUnit a k` next to `a`; the first `k`, up to `fuel` more, for which a candidate
rounds to `a` is taken, and of two such candidates the nearer one, the even multiple when
both are equally near. -/
def shortestInteger (a : ℚ) : Nat → Nat → Nat
  | 0, _ => a.floor.toNat
  | fuel + 1, k =>
    let p := digitUnit a k
    let s0 := a.floor.toNat / p
    match [s0, s0 + 1].filter
        (fun s => roundDouble ((s * p : ℕ) : ℚ) == JSNumber.finite a) with
    | [] => shortestInteger a fuel (k + 1)
    | [s] => s * p
    | s :: t :: _ =>
      if |((s * p : ℕ) : ℚ) - a| < |((t * p : ℕ) : ℚ) - a| then s * p
      else if |((t * p : ℕ) : ℚ) - a| < |((s * p : ℕ) : ℚ) - a| then t * p
      else if s % 2 = 0 then s * p else t * p

/-- The text `Number::toString(a)` of a double `a` that is at least 10^21: the
significant digits, a point after the first when there are several, and the decimal
exponent. -/
def numberToStringLarge (a : ℚ) : List Char :=
  let v := Nat.toDigits 10 (shortestInteger a 17 1)
  let digits := stripTrailingZeros v
  let mantissa := match digits with
    | [] => ['0']
    | [d] => [d]
    | d :: rest => d :: '.' :: rest
  mantissa ++ ['e', '+'] ++ Nat.toDigits 10 (v.length - 1)

/-- The text `x.toFixed(f)` for `f` at most 100. -/
def toFixed (x : JSNumber) (f : Nat) : List Char :=
  match x with
  | JSNumber.nan => ['N', 'a', 'N']
  | JSNumber.posInf => ['I', 'n', 'f', 'i', 'n', 'i', 't', 'y']
  | JSNumber.negInf => ['-', 'I', 'n', 'f', 'i', 'n', 'i', 't', 'y']
  | JSNumber.finite q =>
    let s := if q < 0 then ['-'] else []
    let a := |q|
    if (10 : ℚ) ^ 21 ≤ a then
      s ++ numberToStringLarge a
    else
      let n := roundHalfUp (a * 10 ^ f)
      let m := Nat.toDigits 10 n
      if f = 0 then
        s ++ m
      else
        let m := List.replicate (f + 1 - m.length) '0' ++ m
        s ++ m.take (m.length - f) ++ ['.'] ++ m.drop (m.length - f)

/-- White space and line terminators, which the number parsers skip. -/
def isWhiteSpace (c : Char) : Bool :=
  let n := c.toNat
  n == 9 || n == 10 || n == 11 || n == 12 || n == 13 || n == 32 || n == 160 ||
  n == 0x1680 || (0x2000 ≤ n && n ≤ 0x200A) || n == 0x2028 || n == 0x2029 ||
  n == 0x202F || n == 0x205F || n == 0x3000 || n == 0xFEFF

/-- The exponent part at the start of a text, if there is a well-formed one: its value
and the rest of the text. -/
def parseExponent (s : List Char) : Option (ℤ × List Char) :=
  match s with
  | c :: rest =>
    if c == 'e' || c == 'E' then
      let (neg, body) := match rest with
        | '-' :: t => (true, t)
        | '+' :: t => (false, t)
        | t => (false, t)
      let ds := body.takeWhile Char.isDigit
      if ds.isEmpty then none
      else
        let v : ℤ := BlockHeader.digitsValue ds
        some (if neg then -v else v, body.dropWhile Char.isDigit)
    else none
  | [] => none

/-- The power of ten with an integer exponent. -/
def pow10 (k : ℤ) : ℚ :=
  if 0 ≤ k then ((10 ^ k.toNat : ℕ) : ℚ) else 1 / ((10 ^ (-k).toNat : ℕ) : ℚ)

/-- The longest unsigned decimal literal at the start of a text: digits with an optional
point and fraction, or a point and a fraction, then an optional exponent. The result is
the exact value and the rest of the text. -/
def parseUnsignedDecimal (s : List Char) : Option (ℚ × List Char) :=
  let ip := s.takeWhile Char.isDigit
  let r1 := s.dropWhile Char.isDigit
  let (fp, r2, ok) := match r1 with
    | '.' :: t =>
      let fp := t.takeWhile Char.isDigit
      if ip.isEmpty && fp.isEmpty then ([], r1, false) else (fp, t.dropWhile Char.isDigit, true)
    | _ => ([], r1, !ip.isEmpty)
  if ok then
    let v : ℚ := (BlockHeader.digitsValue (ip ++ fp) : ℚ) / 10 ^ fp.length
    match parseExponent r2 with
    | some (e, r3) => some (v * pow10 e, r3)
    | none => some (v, r2)
  else none

/-- The longest `StrDecimalLiteral` at the start of a text, as a number, and the rest. -/
def parseStrDecimalLiteral (s : List Char) : Option (JSNumber × List Char) :=
  let (neg, body) := match s with
    | '-' :: t => (true, t)
    | '+' :: t => (false, t)
    | t => (false, t)
  match body with
  | 'I' :: 'n' :: 'f' :: 'i' :: 'n' :: 'i' :: 't' :: 'y' :: rest =>
    some (if neg then JSNumber.negInf else JSNumber.posInf, rest)
  | _ =>
    match parseUnsignedDecimal body with
    | some (v, rest) => some (roundDouble (if neg then -v else v), rest)
    | none => none

/-- The function `parseFloat` on a text. -/
def jsParseFloat (s : List Char) : JSNumber :=
  match parseStrDecimalLiteral (s.dropWhile isWhiteSpace) with
  | some (v, _) => v
  | none => JSNumber.nan

/-- The function `parseInt` on a text, without a radix argument. -/
def jsParseInt (s : List Char) : JSNumber :=
  let t := s.dropWhile isWhiteSpace
  let (neg, body) := match t with
    | '-' :: r => (true, r)
    | '+' :: r => (false, r)
    | r => (false, r)
  let (hex, body) := match body with
    | '0' :: 'x' :: r => (true, r)
    | '0' :: 'X' :: r => (true, r)
    | r => (false, r)
  let ds := if hex then body.takeWhile (fun c => (hexVal c).isSome) else body.takeWhile Char.isDigit
  if ds.isEmpty then JSNumber.nan
  else
    let v : ℚ := if hex then (BN.fromHex ds : ℚ) else (BlockHeader.digitsValue ds : ℚ)
    roundDouble (if neg then -v else v)

/-! ## Units of `lib/unit.js` -/

/-- The value of a literal with a radix prefix, given its digits: they must all be digits
of the radix, and there must be one at least. -/
def radixLiteral (radix : Nat) (r : List Char) : JSNumber :=
  if !r.isEmpty && r.all (fun c => decide (((hexVal c).getD radix) < radix)) then
    roundDouble ((r.foldl (fun acc c => acc * radix + (hexVal c).getD 0) 0 : ℕ) : ℚ)
  else JSNumber.nan

/-- The number `ToNumber(s)` of a text used as an operand: white space around the literal
is skipped, the empty text is 0, a literal with prefix `0x`, `0o` or `0b` is read in its
radix, any other text must be a decimal literal as a whole, and what is no literal is
`NaN`. -/
def stringToNumber (s : List Char) : JSNumber :=
  let t := ((s.dropWhile isWhiteSpace).reverse.dropWhile isWhiteSpace).reverse
  match t with
  | [] => JSNumber.finite 0
  | '0' :: 'x' :: r => radixLiteral 16 r
  | '0' :: 'X' :: r => radixLiteral 16 r
  | '0' :: 'o' :: r => radixLiteral 8 r
  | '0' :: 'O' :: r => radixLiteral 8 r
  | '0' :: 'b' :: r => radixLiteral 2 r
  | '0' :: 'B' :: r => radixLiteral 2 r
  | _ =>
    match parseStrDecimalLiteral t with
    | some (v, []) => v
    | _ => JSNumber.nan

/-- The first argument of the constructor: a number or a string. -/
inductive Amount where
  | number (n : JSNumber)
  | string (s : List Char)
  deriving DecidableEq, Repr

/-- The number an amount is in an arithmetic expression. -/
def Amount.toNumber (a : Amount) : JSNumber :=
  match a with
  | Amount.number n => n
  | Amount.string s => stringToNumber s

/-- The second argument of the constructor and the argument of `to`: a unit code or an
exchange rate. -/
inductive Code where
  | string (s : List Char)
  | number (n : JSNumber)
  deriving DecidableEq, Repr

/-- Errors of `errors.Unit`. -/
inductive UnitError where
  | unknownCode
  | invalidRate
  deriving DecidableEq, Repr

deriving instance DecidableEq for Except

/-- What the lookup `UNITS[code]` finds: an own entry of the table with its factor and
its number of decimals, a property every object inherits from `Object.prototype`, or
nothing. -/
inductive UnitsEntry where
  | unit (factor : ℚ) (decimals : Nat)
  | inherited
  | absent
  deriving DecidableEq, Repr

/-- The names of the properties of `Object.prototype`. -/
def objectPrototypeKeys : List String :=
  ["constructor", "toString", "toLocaleString", "valueOf", "hasOwnProperty",
    "isPrototypeOf", "propertyIsEnumerable", "__proto__", "__defineGetter__",
    "__defineSetter__", "__lookupGetter__", "__lookupSetter__"]

/-- The table `UNITS`, read with `UNITS[code]`. -/
def UNITS (code : List Char) : UnitsEntry :=
  if code = "EXCC".toList then UnitsEntry.unit 100000000 8
  else if code = "mEXCC".toList then UnitsEntry.unit 100000 5
  else if code = "uEXCC".toList then UnitsEntry.unit 100 2
  else if code = "bits".toList then UnitsEntry.unit 100 2
  else if code = "dbits".toList then UnitsEntry.unit 100 2
  else if code = "exels".toList then UnitsEntry.unit 1 0
  else if objectPrototypeKeys.any (fun k => k.toList == code) then UnitsEntry.inherited
  else UnitsEntry.absent

/-- The number `UNITS[code][0]` of an entry that was found; on an inherited property the
index gives `undefined`, which is `NaN` in arithmetic. -/
def UnitsEntry.factor (e : UnitsEntry) : JSNumber :=
  match e with
  | UnitsEntry.unit f _ => JSNumber.finite f
  | _ => JSNumber.nan

/-- The argument `UNITS[code][1]` of `toFixed`; `undefined` is 0 digits. -/
def UnitsEntry.decimals (e : UnitsEntry) : Nat :=
  match e with
  | UnitsEntry.unit _ d => d
  | _ => 0

/-- A `Unit` instance: the number in `_value`. -/
structure Unit where
  _value : JSNumber
  deriving DecidableEq, Repr

namespace Unit

/-- The method `_from(amount, code)`. -/
def _from (amount : JSNumber) (code : List Char) : Except UnitError JSNumber :=
  match UNITS code with
  | UnitsEntry.absent => .error UnitError.unknownCode
  | entry => .ok (jsParseInt (toFixed (JSNumber.mul amount entry.factor) 0))

/-- The constructor `new Unit(amount, code)`. -/
def new (amount : Amount) (code : Code) : Except UnitError Unit :=
  match code with
  | Code.number rate =>
    if rate.leZero then .error UnitError.invalidRate
    else
      match Unit._from (JSNumber.div amount.toNumber rate) "EXCC".toList with
      | .ok v => .ok { _value := v }
      | .error e => .error e
  | Code.string s =>
    match Unit._from amount.toNumber s with
    | .ok v => .ok { _value := v }
    | .error e => .error e

/-- The branch of `to(code)` for a unit code. -/
def toCode (u : Unit) (code : List Char) : Except UnitError JSNumber :=
  match UNITS code with
  | UnitsEntry.absent => .error UnitError.unknownCode
  | entry => .ok (jsParseFloat (toFixed (JSNumber.div u._value entry.factor) entry.decimals))

/-- The accessor `EXCC`, which is `to('EXCC')`; the code is in the table. -/
def EXCC (u : Unit) : JSNumber :=
  jsParseFloat (toFixed (JSNumber.div u._value (JSNumber.finite 100000000)) 8)

/-- The method `to(code)`. -/
def to_ (u : Unit) (code : Code) : Except UnitError JSNumber :=
  match code with
  | Code.number rate =>
    if rate.leZero then .error UnitError.invalidRate
    else .ok (jsParseFloat (toFixed (JSNumber.mul u.EXCC rate) 2))
  | Code.string s => u.toCode s

/-- The method `atRate(rate)`. -/
def atRate (u : Unit) (rate : Code) : Except UnitError JSNumber :=
  u.to_ rate

/-- The factories `fromEXCC`, `fromMillis`, `fromDbits`, `fromExels` and `fromFiat`. -/
def fromEXCC (amount : Amount) : Except UnitError Unit :=
  Unit.new amount (Code.string "EXCC".toList)

def fromMillis (amount : Amount) : Except UnitError Unit :=
  Unit.new amount (Code.string "mEXCC".toList)

def fromDbits (amount : Amount) : Except UnitError Unit :=
  Unit.new amount (Code.string "dbits".toList)

def fromExels (amount : Amount) : Except UnitError Unit :=
  Unit.new amount (Code.string "exels".toList)

def fromFiat (amount : Amount) (rate : JSNumber) : Except UnitError Unit :=
  Unit.new amount (Code.number rate)

end Unit

/-- The six unit codes. -/
def unitCodes : List (List Char) :=
  ["EXCC".toList, "mEXCC".toList, "uEXCC".toList, "bits".toList, "dbits".toList,
    "exels".toList]

/-- The double a decimal literal of the source denotes. -/
def lit (q : ℚ) : JSNumber := roundDouble q

/-- The value `new Unit(amount, code).to(target)` with all three arguments given. -/
def convert (amount : Amount) (code : Code) (target : Code) : Except UnitError JSNumber :=
  match Unit.new amount code with
  | .ok u => u.to_ target
  | .error e => .error e

/-- The plain object `toObject` returns and `fromObject` reads: the keys `amount` and
`code`. -/
structure UnitObject where
  amount : Amount
  code : Code
  deriving DecidableEq, Repr

/-- The method `toObject`. -/
def Unit.toObject (u : Unit) : UnitObject :=
  { amount := Amount.number u.EXCC, code := Code.string "EXCC".toList }

/-- The factory `Unit.fromObject` on an object with the two keys; the argument check
passes for every object. -/
def Unit.fromObject (data : UnitObject) : Except UnitError Unit :=
  Unit.new data.amount data.code

/-! ## Lemmas on the codec -/

theorem doubling_eq (n target : Nat) : BlockHeader.doubling n target = target * 2 ^ n := by
  induction n generalizing target with
  | zero => simp [BlockHeader.doubling]
  | succ k ih => rw [BlockHeader.doubling, ih, pow_succ]; ring

theorem read_ok (br : BufferReader) (len : Nat) (hlen : br.pos + len ≤ br.buf.length) :
    br.read len = .ok (slice br.buf br.pos len, { buf := br.buf, pos := br.pos + len }) := by
  simp [BufferReader.read, hlen]

theorem readUIntLE_ok (br : BufferReader) (w : Nat) (hlen : br.pos + w ≤ br.buf.length) :
    br.readUIntLE w =
      .ok (uintLEAt br.buf br.pos w, { buf := br.buf, pos := br.pos + w }) := by
  simp [BufferReader.readUIntLE, read_ok br w hlen, uintLEAt]

theorem readIntLE_ok (br : BufferReader) (w : Nat) (hlen : br.pos + w ≤ br.buf.length) :
    br.readIntLE w =
      .ok (intLEAt br.buf br.pos w, { buf := br.buf, pos := br.pos + w }) := by
  simp [BufferReader.readIntLE, read_ok br w hlen, intLEAt, uintLEAt]

/-- With 272 bytes left the decoder succeeds, returns the object of the documented layout
and leaves the cursor 272 bytes further. -/
theorem fromBufferReader_ok (br : BufferReader) (hlen : br.pos + 272 ≤ br.buf.length) :
    BlockHeader._fromBufferReader br =
      .ok (layoutInfo br.buf br.pos, { buf := br.buf, pos := br.pos + 272 }) := by
  obtain ⟨buf, pos⟩ := br
  simp only at hlen
  unfold BlockHeader._fromBufferReader
  simp only [BufferReader.readInt32LE, BufferReader.readUInt16LE, BufferReader.readUInt8,
    BufferReader.readUInt32LE, BufferReader.readInt64]
  rw [readIntLE_ok _ _ (by simp only; omega)]
  simp only [bind, Except.bind]
  iterate 3 (rw [read_ok _ _ (by simp only; omega)]; simp only [])
  iterate 5 (rw [readUIntLE_ok _ _ (by simp only; omega)]; simp only [])
  rw [readIntLE_ok _ _ (by simp only; omega)]; simp only []
  iterate 4 (rw [readUIntLE_ok _ _ (by simp only; omega)]; simp only [])
  rw [read_ok _ _ (by simp only; omega)]; simp only []
  rw [readUIntLE_ok _ _ (by simp only; omega)]; simp only []
  rw [read_ok _ _ (by simp only; omega)]; simp only []
  simp only [pure, Except.pure, layoutInfo, Nat.add_assoc]

theorem slice_slice (buf : Buffer) (pos off w n : Nat) (h : off + w ≤ n) :
    slice (slice buf pos n) off w = slice buf (pos + off) w := by
  unfold slice
  rw [List.drop_take, List.take_take, List.drop_drop]
  congr 1
  omega

theorem layoutInfo_slice (buf : Buffer) (pos : Nat) :
    layoutInfo (slice buf pos 272) 0 = layoutInfo buf pos := by
  simp [layoutInfo, uintLEAt, intLEAt, slice_slice]

theorem slice_length (buf : Buffer) (off len : Nat) (h : off + len ≤ buf.length) :
    (slice buf off len).length = len := by
  simp [slice]; omega

theorem leBytes_length (w n : Nat) : (leBytes w n).length = w := by
  induction w generalizing n with
  | zero => rfl
  | succ k ih => simp [leBytes, ih]

/-- The header the constructor builds from a buffer of at least 272 bytes. -/
theorem new_buffer (sha256 : Buffer → Buffer) (b : Buffer) (hb : 272 ≤ b.length) :
    BlockHeader.new sha256 (Arg.buffer b) = .ok (assignFields (layoutInfo b 0)) := by
  have h0 := fromBufferReader_ok (BufferReader.ofBuffer b)
    (by simpa [BufferReader.ofBuffer] using hb)
  simp only [BlockHeader.new, _from, h0]
  simp [BufferReader.ofBuffer, layoutInfo, checkHash, truthyStr, defaultTimestamp, assignFields]

/-- The header `fromBuffer` builds from a buffer of at least 272 bytes: the decoded object
goes through `_fromObject`, which drops `freshStake`. -/
theorem fromBuffer_eq (sha256 : Buffer → Buffer) (b : Buffer) (hb : 272 ≤ b.length) :
    BlockHeader.fromBuffer sha256 b =
      .ok { assignFields (layoutInfo b 0) with freshStake := none } := by
  have h0 := fromBufferReader_ok (BufferReader.ofBuffer b)
    (by simpa [BufferReader.ofBuffer] using hb)
  simp only [BlockHeader.fromBuffer, h0, bind, Except.bind, BlockHeader.new, _from]
  simp [BufferReader.ofBuffer, layoutInfo, checkHash, truthyStr, defaultTimestamp, assignFields,
    _fromObject, Info.toFieldMap, hashFieldBytes]

theorem toBuffer_length (h : BlockHeader) :
    (toBuffer h).length =
      (h.prevHash.getD []).length + (h.merkleRoot.getD []).length +
      (h.stakeRoot.getD []).length + (h.finalState.getD []).length +
      (h.extraData.getD []).length + (h.equihashSolution.getD []).length + 46 := by
  simp [toBuffer, toBufferWriter, BufferWriter.concat, BufferWriter.write,
    BufferWriter.writeInt32LE, BufferWriter.writeUInt16LE, BufferWriter.writeInt16LE,
    BufferWriter.writeUInt8, BufferWriter.writeUInt32LE, BufferWriter.writeInt64,
    BufferWriter.writeUIntLE, BufferWriter.writeIntLE, BufferWriter.empty, leBytes_length]
  omega

theorem hasBytes_length {v : Option Buffer} {n : Nat} (h : hasBytes v n = true) :
    (v.getD []).length = n := by
  cases v with
  | none => simp [hasBytes] at h
  | some b => simpa [hasBytes] using h

/-! ## Encoding a decoded header, decoding an encoded one -/

/-- C1: for every buffer of exactly 272 bytes, decoding succeeds on both byte paths, and
encoding the decoded header gives 274 bytes, not the 272 of the buffer: the encoder writes
`finalState` and `voters`, which the decoder never reads. Whatever span stands in for the
absent `finalState`, the encoding has at least 274 bytes. -/
theorem toBuffer_decode_length (sha256 : Buffer → Buffer) (b : Buffer)
    (hb : b.length = 272) :
    (∃ h : BlockHeader, BlockHeader.fromBuffer sha256 b = .ok h ∧
      h.finalState = none ∧ h.voters = none ∧
      (toBuffer h).length = 274 ∧ toBuffer h ≠ b ∧
      ∀ fs : Option Buffer, 274 ≤ (toBuffer { h with finalState := fs }).length) ∧
    (∃ h : BlockHeader, BlockHeader.new sha256 (Arg.buffer b) = .ok h ∧
      h.finalState = none ∧ h.voters = none ∧
      (toBuffer h).length = 274 ∧ toBuffer h ≠ b ∧
      ∀ fs : Option Buffer, 274 ≤ (toBuffer { h with finalState := fs }).length) := by
  have hlen : ∀ h : BlockHeader, (toBuffer h).length = 274 → toBuffer h ≠ b := by
    intro h h1 h2
    rw [h2, hb] at h1
    omega
  have hs : ∀ off len, off + len ≤ 272 → (slice b off len).length = len :=
    fun off len h => slice_length b off len (by omega)
  refine ⟨⟨_, fromBuffer_eq sha256 b (by omega), rfl, rfl, ?_, ?_, ?_⟩,
    ⟨_, new_buffer sha256 b (by omega), rfl, rfl, ?_, ?_, ?_⟩⟩
  · rw [toBuffer_length]; simp [assignFields, layoutInfo, hs]
  · apply hlen; rw [toBuffer_length]; simp [assignFields, layoutInfo, hs]
  · intro fs; rw [toBuffer_length]; simp [assignFields, layoutInfo, hs]
  · rw [toBuffer_length]; simp [assignFields, layoutInfo, hs]
  · apply hlen; rw [toBuffer_length]; simp [assignFields, layoutInfo, hs]
  · intro fs; rw [toBuffer_length]; simp [assignFields, layoutInfo, hs]

theorem toBuffer_decode_length_witness :
    zeroBuffer.length = 272 ∧
    ∃ h : BlockHeader, BlockHeader.fromBuffer sampleDigest zeroBuffer = .ok h ∧
      (toBuffer h).length = 274 ∧ toBuffer h ≠ zeroBuffer := by
  refine ⟨List.length_replicate 272 0, ?_⟩
  obtain ⟨h, h1, _, _, h4, h5, _⟩ :=
    (toBuffer_decode_length sampleDigest zeroBuffer (List.length_replicate 272 0)).1
  exact ⟨h, h1, h4, h5⟩

/-- C2: for every header whose fields all have their documented widths, the encoding has
280 bytes, and decoding it succeeds with a header that has neither `finalState` nor
`voters` nor `freshStake`, so it differs from the header encoded. -/
theorem fromBuffer_toBuffer_ne (sha256 : Buffer → Buffer) (h : BlockHeader)
    (hw : hasDocumentedWidths h = true) :
    (toBuffer h).length = 280 ∧
    ∃ h2 : BlockHeader, BlockHeader.fromBuffer sha256 (toBuffer h) = .ok h2 ∧
      h2.finalState = none ∧ h2.voters = none ∧ h2.freshStake = none ∧ h2 ≠ h := by
  simp only [hasDocumentedWidths, Bool.and_eq_true] at hw
  obtain ⟨⟨⟨⟨⟨⟨⟨⟨⟨⟨⟨⟨⟨⟨⟨⟨⟨⟨_, h1⟩, h2⟩, h3⟩, _⟩, h5⟩, _⟩, _⟩, _⟩, _⟩, _⟩, _⟩, _⟩, _⟩, _⟩, _⟩, h6⟩, _⟩,
    h7⟩ := hw
  have hl : (toBuffer h).length = 280 := by
    rw [toBuffer_length, hasBytes_length h1, hasBytes_length h2, hasBytes_length h3,
      hasBytes_length h5, hasBytes_length h6, hasBytes_length h7]
  refine ⟨hl, _, fromBuffer_eq sha256 _ (by omega), rfl, rfl, rfl, ?_⟩
  intro he
  have : (none : Option Buffer) = h.finalState := congrArg BlockHeader.finalState he
  rw [← this] at h5
  simp [hasBytes] at h5

theorem fromBuffer_toBuffer_ne_witness :
    hasDocumentedWidths sampleHeader = true ∧
    (toBuffer sampleHeader).length = 280 ∧
    ∃ h2 : BlockHeader, BlockHeader.fromBuffer sampleDigest (toBuffer sampleHeader) = .ok h2 ∧
      h2.finalState = none ∧ h2.voters = none ∧ h2.freshStake = none ∧ h2 ≠ sampleHeader :=
  ⟨by decide, fromBuffer_toBuffer_ne sampleDigest sampleHeader (by decide)⟩

/-- On the sample header the decoder reads the bytes of `finalState` and `voters` as the
fields that follow `voteBits`: the decoded `revocations` is the second byte of
`finalState`, and the decoded `bits` is made of `voters`, `freshStake` and
`revocations`. -/
theorem sampleHeader_decoded_shift :
    ∃ h2 : BlockHeader, BlockHeader.fromBuffer sampleDigest (toBuffer sampleHeader) = .ok h2 ∧
      h2.revocations = some 11 ∧ sampleHeader.revocations = some 7 ∧
      h2.bits = some (5 + 256 * (0 + 256 * (4 + 256 * 7))) ∧
      sampleHeader.bits = some 0x1d00ffff := by
  have hl : 272 ≤ (toBuffer sampleHeader).length := by
    rw [toBuffer_length]; decide
  refine ⟨_, fromBuffer_eq sampleDigest _ hl, ?_, rfl, ?_, rfl⟩
  · show some (uintLEAt (toBuffer sampleHeader) (0 + 103) 1) = some 11
    rfl
  · show some (uintLEAt (toBuffer sampleHeader) (0 + 108) 4) = some _
    rfl

/-! ## Decoding follows the documented layout -/

/-- C3: for every buffer of at least 272 bytes, the header the constructor builds from the
raw bytes has every field equal to the little-endian reading of the buffer at its
documented offset. -/
theorem new_buffer_fields (sha256 : Buffer → Buffer) (b : Buffer) (hb : 272 ≤ b.length) :
    ∃ h : BlockHeader, BlockHeader.new sha256 (Arg.buffer b) = .ok h ∧
      h.version = some (intLEAt b 0 4) ∧
      h.prevHash = some (slice b 4 32) ∧
      h.merkleRoot = some (slice b 36 32) ∧
      h.stakeRoot = some (slice b 68 32) ∧
      h.voteBits = some (uintLEAt b 100 2) ∧
      h.freshStake = some (uintLEAt b 102 1) ∧
      h.revocations = some (uintLEAt b 103 1) ∧
      h.poolSize = some (uintLEAt b 104 4) ∧
      h.bits = some (uintLEAt b 108 4) ∧
      h.sbits = some (intLEAt b 112 8) ∧
      h.height = some (uintLEAt b 120 4) ∧
      h.size = some (uintLEAt b 124 4) ∧
      h.timestamp = some (uintLEAt b 128 4) ∧
      h.nonce = some (uintLEAt b 132 4) ∧
      h.extraData = some (slice b 136 32) ∧
      h.stakeVersion = some (uintLEAt b 168 4) ∧
      h.equihashSolution = some (slice b 172 100) := by
  refine ⟨_, new_buffer sha256 b hb, ?_⟩
  simp [assignFields, layoutInfo]

theorem new_buffer_fields_witness :
    272 ≤ sampleBuffer.length ∧
    ∃ h : BlockHeader, BlockHeader.new sampleDigest (Arg.buffer sampleBuffer) = .ok h ∧
      h.freshStake = some 102 ∧ h.revocations = some 103 ∧ h.voteBits = some (100 + 256 * 101) := by
  refine ⟨by simp [sampleBuffer], ?_⟩
  obtain ⟨h, h1, _, _, _, _, h5, h6, h7, _⟩ :=
    new_buffer_fields sampleDigest sampleBuffer (by simp [sampleBuffer])
  refine ⟨h, h1, ?_, ?_, ?_⟩
  · rw [h6]; simp [sampleBuffer, uintLEAt, slice, List.range, List.range.loop, leNat]; decide
  · rw [h7]; simp [sampleBuffer, uintLEAt, slice, List.range, List.range.loop, leNat]; decide
  · rw [h5]; simp [sampleBuffer, uintLEAt, slice, List.range, List.range.loop, leNat]; decide

/-- C4: for every reader with at least 272 bytes remaining, decoding one header succeeds
and leaves the cursor exactly 272 bytes further, the sum of the documented widths; the
decoded object is determined by those 272 bytes alone, so no byte outside them is read. -/
theorem fromBufferReader_span (br : BufferReader) (hlen : br.pos + 272 ≤ br.buf.length) :
    layoutWidths.sum = 272 ∧
    ∃ info : Info,
      BlockHeader._fromBufferReader br =
        .ok (info, { br with pos := br.pos + layoutWidths.sum }) ∧
      ∀ br2 : BufferReader, br2.pos + 272 ≤ br2.buf.length →
        slice br2.buf br2.pos 272 = slice br.buf br.pos 272 →
        BlockHeader._fromBufferReader br2 = .ok (info, { br2 with pos := br2.pos + 272 }) := by
  have hsum : layoutWidths.sum = 272 := by simp [layoutWidths]
  refine ⟨hsum, layoutInfo br.buf br.pos, ?_, ?_⟩
  · rw [hsum]; exact fromBufferReader_ok br hlen
  · intro br2 h2 hs
    rw [fromBufferReader_ok br2 h2, ← layoutInfo_slice br2.buf, hs, layoutInfo_slice]

theorem fromBufferReader_span_witness :
    (8 : Nat) + 272 ≤ (List.replicate 8 (7 : Byte) ++ sampleBuffer ++ [9, 9]).length ∧
    layoutWidths.sum = 272 ∧
    ∃ info : Info,
      BlockHeader._fromBufferReader
          { buf := List.replicate 8 (7 : Byte) ++ sampleBuffer ++ [9, 9], pos := 8 } =
        .ok (info, { buf := List.replicate 8 (7 : Byte) ++ sampleBuffer ++ [9, 9],
                     pos := 8 + layoutWidths.sum }) :=
  ⟨by simp [sampleBuffer],
   (fromBufferReader_span
      { buf := List.replicate 8 (7 : Byte) ++ sampleBuffer ++ [9, 9], pos := 8 }
      (by simp [sampleBuffer])).1,
   (fromBufferReader_span
      { buf := List.replicate 8 (7 : Byte) ++ sampleBuffer ++ [9, 9], pos := 8 }
      (by simp [sampleBuffer])).2.imp fun _ hinfo => hinfo.1⟩

/-! ## A supplied hash is checked -/

theorem assignFields_hash (info : Info) (v : Option (List Char)) :
    assignFields { info with hash := v } = assignFields info := rfl

theorem fromObject_hash (o : FieldMap) (v : Option (List Char)) :
    _fromObject { o with hash := v } = { _fromObject o with hash := v } := by
  unfold _fromObject
  simp only
  split <;> rfl

theorem fromObject_hash_eq (o : FieldMap) : (_fromObject o).hash = o.hash := by
  unfold _fromObject
  simp only
  split <;> rfl

/-- C5 (amended): for every field map whose hash is a non-empty string, construction
returns the header built from the other fields when the supplied hash equals the hash
derived from that header, and fails with the hash-mismatch error, returning no header,
when it differs. -/
theorem new_object_hash (sha256 : Buffer → Buffer) (o : FieldMap) (s : List Char)
    (hs : o.hash = some s) (hne : s ≠ []) :
    ∃ h0 : BlockHeader,
      BlockHeader.new sha256 (Arg.object { o with hash := none }) = .ok h0 ∧
      (s = (h0.id sha256).1 →
        BlockHeader.new sha256 (Arg.object o) = .ok (h0.id sha256).2) ∧
      (s ≠ (h0.id sha256).1 →
        BlockHeader.new sha256 (Arg.object o) = .error Error.hashMismatch) := by
  have ht : truthyStr (some s) = true := by
    cases s with
    | nil => exact absurd rfl hne
    | cons c cs => rfl
  refine ⟨defaultTimestamp (assignFields (_fromObject o)), ?_, ?_, ?_⟩
  · simp only [BlockHeader.new, _from, fromObject_hash, assignFields_hash, checkHash,
      truthyStr, Bool.false_eq_true, if_false]
  · intro he
    simp only [BlockHeader.new, _from, checkHash, fromObject_hash_eq, hs, ht, if_true]
    rw [if_pos (by rw [← he])]
  · intro he
    simp only [BlockHeader.new, _from, checkHash, fromObject_hash_eq, hs, ht, if_true]
    rw [if_neg (by intro hx; exact he (Option.some.inj hx).symm)]

theorem new_object_hash_witness :
    ({ hash := some ['0', '0'] } : FieldMap).hash = some ['0', '0'] ∧
    (['0', '0'] : List Char) ≠ [] ∧
    ∃ h0 : BlockHeader,
      BlockHeader.new sampleDigest (Arg.object { hash := none }) = .ok h0 ∧
      (['0', '0'] ≠ (h0.id sampleDigest).1 →
        BlockHeader.new sampleDigest (Arg.object { hash := some ['0', '0'] }) =
          .error Error.hashMismatch) := by
  refine ⟨rfl, by decide, ?_⟩
  obtain ⟨h0, h1, _, h3⟩ :=
    new_object_hash sampleDigest { hash := some ['0', '0'] } ['0', '0'] rfl (by decide)
  exact ⟨h0, h1, h3⟩

/-- C5 (counterexample): a field map whose hash is the empty string is constructed
without error although the hash derived from the header is not the empty string. -/
theorem new_object_empty_hash :
    BlockHeader.new sampleDigest (Arg.object { hash := some [] }) = .ok {} ∧
    (({} : BlockHeader).id sampleDigest).1 ≠ [] := by
  refine ⟨rfl, ?_⟩
  simp [BlockHeader.id, truthyStr, toHexString, BufferUtil.reverse, _getHash, sampleDigest]

/-- A hash that is the empty string is never compared: the constructor returns a header
for every field map that supplies it. -/
theorem empty_hash_not_checked (sha256 : Buffer → Buffer) (o : FieldMap)
    (ho : o.hash = some []) :
    BlockHeader.new sha256 (Arg.object o) =
      .ok (defaultTimestamp (assignFields (_fromObject o))) := by
  simp [BlockHeader.new, _from, checkHash, fromObject_hash_eq, ho, truthyStr]

/-! ## The target of compact bits -/

/-- C6: for every 32-bit compact value whose exponent byte is at least 3,
`getTargetDifficulty(bits)` is the 24-bit mantissa times 2 to the power 8 × (e − 3), as an
unbounded natural number; the mantissa is `bits` modulo 2^24 and the exponent byte is
`bits` divided by 2^24. -/
theorem getTargetDifficulty_eq (h : BlockHeader) (bits : Nat) (hb : bits < 2 ^ 32)
    (he : 3 ≤ bits >>> 24) :
    getTargetDifficulty h (some bits) =
        (bits &&& 0xFFFFFF) * 2 ^ (8 * ((bits >>> 24) - 3)) ∧
      bits &&& 0xFFFFFF = bits % 2 ^ 24 ∧ bits >>> 24 = bits / 2 ^ 24 := by
  have hne : bits ≠ 0 := by
    rintro rfl
    simp at he
  refine ⟨?_, ?_, Nat.shiftRight_eq_div_pow bits 24⟩
  · have hmod : bits % 2 ^ 32 = bits := Nat.mod_eq_of_lt hb
    simp only [getTargetDifficulty, truthy, bne_iff_ne, ne_eq, hne, not_false_eq_true,
      decide_True, if_true, toNumber, Option.getD_some, hmod, doubling_eq]
    congr 2
    omega
  · exact Nat.and_pow_two_sub_one_eq_mod bits 24

theorem getTargetDifficulty_eq_witness :
    (0x1d00ffff : Nat) < 2 ^ 32 ∧ 3 ≤ (0x1d00ffff : Nat) >>> 24 ∧
    getTargetDifficulty sampleHeader (some 0x1d00ffff) = 0xffff * 2 ^ 208 := by
  refine ⟨by decide, by decide, ?_⟩
  rw [(getTargetDifficulty_eq sampleHeader 0x1d00ffff (by decide) (by decide)).1]
  decide

/-! ## Proof of work -/

theorem hexVal_hexDigit (d : Nat) (hd : d < 16) : hexVal (hexDigit d) = some d := by
  interval_cases d <;> decide

theorem fromHex_foldl (bs : Buffer) (acc : Nat) :
    (toHexString bs).foldl (fun a c => a * 16 + (hexVal c).getD 0) acc =
      bs.foldl (fun a b => a * 256 + b.val) acc := by
  induction bs generalizing acc with
  | nil => rfl
  | cons b rest ih =>
    have h1 : b.val / 16 < 16 := by omega
    have h2 : b.val % 16 < 16 := by omega
    have step : (toHexString (b :: rest)) =
        hexDigit (b.val / 16) :: hexDigit (b.val % 16) :: toHexString rest := by
      simp [toHexString]
    rw [step]
    simp only [List.foldl_cons, hexVal_hexDigit _ h1, hexVal_hexDigit _ h2, Option.getD_some]
    rw [ih]
    congr 1
    omega

/-- The hexadecimal text of a byte span, parsed back, is its big-endian value. -/
theorem fromHex_toHexString (bs : Buffer) : BN.fromHex (toHexString bs) = beNat bs :=
  fromHex_foldl bs 0

/-- C7: for every header, `validProofOfWork` returns true if and only if the header's hash
text `id`, read as a hexadecimal unsigned integer, is at most the target decoded from the
header's bits; when no hash is cached yet, that integer is the big-endian value of the
byte-reversed digest of the header's encoding. -/
theorem validProofOfWork_iff (sha256 : Buffer → Buffer) (h : BlockHeader) :
    ((validProofOfWork sha256 h).1 = true ↔
      BN.fromHex (h.id sha256).1 ≤ getTargetDifficulty h none) ∧
    (truthyStr h._id = false →
      BN.fromHex (h.id sha256).1 = beNat (BufferUtil.reverse (sha256 (toBuffer h)))) := by
  constructor
  · have hbits : (h.id sha256).2.bits = h.bits := by
      unfold BlockHeader.id
      split <;> rfl
    have ht : getTargetDifficulty (h.id sha256).2 none = getTargetDifficulty h none := by
      simp [getTargetDifficulty, hbits]
    simp only [validProofOfWork, ht]
    split
    · rename_i hgt
      simp only [Bool.false_eq_true, false_iff, not_le]
      exact hgt
    · rename_i hgt
      simp only [true_iff]
      exact Nat.le_of_not_gt hgt
  · intro hc
    simp [BlockHeader.id, hc, _getHash, fromHex_toHexString]

theorem validProofOfWork_iff_witness :
    ((validProofOfWork sampleDigest sampleHeader).1 = true ↔
      BN.fromHex (sampleHeader.id sampleDigest).1 ≤ getTargetDifficulty sampleHeader none) ∧
    (truthyStr sampleHeader._id = false →
      BN.fromHex (sampleHeader.id sampleDigest).1 =
        beNat (BufferUtil.reverse (sampleDigest (toBuffer sampleHeader)))) :=
  validProofOfWork_iff sampleDigest sampleHeader

/-! ## Timestamp -/

theorem fromBufferReader_time (br r : BufferReader) (info : Info)
    (hr : _fromBufferReader br = .ok (info, r)) : info.time = info.timestamp := by
  unfold _fromBufferReader at hr
  simp only [bind, Except.bind, pure, Except.pure] at hr
  repeat' split at hr
  all_goals first
    | (cases hr; done)
    | (simp only [Except.ok.injEq, Prod.mk.injEq] at hr; obtain ⟨h1, _⟩ := hr; subst h1; rfl)

theorem id_time (sha256 : Buffer → Buffer) (h : BlockHeader) :
    (h.id sha256).2.time = h.time ∧ (h.id sha256).2.timestamp = h.timestamp := by
  unfold BlockHeader.id
  split <;> exact ⟨rfl, rfl⟩

theorem checkHash_time (sha256 : Buffer → Buffer) (info : Info) (self h : BlockHeader)
    (hc : checkHash sha256 info self = .ok h) :
    h.time = self.time ∧ h.timestamp = self.timestamp := by
  unfold checkHash at hc
  split at hc
  · simp only at hc
    split at hc
    · cases hc
      exact id_time sha256 self
    · cases hc
  · cases hc
    exact ⟨rfl, rfl⟩

theorem fromObject_time (data : FieldMap) :
    (_fromObject data).time = (_fromObject data).timestamp := by
  unfold _fromObject
  simp only
  split
  · rfl
  · rfl

theorem defaultTimestamp_time (self : BlockHeader) (hs : self.time = self.timestamp) :
    (defaultTimestamp self).time = (defaultTimestamp self).timestamp := by
  unfold defaultTimestamp
  split
  · rfl
  · exact hs

/-- After construction `time` and `timestamp` hold the same value. -/
theorem new_time_eq_timestamp (sha256 : Buffer → Buffer) (arg : Arg) (h : BlockHeader)
    (hc : BlockHeader.new sha256 arg = .ok h) : h.time = h.timestamp := by
  unfold BlockHeader.new at hc
  split at hc
  · rename_i info hinfo
    obtain ⟨h1, h2⟩ := checkHash_time sha256 info _ h hc
    rw [h1, h2]
    apply defaultTimestamp_time
    show info.time = info.timestamp
    cases arg with
    | buffer b =>
      simp only [_from] at hinfo
      split at hinfo
      · rename_i info2 r hr
        cases hinfo
        exact fromBufferReader_time _ _ _ hr
      · cases hinfo
    | object o =>
      simp only [_from] at hinfo
      cases hinfo
      exact fromObject_time o
    | string s => simp [_from] at hinfo
    | other => simp [_from] at hinfo
  · cases hc

/-- The current time in seconds is the second nearest to the clock reading in
milliseconds, the later one of two equally near. -/
theorem currentTime_nearest (nowMs : Nat) :
    1000 * currentTime nowMs ≤ nowMs + 500 ∧ nowMs < 1000 * currentTime nowMs + 500 := by
  unfold currentTime
  omega

/-- C8: for every constructed header and every clock reading, `validTimestamp` is total
and returns false exactly when the header's timestamp is greater than the current time in
seconds plus 7200; so it is true when the timestamp is the current time, and false when
the timestamp is more than 7201 seconds ahead of the clock. The current time is the
clock reading in milliseconds rounded to the nearest second: on a clock that shows `now`
whole seconds it is `now`, and in terms of the clock alone the answer is false exactly
when the timestamp is more than 7200 seconds and a half ahead of it, so every timestamp
at most 7200 seconds ahead of the clock is accepted, as is an absent one. -/
theorem validTimestamp_iff (sha256 : Buffer → Buffer) (arg : Arg) (h : BlockHeader)
    (nowMs : Nat) (hc : BlockHeader.new sha256 arg = .ok h) :
    (validTimestamp nowMs h = false ↔
      ∃ t : Nat, h.timestamp = some t ∧ t > currentTime nowMs + 7200) ∧
    (h.timestamp = some (currentTime nowMs) → validTimestamp nowMs h = true) ∧
    (∀ t : Nat, h.timestamp = some t → 1000 * t > nowMs + 1000 * 7201 →
      validTimestamp nowMs h = false) ∧
    (1000 * currentTime nowMs ≤ nowMs + 500 ∧ nowMs < 1000 * currentTime nowMs + 500) ∧
    (∀ now : Nat, nowMs = 1000 * now →
      currentTime nowMs = now ∧
      (validTimestamp nowMs h = false ↔
        ∃ t : Nat, h.timestamp = some t ∧ t > now + 7200) ∧
      (h.timestamp = some now → validTimestamp nowMs h = true)) ∧
    (validTimestamp nowMs h = false ↔
      ∃ t : Nat, h.timestamp = some t ∧ 1000 * t > nowMs + 500 + 1000 * 7200) ∧
    (∀ t : Nat, h.timestamp = some t → 1000 * t ≤ nowMs + 1000 * 7200 →
      validTimestamp nowMs h = true) ∧
    (h.timestamp = none → validTimestamp nowMs h = true) ∧
    (validTimestamp nowMs h = true ∨ validTimestamp nowMs h = false) := by
  have ht : h.time = h.timestamp := new_time_eq_timestamp sha256 arg h hc
  have key : validTimestamp nowMs h = false ↔
      ∃ t : Nat, h.timestamp = some t ∧ t > currentTime nowMs + 7200 := by
    unfold validTimestamp
    rw [ht]
    cases h.timestamp with
    | none => simp
    | some t => simp [Constants.MAX_TIME_OFFSET]
  have hnear := currentTime_nearest nowMs
  have keyMs : validTimestamp nowMs h = false ↔
      ∃ t : Nat, h.timestamp = some t ∧ 1000 * t > nowMs + 500 + 1000 * 7200 := by
    rw [key]
    constructor
    · rintro ⟨t, h1, h2⟩
      refine ⟨t, h1, ?_⟩
      unfold currentTime at h2
      omega
    · rintro ⟨t, h1, h2⟩
      refine ⟨t, h1, ?_⟩
      unfold currentTime
      omega
  have htrue : ∀ b : Bool, ¬ (b = false) → b = true := by
    intro b hb; cases b
    · exact absurd rfl hb
    · rfl
  refine ⟨key, ?_, ?_, hnear, ?_, keyMs, ?_, ?_, ?_⟩
  · intro h1
    apply htrue
    intro hv
    obtain ⟨t, h2, h3⟩ := key.mp hv
    rw [h1] at h2
    cases h2
    omega
  · intro t h1 h2
    apply key.mpr
    refine ⟨t, h1, ?_⟩
    unfold currentTime
    omega
  · intro now hnow
    have hcur : currentTime nowMs = now := by
      unfold currentTime; omega
    refine ⟨hcur, ?_, ?_⟩
    · rw [key, hcur]
    · intro h1
      apply htrue
      intro hv
      obtain ⟨t, h2, h3⟩ := key.mp hv
      rw [h1] at h2
      cases h2
      omega
  · intro t h1 h2
    apply htrue
    intro hv
    obtain ⟨t2, h3, h4⟩ := keyMs.mp hv
    rw [h1] at h3
    cases h3
    omega
  · intro h1
    apply htrue
    intro hv
    obtain ⟨t2, h3, h4⟩ := keyMs.mp hv
    rw [h1] at h3
    cases h3
  · cases validTimestamp nowMs h
    · exact Or.inr rfl
    · exact Or.inl rfl

theorem validTimestamp_iff_witness :
    BlockHeader.new sampleDigest (Arg.object { timestamp := some 9000 }) =
      .ok { timestamp := some 9000, time := some 9000 } ∧
    (validTimestamp 1000000 { timestamp := some 9000, time := some 9000 } = false ↔
      ∃ t : Nat, (some 9000 : Option Nat) = some t ∧ t > currentTime 1000000 + 7200) ∧
    validTimestamp 1000000 { timestamp := some 9000, time := some 9000 } = false ∧
    currentTime 1800000 = 1800 ∧
    validTimestamp 1800000 { timestamp := some 9000, time := some 9000 } = true ∧
    validTimestamp 9000000 { timestamp := some 9000, time := some 9000 } = true ∧
    (validTimestamp 1799999 { timestamp := some 9000, time := some 9000 } = false ↔
      ∃ t : Nat, (some 9000 : Option Nat) = some t ∧
        1000 * t > 1799999 + 500 + 1000 * 7200) :=
  ⟨rfl,
   (validTimestamp_iff sampleDigest (Arg.object { timestamp := some 9000 })
      { timestamp := some 9000, time := some 9000 } 1000000 rfl).1,
   (validTimestamp_iff sampleDigest (Arg.object { timestamp := some 9000 })
      { timestamp := some 9000, time := some 9000 } 1000000 rfl).2.2.1 9000 rfl
      (by decide),
   ((validTimestamp_iff sampleDigest (Arg.object { timestamp := some 9000 })
      { timestamp := some 9000, time := some 9000 } 1800000 rfl).2.2.2.2.1 1800 rfl).1,
   (validTimestamp_iff sampleDigest (Arg.object { timestamp := some 9000 })
      { timestamp := some 9000, time := some 9000 } 1800000 rfl).2.2.2.2.2.2.1 9000 rfl
      (by decide),
   (validTimestamp_iff sampleDigest (Arg.object { timestamp := some 9000 })
      { timestamp := some 9000, time := some 9000 } 9000000 rfl).2.1 rfl,
   (validTimestamp_iff sampleDigest (Arg.object { timestamp := some 9000 })
      { timestamp := some 9000, time := some 9000 } 1799999 rfl).2.2.2.2.2.1⟩

/-! ## Difficulty score -/

theorem target_genesis (h : BlockHeader) :
    getTargetDifficulty h (some GENESIS_BITS) = 0xffff * 2 ^ 208 := by
  simp [getTargetDifficulty, doubling_eq, truthy, GENESIS_BITS, toNumber]
  rfl

theorem target_none (h : BlockHeader) (n : Nat) (hb : h.bits = some n) :
    getTargetDifficulty h none =
      ((n % 2 ^ 32) &&& 0xffffff) *
        2 ^ ((8 * ((((n % 2 ^ 32) >>> 24 : Nat) : Int) - 3)).toNat) := by
  simp [getTargetDifficulty, doubling_eq, truthy, toNumber, hb]

theorem digitsValue_foldl (s : List Char) (acc : Nat) :
    s.foldl (fun a c => a * 10 + (c.toNat - 48)) acc = acc * 10 ^ s.length + digitsValue s := by
  induction s generalizing acc with
  | nil => simp [digitsValue]
  | cons c cs ih =>
    simp only [List.foldl_cons, List.length_cons, digitsValue]
    rw [ih, ih (0 * 10 + (c.toNat - 48))]
    ring

theorem digitsValue_cons (c : Char) (s : List Char) :
    digitsValue (c :: s) = (c.toNat - 48) * 10 ^ s.length + digitsValue s := by
  have h := digitsValue_foldl s (0 * 10 + (c.toNat - 48))
  simp only [digitsValue, List.foldl_cons]
  simpa [digitsValue] using h

theorem digitsValue_append (s t : List Char) :
    digitsValue (s ++ t) = digitsValue s * 10 ^ t.length + digitsValue t := by
  unfold digitsValue
  rw [List.foldl_append, digitsValue_foldl t]
  rfl

theorem digitChar_value (k : Nat) (hk : k < 10) :
    (Nat.digitChar k).toNat - 48 = k ∧ (Nat.digitChar k).isDigit = true := by
  interval_cases k <;> decide

theorem toDigitsCore_value (fuel n : Nat) (ds : List Char) (hf : n < fuel) :
    digitsValue (Nat.toDigitsCore 10 fuel n ds) = n * 10 ^ ds.length + digitsValue ds := by
  induction fuel generalizing n ds with
  | zero => omega
  | succ f ih =>
    have hd := (digitChar_value (n % 10) (Nat.mod_lt n (by decide))).1
    simp only [Nat.toDigitsCore]
    split
    · rename_i h0
      rw [digitsValue_cons, hd]
      have : n % 10 = n := by omega
      rw [this]
    · rename_i h0
      rw [ih (n / 10) _ (by omega), digitsValue_cons, hd, List.length_cons, pow_succ]
      have hn : n = 10 * (n / 10) + n % 10 := (Nat.div_add_mod n 10).symm
      generalize 10 ^ ds.length = p
      generalize n / 10 = a at hn ⊢
      generalize n % 10 = r at hn ⊢
      subst hn
      ring

theorem toDigitsCore_isDigit (fuel n : Nat) (ds : List Char)
    (hds : ∀ c ∈ ds, c.isDigit = true) :
    ∀ c ∈ Nat.toDigitsCore 10 fuel n ds, c.isDigit = true := by
  induction fuel generalizing n ds with
  | zero => simpa [Nat.toDigitsCore] using hds
  | succ f ih =>
    have hd := (digitChar_value (n % 10) (Nat.mod_lt n (by decide))).2
    have hcons : ∀ c ∈ Nat.digitChar (n % 10) :: ds, c.isDigit = true := by
      intro c hc
      rcases List.mem_cons.mp hc with h | h
      · rw [h]; exact hd
      · exact hds c h
    simp only [Nat.toDigitsCore]
    split
    · exact hcons
    · exact ih (n / 10) _ hcons

/-- The decimal text of a number reads back as the number. -/
theorem digitsValue_toString10 (n : Nat) : digitsValue (BN.toString10 n) = n := by
  have h := toDigitsCore_value (n + 1) n [] (Nat.lt_succ_self n)
  simpa [BN.toString10, Nat.toDigits, digitsValue] using h

theorem toString10_isDigit (n : Nat) : ∀ c ∈ BN.toString10 n, c.isDigit = true :=
  toDigitsCore_isDigit _ _ [] (by simp)

theorem digitsValue_lt (s : List Char) (hs : ∀ c ∈ s, c.isDigit = true) :
    digitsValue s < 10 ^ s.length := by
  induction s with
  | nil => simp [digitsValue]
  | cons c cs ih =>
    have hc : c.toNat - 48 ≤ 9 := by
      have := hs c (List.mem_cons_self c cs)
      simp only [Char.isDigit, Bool.and_eq_true, decide_eq_true_eq] at this
      have h2 : c.val.toNat ≤ 57 := by
        have := this.2
        exact this
      show c.val.toNat - 48 ≤ 9
      omega
    have ih2 := ih (fun x hx => hs x (List.mem_cons_of_mem c hx))
    rw [digitsValue_cons, List.length_cons, pow_succ]
    nlinarith

theorem parseFloat_point (a b : List Char) (ha : ∀ c ∈ a, c.isDigit = true)
    (hb : ∀ c ∈ b, c.isDigit = true) (hne : b ≠ []) :
    parseFloat (a ++ '.' :: b) = some ((digitsValue (a ++ b) : ℚ) / 10 ^ b.length) := by
  have hdot : Char.isDigit '.' = false := by decide
  have h1 : (a ++ '.' :: b).takeWhile Char.isDigit = a := by
    rw [List.takeWhile_append_of_pos ha, List.takeWhile_cons_of_neg (by simp [hdot])]
    simp
  have h2 : (a ++ '.' :: b).dropWhile Char.isDigit = '.' :: b := by
    rw [List.dropWhile_append_of_pos ha, List.dropWhile_cons_of_neg (by simp [hdot])]
  have h3 : b.takeWhile Char.isDigit = b := List.takeWhile_eq_self_iff.mpr hb
  have h4 : b.isEmpty = false := by
    cases b with
    | nil => exact absurd rfl hne
    | cons c cs => rfl
  simp only [parseFloat, h1, h2, h3, h4, Bool.and_false, Bool.false_eq_true, if_false]

theorem jsSlice_split (s : List Char) (hs : 8 ≤ s.length) :
    jsSlice s 0 (some ((s.length : Int) - 8)) = s.take (s.length - 8) ∧
    jsSlice s ((s.length : Int) - 8) none = s.drop (s.length - 8) := by
  have hnn : ¬ ((s.length : Int) - 8 < 0) := by omega
  have hmin : min ((s.length : Int) - 8) (s.length : Int) = (s.length : Int) - 8 := by omega
  have hcast : ((s.length : Int) - 8).toNat = s.length - 8 := by omega
  constructor
  · simp [jsSlice, hnn, hmin, hcast]
  · simp only [jsSlice, hnn, if_false, hmin, hcast]
    have : ((s.length : Int) - ((s.length : Int) - 8)).toNat = 8 := by omega
    rw [this]
    apply List.take_of_length_le
    simp
    omega

/-- When the quotient floor(D1 × 10^8 / T) has at least 8 digits, the text `getDifficulty`
builds denotes exactly the quotient divided by 10^8. -/
theorem getDifficulty_long_quotient (h : BlockHeader)
    (hT : getTargetDifficulty h none ≠ 0)
    (hq : 10 ^ 7 ≤
      getTargetDifficulty h (some GENESIS_BITS) * 10 ^ 8 / getTargetDifficulty h none) :
    getDifficulty h =
      some (((getTargetDifficulty h (some GENESIS_BITS) * 10 ^ 8 /
        getTargetDifficulty h none : Nat) : ℚ) / 10 ^ 8) := by
  generalize hqd : getTargetDifficulty h (some GENESIS_BITS) * 10 ^ 8 /
    getTargetDifficulty h none = q at hq ⊢
  have hdig := toString10_isDigit q
  have hval := digitsValue_toString10 q
  have hlen : 8 ≤ (BN.toString10 q).length := by
    by_contra hc
    have h1 := digitsValue_lt _ hdig
    rw [hval] at h1
    have h2 : 10 ^ (BN.toString10 q).length ≤ 10 ^ 7 :=
      Nat.pow_le_pow_right (by decide) (by omega)
    omega
  obtain ⟨hs1, hs2⟩ := jsSlice_split _ hlen
  have hstr : getDifficultyString h =
      some ((BN.toString10 q).take ((BN.toString10 q).length - 8) ++
        '.' :: (BN.toString10 q).drop ((BN.toString10 q).length - 8)) := by
    simp only [getDifficultyString, hT, if_false, hqd, hs1, hs2]
    simp
  have hdl : ((BN.toString10 q).drop ((BN.toString10 q).length - 8)).length = 8 := by
    simp; omega
  unfold getDifficulty
  rw [hstr]
  simp only
  rw [parseFloat_point _ _ (fun c hc => hdig c (List.mem_of_mem_take hc))
    (fun c hc => hdig c (List.mem_of_mem_drop hc))
    (by intro he; rw [he] at hdl; simp at hdl),
    List.take_append_drop, hval, hdl]

/-- C9: for a header with the exccdlivenet genesis bits 0x2000a3d7 the target is not zero
and the quotient floor(D1 × 10^8 / T) is 9, so the score to 8 decimal places is
0.00000009; the text `getDifficulty` builds is ".9", which denotes 9/10. The quotient has
fewer than 8 digits, `length - 8` is negative, and `slice` counts a negative index from
the end of the string. -/
theorem getDifficulty_short_quotient (h : BlockHeader) (hb : h.bits = some 0x2000a3d7) :
    getTargetDifficulty h none ≠ 0 ∧
    getTargetDifficulty h (some GENESIS_BITS) * 10 ^ 8 / getTargetDifficulty h none = 9 ∧
    getDifficultyString h = some ['.', '9'] ∧
    getDifficulty h = some (9 / 10) ∧
    getDifficulty h ≠ some ((9 : ℚ) / 10 ^ 8) := by
  have h1 : getTargetDifficulty h none = 0xa3d7 * 2 ^ 232 := by
    rw [target_none h _ hb]; rfl
  have hs : getDifficultyString h = some ['.', '9'] := by
    unfold getDifficultyString
    rw [target_genesis, h1]
    rfl
  have hd : getDifficulty h = some (9 / 10) := by
    unfold getDifficulty
    rw [hs]
    simp [parseFloat, digitsValue, Char.isDigit]
  refine ⟨?_, ?_, hs, hd, ?_⟩
  · rw [h1]; decide
  · rw [target_genesis, h1]; rfl
  · rw [hd]; norm_num

theorem getDifficulty_short_quotient_witness :
    ({ bits := some 0x2000a3d7 } : BlockHeader).bits = some 0x2000a3d7 ∧
    getDifficultyString { bits := some 0x2000a3d7 } = some ['.', '9'] ∧
    getDifficulty { bits := some 0x2000a3d7 } = some (9 / 10) :=
  ⟨rfl, (getDifficulty_short_quotient { bits := some 0x2000a3d7 } rfl).2.2.1,
    (getDifficulty_short_quotient { bits := some 0x2000a3d7 } rfl).2.2.2.1⟩

/-- C10: for a header whose bits are 0x1d00ffff, the decimal text `getDifficulty` builds is
"1.00000000", and the number it denotes is exactly 1. -/
theorem getDifficulty_genesis_bits (h : BlockHeader) (hb : h.bits = some 0x1d00ffff) :
    getDifficultyString h = some ['1', '.', '0', '0', '0', '0', '0', '0', '0', '0'] ∧
      getDifficulty h = some 1 := by
  have h1 : getTargetDifficulty h none = 0xffff * 2 ^ 208 := by
    rw [target_none h _ hb]; rfl
  have hs : getDifficultyString h = some ['1', '.', '0', '0', '0', '0', '0', '0', '0', '0'] := by
    unfold getDifficultyString
    rw [target_genesis, h1]
    rfl
  refine ⟨hs, ?_⟩
  unfold getDifficulty
  rw [hs]
  simp [parseFloat, digitsValue, Char.isDigit]
  norm_num

theorem getDifficulty_genesis_bits_witness :
    sampleHeader.bits = some 0x1d00ffff ∧
    getDifficultyString sampleHeader =
      some ['1', '.', '0', '0', '0', '0', '0', '0', '0', '0'] ∧
    getDifficulty sampleHeader = some 1 :=
  ⟨rfl, getDifficulty_genesis_bits sampleHeader rfl⟩

/-! ## The two names of the timestamp -/

theorem fromBuffer_time (sha256 : Buffer → Buffer) (buf : Buffer) (h : BlockHeader)
    (hc : BlockHeader.fromBuffer sha256 buf = .ok h) : h.time = h.timestamp := by
  unfold BlockHeader.fromBuffer at hc
  simp only [bind, Except.bind] at hc
  split at hc
  · cases hc
  · exact new_time_eq_timestamp sha256 _ h hc

theorem fromRawBlock_time (sha256 : Buffer → Buffer) (data : Buffer) (h : BlockHeader)
    (hc : BlockHeader.fromRawBlock sha256 data = .ok h) : h.time = h.timestamp := by
  unfold BlockHeader.fromRawBlock at hc
  simp only [bind, Except.bind] at hc
  split at hc
  · cases hc
  · exact new_time_eq_timestamp sha256 _ h hc

theorem fromBufferReader_header_time (sha256 : Buffer → Buffer) (br r : BufferReader)
    (h : BlockHeader) (hc : BlockHeader.fromBufferReader sha256 br = .ok (h, r)) :
    h.time = h.timestamp := by
  unfold BlockHeader.fromBufferReader at hc
  simp only [bind, Except.bind, pure, Except.pure] at hc
  split at hc
  · cases hc
  · split at hc
    · cases hc
    · rename_i h2 hn
      simp only [Except.ok.injEq, Prod.mk.injEq] at hc
      rw [← hc.1]
      exact new_time_eq_timestamp sha256 _ _ hn

/-- The header built from a field map without a hash: both `timestamp` and `time` hold the
supplied timestamp when it is truthy and the supplied `time` otherwise. -/
theorem new_object_no_hash (sha256 : Buffer → Buffer) (o : FieldMap) (ho : o.hash = none) :
    ∃ h : BlockHeader, BlockHeader.new sha256 (Arg.object o) = .ok h ∧
      h.timestamp = (if truthy o.timestamp then o.timestamp else o.time) ∧
      h.time = (if truthy o.timestamp then o.timestamp else o.time) := by
  refine ⟨defaultTimestamp (assignFields (_fromObject o)), ?_, ?_, ?_⟩
  · simp [BlockHeader.new, _from, checkHash, fromObject_hash_eq, ho, truthyStr]
  · unfold defaultTimestamp _fromObject
    cases ht : truthy o.timestamp <;> simp [assignFields, ht]
  · unfold defaultTimestamp _fromObject
    cases ht : truthy o.timestamp <;> simp [assignFields, ht]

/-- The value both `timestamp` and `time` take when the constructor succeeds on a field
map. -/
theorem new_object_timestamp (sha256 : Buffer → Buffer) (o : FieldMap) (h : BlockHeader)
    (hc : BlockHeader.new sha256 (Arg.object o) = .ok h) :
    h.timestamp = (if truthy o.timestamp then o.timestamp else o.time) ∧
      h.time = (if truthy o.timestamp then o.timestamp else o.time) := by
  simp only [BlockHeader.new, _from] at hc
  obtain ⟨h1, h2⟩ := checkHash_time sha256 _ _ h hc
  rw [h1, h2]
  constructor
  · unfold defaultTimestamp _fromObject
    cases ht : truthy o.timestamp <;> simp [assignFields, ht]
  · unfold defaultTimestamp _fromObject
    cases ht : truthy o.timestamp <;> simp [assignFields, ht]


/-- C11: on every construction path (the constructor on any argument, `fromBuffer`,
`fromBufferReader`, `fromRawBlock`, `fromString`, `fromObject`) a header that is
returned has `time` equal to `timestamp`; a buffer of at least 272 bytes and a field map
without a hash, whether it supplies `timestamp`, `time`, both or neither, do return a
header. -/
theorem time_eq_timestamp_on_every_path (sha256 : Buffer → Buffer) :
    (∀ (arg : Arg) (h : BlockHeader),
      BlockHeader.new sha256 arg = .ok h → h.time = h.timestamp) ∧
    (∀ (buf : Buffer) (h : BlockHeader),
      BlockHeader.fromBuffer sha256 buf = .ok h → h.time = h.timestamp) ∧
    (∀ (br r : BufferReader) (h : BlockHeader),
      BlockHeader.fromBufferReader sha256 br = .ok (h, r) → h.time = h.timestamp) ∧
    (∀ (data : Buffer) (h : BlockHeader),
      BlockHeader.fromRawBlock sha256 data = .ok h → h.time = h.timestamp) ∧
    (∀ (str : List Char) (h : BlockHeader),
      BlockHeader.fromString sha256 str = .ok h → h.time = h.timestamp) ∧
    (∀ (obj : FieldMap) (h : BlockHeader),
      BlockHeader.fromObject sha256 obj = .ok h → h.time = h.timestamp) ∧
    (∀ b : Buffer, 272 ≤ b.length →
      ∃ h : BlockHeader, BlockHeader.new sha256 (Arg.buffer b) = .ok h ∧
        h.time = h.timestamp) ∧
    (∀ o : FieldMap, o.hash = none →
      ∃ h : BlockHeader, BlockHeader.new sha256 (Arg.object o) = .ok h ∧
        h.time = h.timestamp) := by
  refine ⟨new_time_eq_timestamp sha256, fromBuffer_time sha256, ?_, fromRawBlock_time sha256,
    ?_, ?_, ?_, ?_⟩
  · intro br r h hc
    exact fromBufferReader_header_time sha256 br r h hc
  · intro str h hc
    exact fromBuffer_time sha256 _ h hc
  · intro obj h hc
    exact new_time_eq_timestamp sha256 _ h hc
  · intro b hb
    exact ⟨_, new_buffer sha256 b hb, rfl⟩
  · intro o ho
    obtain ⟨h, h1, h2, h3⟩ := new_object_no_hash sha256 o ho
    exact ⟨h, h1, h3.trans h2.symm⟩

theorem time_eq_timestamp_on_every_path_witness :
    ∃ h : BlockHeader,
      BlockHeader.new sampleDigest (Arg.object { timestamp := some 0, time := some 5 }) =
        .ok h ∧ h.time = h.timestamp :=
  (time_eq_timestamp_on_every_path sampleDigest).2.2.2.2.2.2.2
    { timestamp := some 0, time := some 5 } rfl

/-- C12 (amended): for every field map from which the constructor returns a header, a
supplied timestamp that is not 0 is the value of both `timestamp` and `time`, whatever
`time` the map supplies; when only `time` is supplied, both hold that `time`; a
timestamp of 0 counts as not supplied, and both hold what the map has as `time`. A map
without a hash always returns a header. -/
theorem new_object_timestamp_precedence (sha256 : Buffer → Buffer) (o : FieldMap) :
    (o.hash = none → ∃ h : BlockHeader, BlockHeader.new sha256 (Arg.object o) = .ok h) ∧
    ∀ h : BlockHeader, BlockHeader.new sha256 (Arg.object o) = .ok h →
      (∀ ts : Nat, o.timestamp = some ts → ts ≠ 0 →
        h.timestamp = some ts ∧ h.time = some ts) ∧
      (∀ t : Nat, o.timestamp = none → o.time = some t →
        h.timestamp = some t ∧ h.time = some t) ∧
      (o.timestamp = some 0 → h.timestamp = o.time ∧ h.time = o.time) := by
  constructor
  · intro ho
    obtain ⟨h, h1, _⟩ := new_object_no_hash sha256 o ho
    exact ⟨h, h1⟩
  · intro h hc
    obtain ⟨h1, h2⟩ := new_object_timestamp sha256 o h hc
    refine ⟨?_, ?_, ?_⟩
    · intro ts hts hne
      have ht : truthy o.timestamp = true := by simp [hts, truthy, hne]
      rw [h1, h2, ht, hts]
      exact ⟨rfl, rfl⟩
    · intro t hts htime
      have ht : truthy o.timestamp = false := by simp [hts, truthy]
      rw [h1, h2, ht, htime]
      exact ⟨rfl, rfl⟩
    · intro hts
      have ht : truthy o.timestamp = false := by simp [hts, truthy]
      rw [h1, h2, ht]
      exact ⟨rfl, rfl⟩

theorem new_object_timestamp_precedence_witness :
    BlockHeader.new sampleDigest (Arg.object { timestamp := some 7, time := some 5 }) =
      .ok { timestamp := some 7, time := some 7 } ∧
    (({ timestamp := some 7, time := some 7 } : BlockHeader).timestamp = some 7 ∧
      ({ timestamp := some 7, time := some 7 } : BlockHeader).time = some 7) :=
  ⟨rfl, ((new_object_timestamp_precedence sampleDigest
      { timestamp := some 7, time := some 5 }).2 _ rfl).1 7 rfl (by decide)⟩

/-- C12 (counterexample): a field map that supplies timestamp 0 and time 5 is built into
a header whose `timestamp` and `time` are both 5, not the supplied timestamp; a map that
supplies only timestamp 0 is built into a header with neither. -/
theorem new_object_timestamp_zero :
    BlockHeader.new sampleDigest (Arg.object { timestamp := some 0, time := some 5 }) =
      .ok { timestamp := some 5, time := some 5 } ∧
    BlockHeader.new sampleDigest (Arg.object { timestamp := some 0 }) =
      .ok { timestamp := none, time := none } :=
  ⟨rfl, rfl⟩

/-! ## The header of a raw block -/

/-- The header `fromRawBlock` builds from a buffer of at least 280 bytes. -/
theorem fromRawBlock_eq (sha256 : Buffer → Buffer) (d : Buffer) (hd : 280 ≤ d.length) :
    BlockHeader.fromRawBlock sha256 d =
      BlockHeader.new sha256 (Arg.object (layoutInfo d 8).toFieldMap) := by
  have h0 := fromBufferReader_ok
    { BufferReader.ofBuffer d with pos := Constants.START_OF_HEADER }
    (by simp only [BufferReader.ofBuffer, Constants.START_OF_HEADER]; omega)
  simp only [BlockHeader.fromRawBlock, h0, bind, Except.bind]
  rfl

/-- The header `fromBuffer` builds, before the constructor runs. -/
theorem fromBuffer_new (sha256 : Buffer → Buffer) (b : Buffer) (hb : 272 ≤ b.length) :
    BlockHeader.fromBuffer sha256 b =
      BlockHeader.new sha256 (Arg.object (layoutInfo b 0).toFieldMap) := by
  have h0 := fromBufferReader_ok (BufferReader.ofBuffer b)
    (by simpa [BufferReader.ofBuffer] using hb)
  simp only [BlockHeader.fromBuffer, h0, bind, Except.bind]
  rfl

/-- C13: for every raw block buffer of at least 280 bytes, `fromRawBlock` returns what
`fromBuffer` returns on the 272 bytes from offset 8, and that is a header; two raw
blocks that agree on those 272 bytes give the same result, whatever their first 8 bytes
and the bytes after offset 280 are. -/
theorem fromRawBlock_eq_fromBuffer (sha256 : Buffer → Buffer) (d : Buffer)
    (hd : 280 ≤ d.length) :
    BlockHeader.fromRawBlock sha256 d = BlockHeader.fromBuffer sha256 (slice d 8 272) ∧
    (∃ h : BlockHeader, BlockHeader.fromRawBlock sha256 d = .ok h) ∧
    ∀ d2 : Buffer, 280 ≤ d2.length → slice d2 8 272 = slice d 8 272 →
      BlockHeader.fromRawBlock sha256 d2 = BlockHeader.fromRawBlock sha256 d := by
  have hs : (slice d 8 272).length = 272 := slice_length d 8 272 (by omega)
  have h1 : BlockHeader.fromRawBlock sha256 d =
      BlockHeader.fromBuffer sha256 (slice d 8 272) := by
    rw [fromRawBlock_eq sha256 d hd, fromBuffer_new sha256 _ (by omega), layoutInfo_slice]
  refine ⟨h1, ?_, ?_⟩
  · rw [h1]
    exact ⟨_, fromBuffer_eq sha256 _ (by omega)⟩
  · intro d2 hd2 he
    rw [fromRawBlock_eq sha256 d hd, fromRawBlock_eq sha256 d2 hd2,
      ← layoutInfo_slice d, ← layoutInfo_slice d2, he]

theorem fromRawBlock_eq_fromBuffer_witness :
    280 ≤ (List.replicate 8 (7 : Byte) ++ sampleBuffer ++ [9, 9]).length ∧
    BlockHeader.fromRawBlock sampleDigest (List.replicate 8 (7 : Byte) ++ sampleBuffer ++ [9, 9]) =
      BlockHeader.fromBuffer sampleDigest
        (slice (List.replicate 8 (7 : Byte) ++ sampleBuffer ++ [9, 9]) 8 272) :=
  ⟨by simp [sampleBuffer],
    (fromRawBlock_eq_fromBuffer sampleDigest
      (List.replicate 8 (7 : Byte) ++ sampleBuffer ++ [9, 9]) (by simp [sampleBuffer])).1⟩

/-! ## Attributes taken from a field map -/

/-- The hash check changes nothing but the cache. -/
theorem checkHash_fields (sha256 : Buffer → Buffer) (info : Info) (self h : BlockHeader)
    (hc : checkHash sha256 info self = .ok h) :
    ∃ c : Option (List Char), h = { self with _id := c } := by
  unfold checkHash at hc
  split at hc
  · simp only at hc
    split at hc
    · cases hc
      unfold BlockHeader.id
      split
      · exact ⟨_, rfl⟩
      · exact ⟨self._id, rfl⟩
    · cases hc
  · cases hc
    exact ⟨self._id, rfl⟩

/-- C14: for every field map from which the constructor returns a header, the header has
the supplied version, voteBits, finalState, revocations, poolSize, bits, sbits, height,
size, nonce, extraData, stakeVersion, equihashSolution and raw hash fields, but its
`voters` and `freshStake` are absent whatever the map supplies: `_fromObject` does not
copy them. -/
theorem new_object_attributes (sha256 : Buffer → Buffer) (o : FieldMap) (h : BlockHeader)
    (hc : BlockHeader.new sha256 (Arg.object o) = .ok h) :
    h.voters = none ∧ h.freshStake = none ∧
    h.version = o.version ∧ h.voteBits = o.voteBits ∧ h.finalState = o.finalState ∧
    h.revocations = o.revocations ∧ h.poolSize = o.poolSize ∧ h.bits = o.bits ∧
    h.sbits = o.sbits ∧ h.height = o.height ∧ h.size = o.size ∧ h.nonce = o.nonce ∧
    h.extraData = o.extraData ∧ h.stakeVersion = o.stakeVersion ∧
    h.equihashSolution = o.equihashSolution ∧
    (∀ b : Buffer, o.prevHash = some (HashField.raw b) → h.prevHash = some b) ∧
    (∀ b : Buffer, o.merkleRoot = some (HashField.raw b) → h.merkleRoot = some b) ∧
    (∀ b : Buffer, o.stakeRoot = some (HashField.raw b) → h.stakeRoot = some b) := by
  simp only [BlockHeader.new, _from] at hc
  obtain ⟨c, rfl⟩ := checkHash_fields sha256 _ _ h hc
  unfold defaultTimestamp _fromObject
  refine ⟨?_, ?_, ?_, ?_, ?_, ?_, ?_, ?_, ?_, ?_, ?_, ?_, ?_, ?_, ?_, ?_, ?_, ?_⟩
  all_goals (cases truthy o.timestamp <;> simp [assignFields, hashFieldBytes])
  all_goals (intro b hb; simp [hb])

theorem new_object_attributes_witness :
    BlockHeader.new sampleDigest
        (Arg.object { voters := some 5, freshStake := some 4, revocations := some 7 }) =
      .ok { revocations := some 7 } ∧
    ({ revocations := some 7 } : BlockHeader).voters = none ∧
    ({ revocations := some 7 } : BlockHeader).freshStake = none :=
  ⟨rfl,
    (new_object_attributes sampleDigest
      { voters := some 5, freshStake := some 4, revocations := some 7 } _ rfl).1,
    (new_object_attributes sampleDigest
      { voters := some 5, freshStake := some 4, revocations := some 7 } _ rfl).2.1⟩

/-! ## Arguments the constructor rejects -/

theorem read_error (br : BufferReader) (len : Nat) (e : Error)
    (h : br.read len = .error e) : e = Error.outOfBounds := by
  unfold BufferReader.read at h
  split at h
  · cases h
  · cases h; rfl

theorem readUIntLE_error (br : BufferReader) (w : Nat) (e : Error)
    (h : br.readUIntLE w = .error e) : e = Error.outOfBounds := by
  unfold BufferReader.readUIntLE at h
  split at h
  · cases h
  · rename_i e2 he
    cases h
    exact read_error br w _ he

theorem readIntLE_error (br : BufferReader) (w : Nat) (e : Error)
    (h : br.readIntLE w = .error e) : e = Error.outOfBounds := by
  unfold BufferReader.readIntLE at h
  split at h
  · cases h
  · rename_i e2 he
    cases h
    exact read_error br w _ he

/-- The decoder fails with no other error than `outOfBounds`. -/
theorem fromBufferReader_error (br : BufferReader) (e : Error)
    (h : _fromBufferReader br = .error e) : e = Error.outOfBounds := by
  unfold _fromBufferReader at h
  simp only [bind, Except.bind, pure, Except.pure, BufferReader.readInt32LE,
    BufferReader.readUInt16LE, BufferReader.readUInt8, BufferReader.readUInt32LE,
    BufferReader.readInt64] at h
  repeat' split at h
  all_goals first
    | (cases h; done)
    | (cases h; rename_i he; first
        | exact read_error _ _ _ he
        | exact readUIntLE_error _ _ _ he
        | exact readIntLE_error _ _ _ he)


/-- Decoding the hex text of a buffer gives the buffer back. -/
theorem bufferFromHex_toHexString (b : Buffer) : bufferFromHex (toHexString b) = b := by
  induction b with
  | nil => rfl
  | cons x rest ih =>
    have h1 : x.val / 16 < 16 := by omega
    have h2 : x.val % 16 < 16 := by omega
    have step : toHexString (x :: rest) =
        hexDigit (x.val / 16) :: hexDigit (x.val % 16) :: toHexString rest := by
      simp [toHexString]
    rw [step]
    simp only [bufferFromHex, hexVal_hexDigit _ h1, hexVal_hexDigit _ h2, ih]
    congr 1
    apply Fin.ext
    show (x.val / 16 * 16 + x.val % 16) % 256 = x.val
    omega

/-- C15: the constructor fails with the unrecognized-argument error exactly when its
argument is neither a buffer nor an object; so it fails with that error on every string,
also on the hex text of a 272-byte header, which `fromString` decodes into a header. -/
theorem new_unrecognized_iff (sha256 : Buffer → Buffer) :
    (∀ arg : Arg, BlockHeader.new sha256 arg = .error Error.unrecognizedArgument ↔
      ((∃ s : List Char, arg = Arg.string s) ∨ arg = Arg.other)) ∧
    (∀ s : List Char,
      BlockHeader.new sha256 (Arg.string s) = .error Error.unrecognizedArgument) ∧
    BlockHeader.new sha256 (Arg.string (toHexString zeroBuffer)) =
      .error Error.unrecognizedArgument ∧
    ∃ h : BlockHeader, BlockHeader.fromString sha256 (toHexString zeroBuffer) = .ok h := by
  refine ⟨?_, fun s => rfl, rfl, ?_⟩
  · intro arg
    cases arg with
    | buffer b =>
      simp only [reduceCtorEq, exists_false, or_self, iff_false]
      intro hc
      simp only [BlockHeader.new, _from] at hc
      split at hc
      · rename_i info hi
        split at hi
        · cases hi
          unfold checkHash at hc
          split at hc
          · simp only at hc
            split at hc <;> cases hc
          · cases hc
        · cases hi
      · rename_i e he
        split at he
        · cases he
        · rename_i e2 he2
          cases he
          cases hc
          have := fromBufferReader_error _ _ he2
          cases this
    | object o =>
      simp only [reduceCtorEq, exists_false, or_self, iff_false]
      intro hc
      simp only [BlockHeader.new, _from] at hc
      unfold checkHash at hc
      split at hc
      · simp only at hc
        split at hc <;> cases hc
      · cases hc
    | string s => simp [BlockHeader.new, _from]
    | other => simp [BlockHeader.new, _from]
  · unfold BlockHeader.fromString
    rw [bufferFromHex_toHexString]
    exact ⟨_, fromBuffer_eq sha256 zeroBuffer (by rw [zeroBuffer, List.length_replicate])⟩

/-! ## The cached hash -/

theorem assign_id (h : BlockHeader) (a : Assignment) : (h.assign a)._id = h._id := by
  cases a <;> rfl

theorem id_cached (sha256 : Buffer → Buffer) (h : BlockHeader) (s : List Char)
    (hs : h._id = some s) (hne : s ≠ []) : h.id sha256 = (s, h) := by
  have ht : truthyStr (some s) = true := by
    cases s with
    | nil => exact absurd rfl hne
    | cons c cs => rfl
  simp [BlockHeader.id, ht, hs]

theorem toHexString_length (b : Buffer) : (toHexString b).length = 2 * b.length := by
  induction b with
  | nil => rfl
  | cons x rest ih =>
    have step : toHexString (x :: rest) =
        hexDigit (x.val / 16) :: hexDigit (x.val % 16) :: toHexString rest := by
      simp [toHexString]
    rw [step]
    simp [ih]
    omega

/-- After a read the cache holds the text that was returned, and with a 32-byte digest
that text has 64 characters unless it was in the cache before. -/
theorem id_fills_cache (sha256 : Buffer → Buffer) (hsha : ∀ b : Buffer, (sha256 b).length = 32)
    (h : BlockHeader) :
    (h.id sha256).2._id = some (h.id sha256).1 ∧ (h.id sha256).1 ≠ [] := by
  unfold BlockHeader.id
  split
  · refine ⟨rfl, ?_⟩
    intro he
    have := congrArg List.length he
    simp [toHexString_length, BufferUtil.reverse, _getHash, hsha] at this
  · rename_i ht
    cases hid : h._id with
    | none => simp [hid, truthyStr] at ht
    | some s =>
      cases s with
      | nil => simp [hid, truthyStr] at ht
      | cons c cs => simp

theorem run_cached (sha256 : Buffer → Buffer) (s : List Char) (hne : s ≠ [])
    (acts : List Action) (h : BlockHeader) (hs : h._id = some s) :
    ∀ t ∈ (h.run sha256 acts).1, t = s := by
  induction acts generalizing h with
  | nil => intro t ht; simp [BlockHeader.run] at ht
  | cons a rest ih =>
    cases a with
    | assign x =>
      simp only [BlockHeader.run]
      exact ih (h.assign x) (by rw [assign_id, hs])
    | readHash =>
      simp only [BlockHeader.run, BlockHeader.hash, id_cached sha256 h s hs hne]
      intro t ht
      rcases List.mem_cons.mp ht with h1 | h1
      · exact h1
      · exact ih h hs t h1
    | readId =>
      simp only [BlockHeader.run, id_cached sha256 h s hs hne]
      intro t ht
      rcases List.mem_cons.mp ht with h1 | h1
      · exact h1
      · exact ih h hs t h1

/-- C16: with a 32-byte digest, once `hash` or `id` has been read, every later read of
`hash` or `id` returns the text of the first read, whatever assignments to the header's
fields or to `hash` and `id` are made in between; and `hash` and `id` are the same
accessor. -/
theorem hash_immutable (sha256 : Buffer → Buffer)
    (hsha : ∀ b : Buffer, (sha256 b).length = 32) (h : BlockHeader) (acts : List Action) :
    h.hash sha256 = h.id sha256 ∧
    ∀ t ∈ ((h.id sha256).2.run sha256 acts).1, t = (h.id sha256).1 := by
  refine ⟨rfl, ?_⟩
  obtain ⟨h1, h2⟩ := id_fills_cache sha256 hsha h
  exact run_cached sha256 _ h2 acts _ h1


theorem sampleDigest_length (b : Buffer) : (sampleDigest b).length = 32 := by
  simp [sampleDigest]

theorem hash_immutable_witness :
    (∀ b : Buffer, (sampleDigest b).length = 32) ∧
    ∀ t ∈ ((sampleHeader.id sampleDigest).2.run sampleDigest
        [Action.assign (Assignment.nonce (some 5)), Action.assign (Assignment.hash (some ['x'])),
          Action.readHash, Action.assign (Assignment.id none), Action.readId]).1,
      t = (sampleHeader.id sampleDigest).1 :=
  ⟨sampleDigest_length,
    (hash_immutable sampleDigest sampleDigest_length sampleHeader
      [Action.assign (Assignment.nonce (some 5)), Action.assign (Assignment.hash (some ['x'])),
        Action.readHash, Action.assign (Assignment.id none), Action.readId]).2⟩

/-! ## Targets every hash meets -/

theorem ite_some_le (p : Prop) [Decidable p] (a : Nat) (x : Option Nat) (ha : a ≤ 15)
    (hx : x.getD 0 ≤ 15) : (if p then some a else x).getD 0 ≤ 15 := by
  split
  · exact ha
  · exact hx

theorem hexVal_le (c : Char) : (hexVal c).getD 0 ≤ 15 := by
  unfold hexVal
  repeat (apply ite_some_le _ _ _ (by decide))
  exact Nat.zero_le 15

theorem fromHex_foldl_lt (s : List Char) (acc : Nat) :
    s.foldl (fun a c => a * 16 + (hexVal c).getD 0) acc < (acc + 1) * 16 ^ s.length := by
  induction s generalizing acc with
  | nil => simp
  | cons c cs ih =>
    have hc := hexVal_le c
    have h1 := ih (acc * 16 + (hexVal c).getD 0)
    simp only [List.foldl_cons, List.length_cons, pow_succ]
    calc _ < (acc * 16 + (hexVal c).getD 0 + 1) * 16 ^ cs.length := h1
      _ ≤ ((acc + 1) * 16) * 16 ^ cs.length := Nat.mul_le_mul_right _ (by omega)
      _ = (acc + 1) * (16 ^ cs.length * 16) := by ring

/-- A hexadecimal text of `n` digits denotes a number below 16 to the power `n`. -/
theorem fromHex_lt (s : List Char) : BN.fromHex s < 16 ^ s.length := by
  have h := fromHex_foldl_lt s 0
  simpa [BN.fromHex] using h

/-- C17: for every header whose bits have a non-zero 24-bit mantissa and an exponent byte
of at least 35, the decoded target is at least 2^256, and `validProofOfWork` returns true
whatever the 64 hexadecimal digits of the header's hash are. -/
theorem validProofOfWork_easy_target (sha256 : Buffer → Buffer) (h : BlockHeader)
    (bits : Nat) (hb : h.bits = some bits) (h32 : bits < 2 ^ 32)
    (hm : bits % 2 ^ 24 ≠ 0) (he : 35 ≤ bits / 2 ^ 24)
    (hid : (h.id sha256).1.length = 64) :
    2 ^ 256 ≤ getTargetDifficulty h none ∧ (validProofOfWork sha256 h).1 = true := by
  have hmod : bits % 2 ^ 32 = bits := Nat.mod_eq_of_lt h32
  have hland : bits &&& 0xffffff = bits % 2 ^ 24 := Nat.and_pow_two_sub_one_eq_mod bits 24
  have hshift : bits >>> 24 = bits / 2 ^ 24 := Nat.shiftRight_eq_div_pow bits 24
  have ht : 2 ^ 256 ≤ getTargetDifficulty h none := by
    rw [target_none h bits hb, hmod, hland, hshift]
    have hexp : 256 ≤ (8 * (((bits / 2 ^ 24 : Nat) : Int) - 3)).toNat := by omega
    calc 2 ^ 256 ≤ 2 ^ (8 * (((bits / 2 ^ 24 : Nat) : Int) - 3)).toNat :=
          Nat.pow_le_pow_right (by decide) hexp
      _ = 1 * 2 ^ (8 * (((bits / 2 ^ 24 : Nat) : Int) - 3)).toNat := (Nat.one_mul _).symm
      _ ≤ _ := Nat.mul_le_mul_right _ (Nat.pos_of_ne_zero hm)
  refine ⟨ht, ?_⟩
  have hbits : (h.id sha256).2.bits = h.bits := by
    unfold BlockHeader.id
    split <;> rfl
  have ht2 : getTargetDifficulty (h.id sha256).2 none = getTargetDifficulty h none := by
    simp [getTargetDifficulty, hbits]
  have hpow : BN.fromHex (h.id sha256).1 < 2 ^ 256 := by
    have := fromHex_lt (h.id sha256).1
    rw [hid] at this
    calc _ < 16 ^ 64 := this
      _ = 2 ^ 256 := by norm_num
  simp only [validProofOfWork, ht2]
  rw [if_neg (by omega)]

theorem validProofOfWork_easy_target_witness :
    ({ bits := some 0x23000001 } : BlockHeader).bits = some 0x23000001 ∧
    (0x23000001 : Nat) < 2 ^ 32 ∧ (0x23000001 : Nat) % 2 ^ 24 ≠ 0 ∧
    35 ≤ (0x23000001 : Nat) / 2 ^ 24 ∧
    (validProofOfWork sampleDigest { bits := some 0x23000001 }).1 = true := by
  have hid : ((({ bits := some 0x23000001 } : BlockHeader).id sampleDigest).1).length = 64 := by
    simp [BlockHeader.id, truthyStr, toHexString_length, BufferUtil.reverse, _getHash,
      sampleDigest_length]
  exact ⟨rfl, by decide, by decide, by decide,
    (validProofOfWork_easy_target sampleDigest { bits := some 0x23000001 } 0x23000001 rfl
      (by decide) (by decide) (by decide) hid).2⟩

/-! ## Unit codes and exchange rates -/

theorem Unit.from_error_iff (amount : JSNumber) (code : List Char) :
    Unit._from amount code = .error UnitError.unknownCode ↔ UNITS code = UnitsEntry.absent := by
  unfold Unit._from
  cases h : UNITS code <;> simp [h]

theorem Unit.from_error (amount : JSNumber) (code : List Char) (e : UnitError)
    (h : Unit._from amount code = .error e) : e = UnitError.unknownCode := by
  unfold Unit._from at h
  cases h2 : UNITS code <;> simp [h2] at h
  exact h.symm

theorem Unit.new_string_error_iff (amount : Amount) (code : List Char) :
    Unit.new amount (Code.string code) = .error UnitError.unknownCode ↔
      UNITS code = UnitsEntry.absent := by
  rw [← Unit.from_error_iff amount.toNumber code]
  unfold Unit.new
  cases h : Unit._from amount.toNumber code with
  | ok v => simp [h]
  | error e =>
    have := Unit.from_error _ _ _ h
    subst this
    simp [h]

theorem Unit.to_string_error_iff (u : Unit) (code : List Char) :
    u.to_ (Code.string code) = .error UnitError.unknownCode ↔
      UNITS code = UnitsEntry.absent := by
  unfold Unit.to_ Unit.toCode
  cases h : UNITS code <;> simp [h]

theorem UNITS_absent_iff (code : List Char) :
    UNITS code = UnitsEntry.absent ↔
      code ∉ unitCodes ∧ code ∉ objectPrototypeKeys.map String.toList := by
  have hany : (objectPrototypeKeys.any fun k => k.toList == code) = true ↔
      code ∈ objectPrototypeKeys.map String.toList := by
    simp only [List.any_eq_true, List.mem_map, beq_iff_eq]
  unfold UNITS
  by_cases h1 : code = "EXCC".toList
  · simp [h1, unitCodes]
  by_cases h2 : code = "mEXCC".toList
  · simp [h2, unitCodes]
  by_cases h3 : code = "uEXCC".toList
  · simp [h3, unitCodes]
  by_cases h4 : code = "bits".toList
  · simp [h4, unitCodes]
  by_cases h5 : code = "dbits".toList
  · simp [h5, unitCodes]
  by_cases h6 : code = "exels".toList
  · simp [h6, unitCodes]
  have hn : code ∉ unitCodes := by
    simp only [unitCodes, List.mem_cons, List.mem_singleton, not_or]
    exact ⟨h1, h2, h3, h4, h5, h6, by simp⟩
  rw [if_neg h1, if_neg h2, if_neg h3, if_neg h4, if_neg h5, if_neg h6]
  by_cases h7 : (objectPrototypeKeys.any fun k => k.toList == code) = true
  · rw [if_pos h7]
    simp [hn, hany.mp h7]
  · rw [if_neg h7]
    simp only [true_iff]
    exact ⟨hn, fun hc => h7 (hany.mpr hc)⟩

/-- C19: with a string code, the constructor and `to` fail with `UnknownCode` exactly when
`UNITS[code]` finds nothing, that is when the code is none of the six unit codes and none
of the property names every object inherits. So `'constructor'`, which is not a unit
code, is accepted: the constructor returns a unit that holds `NaN`, and `to` returns
`NaN`. -/
theorem unknownCode_iff :
    (∀ (amount : Amount) (code : List Char),
      Unit.new amount (Code.string code) = .error UnitError.unknownCode ↔
        (code ∉ unitCodes ∧ code ∉ objectPrototypeKeys.map String.toList)) ∧
    (∀ (u : Unit) (code : List Char),
      u.to_ (Code.string code) = .error UnitError.unknownCode ↔
        (code ∉ unitCodes ∧ code ∉ objectPrototypeKeys.map String.toList)) ∧
    "constructor".toList ∉ unitCodes ∧
    Unit.new (Amount.number (JSNumber.finite 100)) (Code.string "constructor".toList) =
      .ok { _value := JSNumber.nan } ∧
    Unit.to_ { _value := JSNumber.finite 10000000000 } (Code.string "constructor".toList) =
      .ok JSNumber.nan ∧
    Unit.new (Amount.number (JSNumber.finite 100)) (Code.string "USD".toList) =
      .error UnitError.unknownCode := by
  refine ⟨?_, ?_, by decide, by decide!, by decide!, by decide!⟩
  · intro amount code
    rw [Unit.new_string_error_iff, UNITS_absent_iff]
  · intro u code
    rw [Unit.to_string_error_iff, UNITS_absent_iff]

theorem UNITS_EXCC : UNITS "EXCC".toList = UnitsEntry.unit 100000000 8 := by
  decide

theorem Unit.new_number (amount : Amount) (rate : JSNumber) :
    Unit.new amount (Code.number rate) =
      if rate.leZero then .error UnitError.invalidRate
      else .ok { _value := jsParseInt (toFixed (JSNumber.mul
        (JSNumber.div amount.toNumber rate) (JSNumber.finite 100000000)) 0) } := by
  simp only [Unit.new, Unit._from, UNITS_EXCC, UnitsEntry.factor]

theorem Unit.to_number (u : Unit) (rate : JSNumber) :
    u.to_ (Code.number rate) =
      if rate.leZero then .error UnitError.invalidRate
      else .ok (jsParseFloat (toFixed (JSNumber.mul u.EXCC rate) 2)) := by
  simp only [Unit.to_]

/-- C20: with a numeric rate, the constructor and `atRate` fail with `InvalidRate` exactly
when `rate <= 0` holds, which is the case for a finite rate that is at most 0 and for
minus infinity, and not for `NaN`; the check comes first, so the failure is the same for
every amount and every unit, and for any other rate a value is returned. -/
theorem invalidRate_iff (rate : JSNumber) :
    (∀ amount : Amount,
      Unit.new amount (Code.number rate) = .error UnitError.invalidRate ↔
        rate.leZero = true) ∧
    (∀ u : Unit,
      u.atRate (Code.number rate) = .error UnitError.invalidRate ↔ rate.leZero = true) ∧
    (rate.leZero = false →
      (∀ amount : Amount, ∃ u : Unit, Unit.new amount (Code.number rate) = .ok u) ∧
      (∀ u : Unit, ∃ v : JSNumber, u.atRate (Code.number rate) = .ok v)) ∧
    (∀ q : ℚ, (JSNumber.finite q).leZero = true ↔ q ≤ 0) ∧
    JSNumber.negInf.leZero = true ∧ JSNumber.nan.leZero = false ∧
    JSNumber.posInf.leZero = false := by
  refine ⟨?_, ?_, ?_, ?_, rfl, rfl, rfl⟩
  · intro amount
    rw [Unit.new_number]
    cases h : rate.leZero <;> simp
  · intro u
    rw [Unit.atRate, Unit.to_number]
    cases h : rate.leZero <;> simp
  · intro h
    constructor
    · intro amount
      rw [Unit.new_number, h]
      exact ⟨_, rfl⟩
    · intro u
      rw [Unit.atRate, Unit.to_number, h]
      exact ⟨_, rfl⟩
  · intro q
    simp [JSNumber.leZero]

theorem invalidRate_iff_witness :
    (Unit.new (Amount.number (JSNumber.finite 100)) (Code.number (JSNumber.finite (-123))) =
      .error UnitError.invalidRate ↔ (JSNumber.finite (-123)).leZero = true) ∧
    Unit.new (Amount.number (JSNumber.finite 100)) (Code.number (JSNumber.finite (-123))) =
      .error UnitError.invalidRate :=
  ⟨(invalidRate_iff (JSNumber.finite (-123))).1 (Amount.number (JSNumber.finite 100)),
    ((invalidRate_iff (JSNumber.finite (-123))).1 (Amount.number (JSNumber.finite 100))).mpr
      (by decide)⟩

/-! ## Values a unit holds -/

/-- C18: `Unit.fromEXCC(1.3)` holds 130000000 exels and reads as 1300 mEXCC, 1300000
dbits and 130000000 exels. For the amount 10^21 in exels, which is a double, the product
with the factor 1 is 10^21, `toFixed()` writes it as "1e+21", and `parseInt` reads 1 from
that text: the unit holds 1 exel, not the 10^21 the amount is. The same happens for
10^13 EXCC. -/
theorem unit_value_examples :
    Unit.fromEXCC (Amount.number (roundDouble (13 / 10))) =
      .ok { _value := JSNumber.finite 130000000 } ∧
    Unit.to_ { _value := JSNumber.finite 130000000 } (Code.string "mEXCC".toList) =
      .ok (JSNumber.finite 1300) ∧
    Unit.to_ { _value := JSNumber.finite 130000000 } (Code.string "dbits".toList) =
      .ok (JSNumber.finite 1300000) ∧
    Unit.to_ { _value := JSNumber.finite 130000000 } (Code.string "exels".toList) =
      .ok (JSNumber.finite 130000000) ∧
    roundDouble (10 ^ 21) = JSNumber.finite (10 ^ 21) ∧
    toFixed (JSNumber.mul (JSNumber.finite (10 ^ 21)) (JSNumber.finite 1)) 0 =
      ['1', 'e', '+', '2', '1'] ∧
    Unit.new (Amount.number (JSNumber.finite (10 ^ 21))) (Code.string "exels".toList) =
      .ok { _value := JSNumber.finite 1 } ∧
    Unit.to_ { _value := JSNumber.finite 1 } (Code.string "exels".toList) =
      .ok (JSNumber.finite 1) ∧
    Unit.fromEXCC (Amount.number (JSNumber.finite (10 ^ 13))) =
      .ok { _value := JSNumber.finite 1 } := by
  refine ⟨by decide!, by decide!, by decide!, by decide!, by decide!, by decide!, by decide!,
    by decide!, by decide!⟩

/-! ## The expectations of the unit tests -/

/-- The expectations of `test/unit.js` on property accessors (lines 34-41) and on string
amounts and constructor helpers (lines 43-79) hold in the embedding. -/
theorem test_accessors_and_helpers :
    convert (Amount.number (lit (12 / 10))) (Code.string "EXCC".toList)
      (Code.string "EXCC".toList) = .ok (lit (12 / 10)) ∧
    convert (Amount.number (lit (12 / 10))) (Code.string "EXCC".toList)
      (Code.string "mEXCC".toList) = .ok (lit 1200) ∧
    convert (Amount.number (lit (12 / 10))) (Code.string "EXCC".toList)
      (Code.string "uEXCC".toList) = .ok (lit 1200000) ∧
    convert (Amount.number (lit (12 / 10))) (Code.string "EXCC".toList)
      (Code.string "dbits".toList) = .ok (lit 1200000) ∧
    convert (Amount.number (lit (12 / 10))) (Code.string "EXCC".toList)
      (Code.string "exels".toList) = .ok (lit 120000000) ∧
    convert (Amount.string "1.00001".toList) (Code.string "EXCC".toList)
      (Code.string "EXCC".toList) = .ok (lit (100001 / 100000)) ∧
    convert (Amount.string "1.00001".toList) (Code.string "mEXCC".toList)
      (Code.string "mEXCC".toList) = .ok (lit (100001 / 100000)) ∧
    convert (Amount.string "100".toList) (Code.string "dbits".toList)
      (Code.string "dbits".toList) = .ok (lit 100) ∧
    convert (Amount.string "8999".toList) (Code.string "exels".toList)
      (Code.string "exels".toList) = .ok (lit 8999) ∧
    convert (Amount.string "43".toList) (Code.number (lit 350))
      (Code.string "EXCC".toList) = .ok (lit (12285714 / 100000000)) ∧
    convert (Amount.number (lit (100001 / 100000))) (Code.string "EXCC".toList)
      (Code.string "EXCC".toList) = .ok (lit (100001 / 100000)) ∧
    convert (Amount.number (lit (100001 / 100000))) (Code.string "mEXCC".toList)
      (Code.string "mEXCC".toList) = .ok (lit (100001 / 100000)) ∧
    convert (Amount.number (lit 100)) (Code.string "dbits".toList)
      (Code.string "dbits".toList) = .ok (lit 100) ∧
    convert (Amount.number (lit 8999)) (Code.string "exels".toList)
      (Code.string "exels".toList) = .ok (lit 8999) ∧
    convert (Amount.number (lit 43)) (Code.number (lit 350))
      (Code.string "EXCC".toList) = .ok (lit (12285714 / 100000000)) := by
  refine ⟨by decide!, by decide!, by decide!, by decide!, by decide!, by decide!, by decide!,
    by decide!, by decide!, by decide!, by decide!, by decide!, by decide!, by decide!,
    by decide!⟩

/-- The expectations of `test/unit.js` on conversions (lines 81-111), on fiat (lines
144-151) and on failures (lines 176-192) hold in the embedding. -/
theorem test_conversions_and_failures :
    convert (Amount.number (lit (13 / 10))) (Code.string "EXCC".toList)
      (Code.string "mEXCC".toList) = .ok (lit 1300) ∧
    convert (Amount.number (lit (13 / 10))) (Code.string "EXCC".toList)
      (Code.string "dbits".toList) = .ok (lit 1300000) ∧
    convert (Amount.number (lit (13 / 10))) (Code.string "EXCC".toList)
      (Code.string "exels".toList) = .ok (lit 130000000) ∧
    convert (Amount.number (lit (13 / 10))) (Code.string "mEXCC".toList)
      (Code.string "EXCC".toList) = .ok (lit (13 / 10000)) ∧
    convert (Amount.number (lit (13 / 10))) (Code.string "mEXCC".toList)
      (Code.string "dbits".toList) = .ok (lit 1300) ∧
    convert (Amount.number (lit (13 / 10))) (Code.string "mEXCC".toList)
      (Code.string "exels".toList) = .ok (lit 130000) ∧
    convert (Amount.number (lit (13 / 10))) (Code.string "dbits".toList)
      (Code.string "EXCC".toList) = .ok (lit (13 / 10000000)) ∧
    convert (Amount.number (lit (13 / 10))) (Code.string "dbits".toList)
      (Code.string "mEXCC".toList) = .ok (lit (13 / 10000)) ∧
    convert (Amount.number (lit (13 / 10))) (Code.string "dbits".toList)
      (Code.string "exels".toList) = .ok (lit 130) ∧
    convert (Amount.number (lit 3)) (Code.string "exels".toList)
      (Code.string "EXCC".toList) = .ok (lit (3 / 100000000)) ∧
    convert (Amount.number (lit 3)) (Code.string "exels".toList)
      (Code.string "mEXCC".toList) = .ok (lit (3 / 100000)) ∧
    convert (Amount.number (lit 3)) (Code.string "exels".toList)
      (Code.string "dbits".toList) = .ok (lit (3 / 100)) ∧
    convert (Amount.number (lit (3 / 100000000))) (Code.string "EXCC".toList)
      (Code.string "mEXCC".toList) = .ok (lit (3 / 100000)) ∧
    convert (Amount.number (lit (3 / 100000000))) (Code.string "EXCC".toList)
      (Code.string "dbits".toList) = .ok (lit (3 / 100)) ∧
    convert (Amount.number (lit (3 / 100000000))) (Code.string "EXCC".toList)
      (Code.string "exels".toList) = .ok (lit 3) ∧
    convert (Amount.number (lit (13 / 10))) (Code.number (lit 350))
      (Code.number (lit 350)) = .ok (lit (13 / 10)) ∧
    convert (Amount.number (lit (123 / 10000))) (Code.string "EXCC".toList)
      (Code.number (lit 10)) = .ok (lit (12 / 100)) ∧
    Unit.new (Amount.number (lit 100)) (Code.string "USD".toList) =
      .error UnitError.unknownCode ∧
    convert (Amount.number (lit 100)) (Code.string "EXCC".toList)
      (Code.string "USD".toList) = .error UnitError.unknownCode ∧
    Unit.new (Amount.number (lit 100)) (Code.number (lit (-123))) =
      .error UnitError.invalidRate ∧
    convert (Amount.number (lit 100)) (Code.string "EXCC".toList)
      (Code.number (lit (-123))) = .error UnitError.invalidRate := by
  refine ⟨by decide!, by decide!, by decide!, by decide!, by decide!, by decide!, by decide!,
    by decide!, by decide!, by decide!, by decide!, by decide!, by decide!, by decide!,
    by decide!, by decide!, by decide!, by decide!, by decide!, by decide!, by decide!⟩

/-! ## Rounding to a double -/

theorem pow2_eq_zpow (k : ℤ) : pow2 k = (2 : ℚ) ^ k := by
  unfold pow2
  split
  · rename_i h
    conv_rhs => rw [← Int.toNat_of_nonneg h]
    rw [zpow_natCast]; push_cast; rfl
  · rename_i h
    have h2 : (0 : ℤ) ≤ -k := by omega
    have h3 : k = -((-k).toNat : ℤ) := by rw [Int.toNat_of_nonneg h2]; ring
    conv_rhs => rw [h3]
    rw [zpow_neg, zpow_natCast]; push_cast
    rw [one_div]

theorem pow2_pos (k : ℤ) : 0 < pow2 k := by
  rw [pow2_eq_zpow]; positivity

theorem natLog2Aux_eq (fuel n : Nat) (h : n ≤ fuel) : natLog2Aux fuel n = Nat.log 2 n := by
  induction fuel generalizing n with
  | zero =>
    have : n = 0 := by omega
    subst this; simp [natLog2Aux]
  | succ f ih =>
    unfold natLog2Aux
    split
    · rename_i h2
      rw [Nat.log_of_one_lt_of_le (by norm_num) h2, ih (n / 2) (by omega)]
    · rename_i h2
      rw [Nat.log_of_lt (by omega)]

theorem natLog2_eq (n : Nat) : natLog2 n = Nat.log 2 n := natLog2Aux_eq n n le_rfl

theorem natLog2_le (n : Nat) (hn : n ≠ 0) : 2 ^ natLog2 n ≤ n := by
  rw [natLog2_eq]; exact Nat.pow_log_le_self 2 hn

theorem natLog2_lt (n : Nat) : n < 2 ^ (natLog2 n + 1) := by
  rw [natLog2_eq]; exact Nat.lt_pow_succ_log_self (by norm_num) n

/-- The binary logarithm brackets a positive rational. -/
theorem floorLog2_spec (q : ℚ) (hq : 0 < q) :
    (2 : ℚ) ^ floorLog2 q ≤ q ∧ q < (2 : ℚ) ^ (floorLog2 q + 1) := by
  have hnum : 0 < q.num := Rat.num_pos.mpr hq
  have hden : 0 < q.den := q.den_pos
  set a := natLog2 q.num.natAbs with ha
  set b := natLog2 q.den with hb
  have h1 : (2 : ℚ) ^ a ≤ (q.num.natAbs : ℚ) := by
    exact_mod_cast natLog2_le q.num.natAbs (by omega)
  have h2 : (q.num.natAbs : ℚ) < (2 : ℚ) ^ (a + 1) := by
    exact_mod_cast natLog2_lt q.num.natAbs
  have h3 : (2 : ℚ) ^ b ≤ (q.den : ℚ) := by
    exact_mod_cast natLog2_le q.den (by omega)
  have h4 : (q.den : ℚ) < (2 : ℚ) ^ (b + 1) := by
    exact_mod_cast natLog2_lt q.den
  have hqe : q = (q.num.natAbs : ℚ) / (q.den : ℚ) := by
    have h5 : ((q.num.natAbs : ℤ) : ℚ) = (q.num : ℚ) := by
      rw [Int.natAbs_of_nonneg hnum.le]
    have h6 : (q.num.natAbs : ℚ) = (q.num : ℚ) := by
      rw [← h5, Int.cast_natCast]
    rw [h6]; exact (Rat.num_div_den q).symm
  have hdq : (0 : ℚ) < (q.den : ℚ) := by exact_mod_cast hden
  have e1 : (2 : ℚ) ^ ((a : ℤ) - b) = (2 : ℚ) ^ a / (2 : ℚ) ^ b := by
    rw [zpow_sub₀ (by norm_num), zpow_natCast, zpow_natCast]
  have hpb : (0 : ℚ) < (2 : ℚ) ^ b := by positivity
  have hpa : (0 : ℚ) < (2 : ℚ) ^ a := by positivity
  -- 2^(a-b-1) < q < 2^(a-b+1)
  have lo : (2 : ℚ) ^ ((a : ℤ) - b - 1) ≤ q := by
    rw [zpow_sub₀ (by norm_num), e1, zpow_one, hqe, div_div, div_le_div_iff₀ (by positivity) hdq]
    calc (2 : ℚ) ^ a * (q.den : ℚ) ≤ (q.num.natAbs : ℚ) * (q.den : ℚ) := by gcongr
      _ ≤ (q.num.natAbs : ℚ) * ((2 : ℚ) ^ (b + 1)) := by gcongr
      _ = (q.num.natAbs : ℚ) * ((2 : ℚ) ^ b * 2) := by rw [pow_succ]
  have hi : q < (2 : ℚ) ^ ((a : ℤ) - b + 1) := by
    rw [zpow_add₀ (by norm_num), e1, zpow_one]
    conv_lhs => rw [hqe]
    rw [div_mul_eq_mul_div, div_lt_div_iff₀ hdq hpb]
    calc (q.num.natAbs : ℚ) * (2 : ℚ) ^ b < (2 : ℚ) ^ (a + 1) * (2 : ℚ) ^ b := by gcongr
      _ = (2 : ℚ) ^ a * 2 * (2 : ℚ) ^ b := by rw [pow_succ]
      _ ≤ (2 : ℚ) ^ a * 2 * (q.den : ℚ) := by gcongr
  unfold floorLog2
  simp only [← ha, ← hb, pow2_eq_zpow]
  split
  · rename_i h
    exact ⟨h, hi⟩
  · rename_i h
    refine ⟨lo, ?_⟩
    have : ((a : ℤ) - b - 1 + 1) = (a : ℤ) - b := by ring
    rw [this]; exact lt_of_not_le h

theorem floor_toNat_cast (x : ℚ) (hx : 0 ≤ x) : ((x.floor.toNat : ℕ) : ℚ) = (⌊x⌋ : ℚ) := by
  have h : (0 : ℤ) ≤ ⌊x⌋ := Int.floor_nonneg.mpr hx
  have h2 : ((⌊x⌋.toNat : ℕ) : ℤ) = ⌊x⌋ := Int.toNat_of_nonneg h
  show ((⌊x⌋.toNat : ℕ) : ℚ) = (⌊x⌋ : ℚ)
  exact_mod_cast congrArg (Int.cast : ℤ → ℚ) h2

/-- Rounding to the nearest integer moves a non-negative rational by a half at most. -/
theorem roundHalfEven_err (x : ℚ) (hx : 0 ≤ x) : |((roundHalfEven x : ℕ) : ℚ) - x| ≤ 1 / 2 := by
  have hf := floor_toNat_cast x hx
  have h1 : (⌊x⌋ : ℚ) ≤ x := Int.floor_le x
  have h2 : x < (⌊x⌋ : ℚ) + 1 := Int.lt_floor_add_one x
  unfold roundHalfEven
  simp only
  rw [abs_le]
  split
  · rename_i h; rw [hf] at h ⊢; constructor <;> linarith
  · rename_i h
    split
    · rename_i h3; rw [hf] at h3; push_cast; rw [hf]; constructor <;> linarith
    · rename_i h3
      rw [hf] at h h3
      split
      · rw [hf]; constructor <;> linarith
      · push_cast; rw [hf]; constructor <;> linarith

theorem roundHalfEven_natCast (n : ℕ) : roundHalfEven (n : ℚ) = n := by
  have h : ((n : ℚ)).floor = (n : ℤ) := by
    show ⌊(n : ℚ)⌋ = (n : ℤ)
    exact Int.floor_natCast n
  unfold roundHalfEven
  simp [h]

/-- The integer that `toFixed` takes for a non-negative rational at most a half below it
and less than a half above it. -/
theorem roundHalfUp_eq (x : ℚ) (n : ℕ) (h1 : (n : ℚ) - 1 / 2 ≤ x) (h2 : x < (n : ℚ) + 1 / 2)
    (hx : 0 ≤ x) : roundHalfUp x = n := by
  have hf := floor_toNat_cast x hx
  have h3 : (⌊x⌋ : ℚ) ≤ x := Int.floor_le x
  have h4 : x < (⌊x⌋ : ℚ) + 1 := Int.lt_floor_add_one x
  unfold roundHalfUp
  simp only
  split
  · rename_i h
    rw [hf] at h
    have a1 : ((x.floor.toNat : ℕ) : ℚ) < (n : ℚ) + 1 := by rw [hf]; linarith
    have a2 : (n : ℚ) < ((x.floor.toNat : ℕ) : ℚ) + 1 := by rw [hf]; linarith
    have b1 : x.floor.toNat < n + 1 := by exact_mod_cast a1
    have b2 : n < x.floor.toNat + 1 := by exact_mod_cast a2
    omega
  · rename_i h
    rw [hf] at h
    have a1 : ((x.floor.toNat : ℕ) : ℚ) < (n : ℚ) := by rw [hf]; linarith
    have a2 : (n : ℚ) < ((x.floor.toNat : ℕ) : ℚ) + 2 := by rw [hf]; linarith
    have b1 : x.floor.toNat < n := by exact_mod_cast a1
    have b2 : n < x.floor.toNat + 2 := by exact_mod_cast a2
    omega

theorem roundDouble_zero : roundDouble 0 = JSNumber.finite 0 := by
  simp [roundDouble]

/-- Rounding commutes with the change of sign. -/
theorem roundDouble_neg (q v : ℚ) (h : roundDouble q = JSNumber.finite v) :
    roundDouble (-q) = JSNumber.finite (-v) := by
  unfold roundDouble at h ⊢
  by_cases hq : q = 0
  · subst hq; simp at h ⊢; rw [← h]
  · have hq2 : -q ≠ 0 := neg_ne_zero.mpr hq
    rw [if_neg hq] at h
    rw [if_neg hq2]
    simp only [abs_neg] at h ⊢
    rcases lt_or_gt_of_ne hq with hneg | hpos
    · have h1 : ¬ (0 < q) := not_lt.mpr hneg.le
      have h2 : 0 < -q := neg_pos.mpr hneg
      simp only [h1, h2, if_true, if_false] at h ⊢
      split at h
      · cases h
      · rename_i h3
        rw [if_neg h3]
        simp only [JSNumber.finite.injEq] at h
        rw [← h]; simp
    · have h1 : 0 < q := hpos
      have h2 : ¬ (0 < -q) := by simp [hpos.le]
      simp only [h1, h2, if_true, if_false] at h ⊢
      split at h
      · cases h
      · rename_i h3
        rw [if_neg h3]
        simp only [JSNumber.finite.injEq] at h
        rw [← h]

/-- A positive rational in the normal range rounds to a double within the relative error
2^-53. -/
theorem roundDouble_err_pos (q : ℚ) (hlo : (2 : ℚ) ^ (-1022 : ℤ) ≤ q)
    (hhi : q ≤ (2 : ℚ) ^ (1023 : ℤ)) :
    ∃ v : ℚ, roundDouble q = JSNumber.finite v ∧ |v - q| ≤ q / 2 ^ 53 := by
  have hq : 0 < q := lt_of_lt_of_le (by positivity) hlo
  obtain ⟨f1, f2⟩ := floorLog2_spec q hq
  have hfl : (-1022 : ℤ) ≤ floorLog2 q := by
    have := lt_of_le_of_lt hlo f2
    have h3 := (zpow_lt_zpow_iff_right₀ (by norm_num : (1 : ℚ) < 2)).mp this
    omega
  have he : max (floorLog2 q - 52) (-1074) = floorLog2 q - 52 := max_eq_left (by omega)
  set e := floorLog2 q - 52 with hedef
  have hpe : (0 : ℚ) < (2 : ℚ) ^ e := by positivity
  have hm := roundHalfEven_err (q / (2 : ℚ) ^ e) (by positivity)
  set m := roundHalfEven (q / (2 : ℚ) ^ e) with hmdef
  have hv : |(m : ℚ) * (2 : ℚ) ^ e - q| ≤ (2 : ℚ) ^ e / 2 := by
    have : (m : ℚ) * (2 : ℚ) ^ e - q = ((m : ℚ) - q / (2 : ℚ) ^ e) * (2 : ℚ) ^ e := by
      field_simp
    rw [this, abs_mul, abs_of_pos hpe]
    calc |(m : ℚ) - q / (2 : ℚ) ^ e| * (2 : ℚ) ^ e ≤ 1 / 2 * (2 : ℚ) ^ e := by gcongr
      _ = (2 : ℚ) ^ e / 2 := by ring
  have hee : (2 : ℚ) ^ e = (2 : ℚ) ^ floorLog2 q / 2 ^ 52 := by
    rw [hedef, zpow_sub₀ (by norm_num)]; norm_num
  have hbound : (2 : ℚ) ^ e / 2 ≤ q / 2 ^ 53 := by
    rw [hee]
    have : (2 : ℚ) ^ floorLog2 q / 2 ^ 52 / 2 = (2 : ℚ) ^ floorLog2 q / 2 ^ 53 := by ring
    rw [this]; gcongr
  refine ⟨(m : ℚ) * (2 : ℚ) ^ e, ?_, le_trans hv hbound⟩
  unfold roundDouble
  rw [if_neg hq.ne']
  simp only [abs_of_pos hq, he, pow2_eq_zpow, ← hedef, ← hmdef, hq, if_true]
  rw [if_neg]
  have h5 := (abs_le.mp (le_trans hv hbound)).2
  have h6 : (m : ℚ) * (2 : ℚ) ^ e ≤ q + q / 2 ^ 53 := by linarith
  have h7 : q + q / 2 ^ 53 < (2 : ℚ) ^ (1024 : ℤ) := by
    have e1 : (2 : ℚ) ^ (1024 : ℤ) = (2 : ℚ) ^ (1023 : ℤ) * 2 := by
      rw [show (1024 : ℤ) = 1023 + 1 by norm_num, zpow_add₀ (by norm_num), zpow_one]
    rw [e1]
    have : q / 2 ^ 53 < q := by
      apply div_lt_self hq; norm_num
    linarith
  exact not_le.mpr (lt_of_le_of_lt h6 h7)

/-- A rational that is zero or in the normal range rounds to a double within the relative
error 2^-53. -/
theorem roundDouble_err (q : ℚ) (hlo : q = 0 ∨ (2 : ℚ) ^ (-1022 : ℤ) ≤ |q|)
    (hhi : |q| ≤ (2 : ℚ) ^ (1023 : ℤ)) :
    ∃ v : ℚ, roundDouble q = JSNumber.finite v ∧ |v - q| ≤ |q| / 2 ^ 53 := by
  rcases hlo with h0 | hlo
  · subst h0; exact ⟨0, roundDouble_zero, by simp⟩
  · rcases le_or_lt 0 q with hq | hq
    · rw [abs_of_nonneg hq] at hlo hhi ⊢
      exact roundDouble_err_pos q hlo hhi
    · rw [abs_of_neg hq] at hlo hhi ⊢
      obtain ⟨v, hv, hb⟩ := roundDouble_err_pos (-q) hlo hhi
      refine ⟨-v, ?_, ?_⟩
      · have := roundDouble_neg (-q) v hv
        simpa using this
      · have : -v - q = -(v - -q) := by ring
        rw [this, abs_neg]; exact hb

/-- A natural number below 2^53 is a double. -/
theorem roundDouble_natCast (n : ℕ) (hn : n < 2 ^ 53) :
    roundDouble (n : ℚ) = JSNumber.finite (n : ℚ) := by
  rcases Nat.eq_zero_or_pos n with h0 | hpos
  · subst h0; simpa using roundDouble_zero
  have hq : (0 : ℚ) < (n : ℚ) := by exact_mod_cast hpos
  obtain ⟨f1, f2⟩ := floorLog2_spec (n : ℚ) hq
  have hn2 : (n : ℚ) < (2 : ℚ) ^ (53 : ℤ) := by
    calc (n : ℚ) < ((2 ^ 53 : ℕ) : ℚ) := by exact_mod_cast hn
      _ = (2 : ℚ) ^ (53 : ℤ) := by norm_num
  have hfl1 : floorLog2 (n : ℚ) < 53 :=
    (zpow_lt_zpow_iff_right₀ (by norm_num : (1 : ℚ) < 2)).mp (lt_of_le_of_lt f1 hn2)
  have hfl0 : 0 ≤ floorLog2 (n : ℚ) := by
    have h1 : (2 : ℚ) ^ (0 : ℤ) ≤ (n : ℚ) := by
      simp only [zpow_zero]; exact_mod_cast hpos
    have := (zpow_lt_zpow_iff_right₀ (by norm_num : (1 : ℚ) < 2)).mp (lt_of_le_of_lt h1 f2)
    omega
  have he : max (floorLog2 (n : ℚ) - 52) (-1074) = floorLog2 (n : ℚ) - 52 :=
    max_eq_left (by omega)
  obtain ⟨k, hk⟩ : ∃ k : ℕ, floorLog2 (n : ℚ) - 52 = -(k : ℤ) :=
    ⟨(52 - floorLog2 (n : ℚ)).toNat, by rw [Int.toNat_of_nonneg (by omega)]; ring⟩
  have hpk : (2 : ℚ) ^ (-(k : ℤ)) = ((2 : ℚ) ^ k)⁻¹ := by
    rw [zpow_neg, zpow_natCast]
  have hdiv : (n : ℚ) / ((2 : ℚ) ^ k)⁻¹ = ((n * 2 ^ k : ℕ) : ℚ) := by
    rw [div_inv_eq_mul]; push_cast; ring
  unfold roundDouble
  rw [if_neg hq.ne']
  simp only [abs_of_pos hq, pow2_eq_zpow, hq, if_true]
  rw [he, hk, hpk, hdiv, roundHalfEven_natCast]
  have hval : ((n * 2 ^ k : ℕ) : ℚ) * ((2 : ℚ) ^ k)⁻¹ = (n : ℚ) := by
    push_cast; field_simp
  rw [hval, if_neg]
  have : (n : ℚ) < (2 : ℚ) ^ (1024 : ℤ) :=
    lt_trans hn2 ((zpow_lt_zpow_iff_right₀ (by norm_num : (1 : ℚ) < 2)).mpr (by norm_num))
  exact not_le.mpr this

/-- An integer of magnitude below 2^53 is a double. -/
theorem roundDouble_intCast (z : ℤ) (hz : z.natAbs < 2 ^ 53) :
    roundDouble (z : ℚ) = JSNumber.finite (z : ℚ) := by
  rcases le_or_lt 0 z with h | h
  · have e : (z : ℚ) = ((z.natAbs : ℕ) : ℚ) := by
      rw [← Int.cast_natCast, Int.natAbs_of_nonneg h]
    rw [e]; exact roundDouble_natCast _ hz
  · have e : (z : ℚ) = -((z.natAbs : ℕ) : ℚ) := by
      rw [← Int.cast_natCast, Int.ofNat_natAbs_of_nonpos h.le]; simp
    rw [e]; exact roundDouble_neg _ _ (roundDouble_natCast _ hz)

/-- A rational between 2^-100 and 2^100 in magnitude, or zero, rounds to a double within
the relative error 2^-53. -/
theorem roundDouble_err_mid (q : ℚ) (hlo : q = 0 ∨ 1 / 2 ^ 100 ≤ |q|) (hhi : |q| ≤ 2 ^ 100) :
    ∃ v : ℚ, roundDouble q = JSNumber.finite v ∧ |v - q| ≤ |q| / 2 ^ 53 := by
  apply roundDouble_err
  · rcases hlo with h | h
    · exact Or.inl h
    · right
      refine le_trans ?_ h
      have e : (1 : ℚ) / 2 ^ 100 = (2 : ℚ) ^ (-100 : ℤ) := by
        rw [zpow_neg, one_div]; norm_num
      rw [e]
      exact (zpow_le_zpow_iff_right₀ (by norm_num : (1 : ℚ) < 2)).mpr (by norm_num)
  · refine le_trans hhi ?_
    have e : (2 : ℚ) ^ 100 = (2 : ℚ) ^ (100 : ℤ) := by norm_num
    rw [e]
    exact (zpow_le_zpow_iff_right₀ (by norm_num : (1 : ℚ) < 2)).mpr (by norm_num)

/-! ## Reading back the text of a number -/

theorem isDigit_range (c : Char) (h : c.isDigit = true) : 48 ≤ c.toNat ∧ c.toNat ≤ 57 := by
  simp only [Char.isDigit, Bool.and_eq_true, decide_eq_true_eq] at h
  exact ⟨by simpa using h.1, by simpa using h.2⟩

theorem isDigit_not_whiteSpace (c : Char) (h : c.isDigit = true) : isWhiteSpace c = false := by
  obtain ⟨h1, h2⟩ := isDigit_range c h
  unfold isWhiteSpace
  simp only [Bool.or_eq_false_iff, Bool.and_eq_false_iff, beq_eq_false_iff_ne, ne_eq,
    decide_eq_false_iff_not, not_le]
  omega

theorem isDigit_ne (c d : Char) (h : c.isDigit = true) (hd : d.isDigit = false) : c ≠ d := by
  intro e; rw [e, hd] at h; cases h

/-- The literal a text of digits starts with is read like its unsigned part. -/
theorem parseStrDecimalLiteral_digit (c : Char) (rest : List Char) (h : c.isDigit = true) :
    parseStrDecimalLiteral (c :: rest) =
      match parseUnsignedDecimal (c :: rest) with
      | some (v, r) => some (roundDouble v, r)
      | none => none := by
  have h1 : c ≠ '-' := isDigit_ne c _ h (by decide)
  have h2 : c ≠ '+' := isDigit_ne c _ h (by decide)
  have h3 : c ≠ 'I' := isDigit_ne c _ h (by decide)
  unfold parseStrDecimalLiteral
  split
  · rename_i neg body hm
    split at hm
    · rename_i t heq; simp only [List.cons.injEq] at heq; exact absurd heq.1 h1
    · rename_i t heq; simp only [List.cons.injEq] at heq; exact absurd heq.1 h2
    · simp only [Prod.mk.injEq] at hm
      obtain ⟨hn, hb⟩ := hm
      subst hn; subst hb
      split
      · rename_i r heq; simp only [List.cons.injEq] at heq; exact absurd heq.1 h3
      · cases parseUnsignedDecimal (c :: rest) with
        | none => rfl
        | some p => obtain ⟨v, r⟩ := p; simp

theorem takeWhile_digits (a : List Char) (ha : ∀ c ∈ a, c.isDigit = true) :
    a.takeWhile Char.isDigit = a := List.takeWhile_eq_self_iff.mpr ha

theorem dropWhile_digits (a : List Char) (ha : ∀ c ∈ a, c.isDigit = true) :
    a.dropWhile Char.isDigit = [] := by
  have h := @List.dropWhile_append_of_pos Char Char.isDigit a [] ha
  simpa using h

/-- A run of digits is read as its value. -/
theorem parseUnsignedDecimal_digits (a : List Char) (ha : ∀ c ∈ a, c.isDigit = true)
    (hne : a ≠ []) :
    parseUnsignedDecimal a = some ((digitsValue a : ℚ), []) := by
  have he : a.isEmpty = false := by
    cases a with
    | nil => exact absurd rfl hne
    | cons c cs => rfl
  unfold parseUnsignedDecimal
  simp [takeWhile_digits a ha, dropWhile_digits a ha, he, parseExponent]

/-- Digits, a point and digits are read as the decimal they spell. -/
theorem parseUnsignedDecimal_point (a b : List Char) (ha : ∀ c ∈ a, c.isDigit = true)
    (hb : ∀ c ∈ b, c.isDigit = true) (hne : a ≠ []) :
    parseUnsignedDecimal (a ++ '.' :: b) =
      some ((digitsValue (a ++ b) : ℚ) / 10 ^ b.length, []) := by
  have hdot : Char.isDigit '.' = false := by decide
  have he : a.isEmpty = false := by
    cases a with
    | nil => exact absurd rfl hne
    | cons c cs => rfl
  have h1 : (a ++ '.' :: b).takeWhile Char.isDigit = a := by
    rw [List.takeWhile_append_of_pos ha, List.takeWhile_cons_of_neg (by simp [hdot])]
    simp
  have h2 : (a ++ '.' :: b).dropWhile Char.isDigit = '.' :: b := by
    rw [List.dropWhile_append_of_pos ha, List.dropWhile_cons_of_neg (by simp [hdot])]
  unfold parseUnsignedDecimal
  simp [h1, h2, he, takeWhile_digits b hb, dropWhile_digits b hb, parseExponent]

theorem parseStrDecimalLiteral_minus (c : Char) (rest : List Char) (h : c.isDigit = true) :
    parseStrDecimalLiteral ('-' :: c :: rest) =
      match parseUnsignedDecimal (c :: rest) with
      | some (v, r) => some (roundDouble (-v), r)
      | none => none := by
  have h3 : c ≠ 'I' := isDigit_ne c _ h (by decide)
  unfold parseStrDecimalLiteral
  simp only
  split
  · rename_i r heq; simp only [List.cons.injEq] at heq; exact absurd heq.1 h3
  · cases parseUnsignedDecimal (c :: rest) with
    | none => rfl
    | some p => obtain ⟨v, r⟩ := p; simp

/-- The value `parseFloat` reads from an optional minus sign and a decimal text. -/
theorem jsParseFloat_text (neg : Bool) (body : List Char) (v : ℚ) (c : Char)
    (rest : List Char) (hb : body = c :: rest) (hc : c.isDigit = true)
    (hv : parseUnsignedDecimal body = some (v, [])) :
    jsParseFloat ((if neg then ['-'] else []) ++ body) =
      roundDouble (if neg then -v else v) := by
  subst hb
  unfold jsParseFloat
  cases neg with
  | false =>
    simp only [Bool.false_eq_true, if_false, List.nil_append]
    rw [List.dropWhile_cons_of_neg (by simp [isDigit_not_whiteSpace c hc]),
      parseStrDecimalLiteral_digit c rest hc, hv]
  | true =>
    simp only [if_true, List.singleton_append]
    rw [List.dropWhile_cons_of_neg (by decide), parseStrDecimalLiteral_minus c rest hc, hv]

theorem toDigitsCore_ne_nil (fuel n : Nat) (ds : List Char) (h : 0 < fuel ∨ ds ≠ []) :
    Nat.toDigitsCore 10 fuel n ds ≠ [] := by
  induction fuel generalizing n ds with
  | zero =>
    rcases h with h | h
    · omega
    · simpa [Nat.toDigitsCore] using h
  | succ f ih =>
    simp only [Nat.toDigitsCore]
    split
    · simp
    · exact ih _ _ (Or.inr (by simp))

theorem toDigits_ne_nil (n : Nat) : Nat.toDigits 10 n ≠ [] :=
  toDigitsCore_ne_nil _ _ _ (Or.inl (Nat.succ_pos n))

theorem toDigits_isDigit (n : Nat) : ∀ c ∈ Nat.toDigits 10 n, c.isDigit = true :=
  toString10_isDigit n

theorem digitsValue_toDigits (n : Nat) : digitsValue (Nat.toDigits 10 n) = n :=
  digitsValue_toString10 n

theorem digitsValue_zeros (k : Nat) (s : List Char) :
    digitsValue (List.replicate k '0' ++ s) = digitsValue s := by
  induction k with
  | zero => simp
  | succ j ih =>
    rw [List.replicate_succ, List.cons_append, digitsValue_cons, ih]
    simp

/-- The text `toFixed` writes for a number below 10^21 in magnitude reads back, with
`parseFloat`, as the double nearest to the decimal it spells. -/
theorem jsParseFloat_toFixed (q : ℚ) (f : Nat) (h : |q| < 10 ^ 21) :
    jsParseFloat (toFixed (JSNumber.finite q) f) =
      roundDouble (if q < 0 then -((roundHalfUp (|q| * 10 ^ f) : ℚ) / 10 ^ f)
        else (roundHalfUp (|q| * 10 ^ f) : ℚ) / 10 ^ f) := by
  set n := roundHalfUp (|q| * 10 ^ f) with hn
  have hm1 := toDigits_isDigit n
  have hm2 := toDigits_ne_nil n
  have hm3 := digitsValue_toDigits n
  set m := Nat.toDigits 10 n with hm
  have key : ∀ body : List Char, ∀ v : ℚ, body ≠ [] → (∀ c ∈ body.head?, c.isDigit = true) →
      parseUnsignedDecimal body = some (v, []) →
      jsParseFloat ((if q < 0 then ['-'] else []) ++ body) =
        roundDouble (if q < 0 then -v else v) := by
    intro body v hne hd hv
    cases body with
    | nil => exact absurd rfl hne
    | cons c rest =>
      have hc : c.isDigit = true := hd c (by simp)
      by_cases hq : q < 0
      · simpa [hq] using jsParseFloat_text true (c :: rest) v c rest rfl hc hv
      · simpa [hq] using jsParseFloat_text false (c :: rest) v c rest rfl hc hv
  unfold toFixed
  simp only [if_neg (not_le.mpr h), ← hn, ← hm]
  by_cases hf : f = 0
  · subst hf
    simp only [if_true, pow_zero, div_one]
    refine key m (n : ℚ) hm2 ?_ ?_
    · intro c hc
      exact hm1 c (List.mem_of_mem_head? hc)
    · rw [parseUnsignedDecimal_digits m hm1 hm2, hm3]
  · simp only [if_neg hf]
    set m2 := List.replicate (f + 1 - m.length) '0' ++ m with hm2def
    have hlen : f + 1 ≤ m2.length := by
      rw [hm2def, List.length_append, List.length_replicate]; omega
    have hd2 : ∀ c ∈ m2, c.isDigit = true := by
      intro c hc
      rw [hm2def] at hc
      rcases List.mem_append.mp hc with h1 | h1
      · rw [(List.mem_replicate.mp h1).2]; decide
      · exact hm1 c h1
    have hv2 : digitsValue m2 = n := by rw [hm2def, digitsValue_zeros, hm3]
    set a := m2.take (m2.length - f) with ha
    set b := m2.drop (m2.length - f) with hb
    have hab : a ++ b = m2 := List.take_append_drop _ _
    have hbl : b.length = f := by rw [hb, List.length_drop]; omega
    have hal : a.length = m2.length - f := by rw [ha, List.length_take]; omega
    have hane : a ≠ [] := by
      intro e; rw [e] at hal; simp at hal; omega
    have hda : ∀ c ∈ a, c.isDigit = true := fun c hc => hd2 c (List.mem_of_mem_take hc)
    have hdb : ∀ c ∈ b, c.isDigit = true := fun c hc => hd2 c (List.mem_of_mem_drop hc)
    have e : (if q < 0 then ['-'] else []) ++ a ++ ['.'] ++ b =
        (if q < 0 then ['-'] else []) ++ (a ++ '.' :: b) := by simp
    rw [e]
    refine key (a ++ '.' :: b) ((n : ℚ) / 10 ^ f) (by simp) ?_ ?_
    · intro c hc
      obtain ⟨x, xs, hax⟩ := List.exists_cons_of_ne_nil hane
      rw [hax] at hc
      simp only [List.cons_append, List.head?_cons, Option.mem_def, Option.some.injEq] at hc
      rw [← hc]; exact hda x (by rw [hax]; simp)
    · rw [parseUnsignedDecimal_point a b hda hdb hane, hab, hv2, hbl]

/-- The value `parseInt` reads from a run of digits. -/
theorem jsParseInt_digits (c : Char) (rest : List Char)
    (hd : ∀ x ∈ c :: rest, x.isDigit = true) :
    jsParseInt (c :: rest) = roundDouble (digitsValue (c :: rest) : ℚ) := by
  have hc : c.isDigit = true := hd c (by simp)
  have h1 : c ≠ '-' := isDigit_ne c _ hc (by decide)
  have h2 : c ≠ '+' := isDigit_ne c _ hc (by decide)
  unfold jsParseInt
  rw [List.dropWhile_cons_of_neg (by simp [isDigit_not_whiteSpace c hc])]
  lift_lets
  intro t
  have ht : t = c :: rest := rfl
  clear_value t
  subst ht
  split
  · rename_i neg body hm
    split at hm
    · rename_i t heq; simp only [List.cons.injEq] at heq; exact absurd heq.1 h1
    · rename_i t heq; simp only [List.cons.injEq] at heq; exact absurd heq.1 h2
    · simp only [Prod.mk.injEq] at hm
      obtain ⟨hn, hb⟩ := hm
      subst hn; subst hb
      split
      · rename_i hex body2 hm2
        split at hm2
        · rename_i r heq
          have : ('x' : Char).isDigit = true := hd 'x' (by rw [heq]; simp)
          exact absurd this (by decide)
        · rename_i r heq
          have : ('X' : Char).isDigit = true := hd 'X' (by rw [heq]; simp)
          exact absurd this (by decide)
        · simp only [Prod.mk.injEq] at hm2
          obtain ⟨hx, hb2⟩ := hm2
          subst hx; subst hb2
          simp [takeWhile_digits _ hd]

/-- The value `parseInt` reads from a minus sign and a run of digits. -/
theorem jsParseInt_minus (c : Char) (rest : List Char)
    (hd : ∀ x ∈ c :: rest, x.isDigit = true) :
    jsParseInt ('-' :: c :: rest) = roundDouble (-(digitsValue (c :: rest) : ℚ)) := by
  unfold jsParseInt
  rw [List.dropWhile_cons_of_neg (by decide)]
  lift_lets
  intro t
  have ht : t = '-' :: c :: rest := rfl
  clear_value t
  subst ht
  split
  · rename_i neg body hm
    simp only [Prod.mk.injEq] at hm
    obtain ⟨hn, hb⟩ := hm
    subst hn; subst hb
    split
    · rename_i hex body2 hm2
      split at hm2
      · rename_i r heq
        have : ('x' : Char).isDigit = true := hd 'x' (by rw [heq]; simp)
        exact absurd this (by decide)
      · rename_i r heq
        have : ('X' : Char).isDigit = true := hd 'X' (by rw [heq]; simp)
        exact absurd this (by decide)
      · simp only [Prod.mk.injEq] at hm2
        obtain ⟨hx, hb2⟩ := hm2
        subst hx; subst hb2
        simp [takeWhile_digits _ hd]

/-- The text `toFixed()` writes for a number below 10^21 in magnitude reads back, with
`parseInt`, as the double nearest to the integer it spells. -/
theorem jsParseInt_toFixed (q : ℚ) (h : |q| < 10 ^ 21) :
    jsParseInt (toFixed (JSNumber.finite q) 0) =
      roundDouble (if q < 0 then -(roundHalfUp |q| : ℚ) else (roundHalfUp |q| : ℚ)) := by
  have hm1 := toDigits_isDigit (roundHalfUp |q|)
  have hm2 := toDigits_ne_nil (roundHalfUp |q|)
  have hm3 := digitsValue_toDigits (roundHalfUp |q|)
  unfold toFixed
  simp only [if_neg (not_le.mpr h), if_true, pow_zero, mul_one]
  obtain ⟨c, rest, hcr⟩ := List.exists_cons_of_ne_nil hm2
  rw [hcr] at hm1 hm3 ⊢
  by_cases hq : q < 0
  · simp only [hq, if_true, List.singleton_append]
    rw [jsParseInt_minus c rest hm1, hm3]
  · simp only [hq, if_false, List.nil_append]
    rw [jsParseInt_digits c rest hm1, hm3]

/-! ## Numbers that survive `toFixed` and the parsers -/

theorem roundHalfUp_err (x : ℚ) (hx : 0 ≤ x) : |((roundHalfUp x : ℕ) : ℚ) - x| ≤ 1 / 2 := by
  have hf := floor_toNat_cast x hx
  have h1 : (⌊x⌋ : ℚ) ≤ x := Int.floor_le x
  have h2 : x < (⌊x⌋ : ℚ) + 1 := Int.lt_floor_add_one x
  unfold roundHalfUp
  simp only
  rw [abs_le]
  split
  · rename_i h; rw [hf] at h ⊢; constructor <;> linarith
  · rename_i h; rw [hf] at h; push_cast; rw [hf]; constructor <;> linarith

theorem natAbs_cast_abs (N : ℤ) : ((N.natAbs : ℕ) : ℚ) = |(N : ℚ)| := by
  rw [Nat.cast_natAbs, Int.cast_abs]

/-- A rational less than a half away from an integer rounds, sign apart, to that
integer. -/
theorem roundHalfUp_near (x : ℚ) (N : ℤ) (h : |x - N| < 1 / 2) :
    roundHalfUp |x| = N.natAbs ∧
    (if x < 0 then -((N.natAbs : ℕ) : ℚ) else ((N.natAbs : ℕ) : ℚ)) = (N : ℚ) := by
  have h1 : |(|x| - |(N : ℚ)|)| ≤ |x - N| := abs_abs_sub_abs_le_abs_sub x N
  have h2 := abs_lt.mp (lt_of_le_of_lt h1 h)
  have h3 := abs_lt.mp h
  constructor
  · apply roundHalfUp_eq _ _ _ _ (abs_nonneg x)
    · rw [natAbs_cast_abs]; linarith [h2.1, h2.2]
    · rw [natAbs_cast_abs]; linarith [h2.1, h2.2]
  · rw [natAbs_cast_abs]
    split
    · rename_i hx
      have hN : (N : ℚ) < 1 := by linarith [h3.1, h3.2]
      have hN2 : N < 1 := by exact_mod_cast hN
      have hN3 : (N : ℚ) ≤ 0 := by exact_mod_cast (show N ≤ 0 by omega)
      rw [abs_of_nonpos hN3]; ring
    · rename_i hx
      have hx2 : 0 ≤ x := not_lt.mp hx
      have hN : (-1 : ℚ) < N := by linarith [h3.1, h3.2]
      have hN2 : -1 < N := by exact_mod_cast hN
      have hN3 : (0 : ℚ) ≤ N := by exact_mod_cast (show 0 ≤ N by omega)
      rw [abs_of_nonneg hN3]

theorem natAbs_lt_cast (N : ℤ) (B : ℕ) (h : N.natAbs < B) : |(N : ℚ)| < (B : ℚ) := by
  rw [← natAbs_cast_abs]; exact_mod_cast h

/-- A number less than a half away from an integer below 2^53 is stored, through
`toFixed()` and `parseInt`, as that integer. -/
theorem store_near (p : ℚ) (N : ℤ) (h : |p - N| < 1 / 2) (hN : N.natAbs < 2 ^ 53) :
    jsParseInt (toFixed (JSNumber.finite p) 0) = JSNumber.finite (N : ℚ) := by
  have hNq : |(N : ℚ)| < 2 ^ 53 := by
    have := natAbs_lt_cast N _ hN
    push_cast at this
    exact this
  have hp : |p| < 10 ^ 21 := by
    have h1 : |p| ≤ |p - N| + |(N : ℚ)| := by
      have := abs_add (p - N) (N : ℚ)
      simpa using this
    have h2 : (2 : ℚ) ^ 53 + 1 / 2 < 10 ^ 21 := by norm_num
    linarith
  obtain ⟨r1, r2⟩ := roundHalfUp_near p N h
  rw [jsParseInt_toFixed p hp, r1, r2]
  exact roundDouble_intCast N hN

/-- A number whose multiple by 10^d is less than a half away from an integer reads back,
through `toFixed(d)` and `parseFloat`, as the double nearest to that integer over 10^d. -/
theorem read_near (w : ℚ) (d : ℕ) (N : ℤ) (h : |w * 10 ^ d - N| < 1 / 2)
    (hw : |w| < 10 ^ 21) :
    jsParseFloat (toFixed (JSNumber.finite w) d) = roundDouble ((N : ℚ) / 10 ^ d) := by
  have hpos : (0 : ℚ) < 10 ^ d := by positivity
  obtain ⟨r1, r2⟩ := roundHalfUp_near (w * 10 ^ d) N h
  have habs : |w * 10 ^ d| = |w| * 10 ^ d := by rw [abs_mul, abs_of_pos hpos]
  rw [habs] at r1
  have hsign : (w * 10 ^ d < 0) ↔ (w < 0) := by
    constructor
    · intro hlt
      by_contra hc
      have : 0 ≤ w * 10 ^ d := mul_nonneg (not_lt.mp hc) hpos.le
      linarith
    · intro hlt
      exact mul_neg_of_neg_of_pos hlt hpos
  rw [jsParseFloat_toFixed w d hw, r1]
  congr 1
  by_cases hq : w < 0
  · have hq2 := hsign.mpr hq
    simp only [hq, hq2, if_true] at r2 ⊢
    rw [← r2]; ring
  · have hq2 : ¬ (w * 10 ^ d < 0) := fun hh => hq (hsign.mp hh)
    simp only [hq, hq2, if_false] at r2 ⊢
    rw [← r2]

/-- Rounding a rational of magnitude at most `C`: the double and the bounds on it. -/
theorem roundDouble_step (x C : ℚ) (hx : x = 0 ∨ 1 / 2 ^ 100 ≤ |x|) (hC : |x| ≤ C)
    (hC2 : C ≤ 2 ^ 100) :
    ∃ y : ℚ, roundDouble x = JSNumber.finite y ∧ |y - x| ≤ |x| / 2 ^ 53 ∧
      |y - x| ≤ C / 2 ^ 53 ∧ |y| ≤ C + C / 2 ^ 53 := by
  obtain ⟨y, hy, he⟩ := roundDouble_err_mid x hx (le_trans hC hC2)
  have h1 : |x| / 2 ^ 53 ≤ C / 2 ^ 53 := by gcongr
  refine ⟨y, hy, he, le_trans he h1, ?_⟩
  have h2 : |y| ≤ |y - x| + |x| := by
    have := abs_add (y - x) x
    simpa using this
  linarith

/-! ## Round trips of a unit -/

/-- An amount of `k` exels, `k` below 2^51 in magnitude, given in a unit with `d`
decimals: the double `a` nearest to `k / 10^d` is stored as `k` exels, and `k` exels are
read back in that unit as `a`; `a` is within the relative error 2^-53 of the decimal. -/
theorem Unit.exels_round_trip (code : List Char) (F : ℚ) (d : ℕ)
    (hU : UNITS code = UnitsEntry.unit F d) (hF : F = 10 ^ d) (hd : d ≤ 8)
    (k : ℤ) (hk : k.natAbs < 2 ^ 51) :
    ∃ a : ℚ, roundDouble ((k : ℚ) / 10 ^ d) = JSNumber.finite a ∧
      Unit._from (JSNumber.finite a) code = .ok (JSNumber.finite (k : ℚ)) ∧
      Unit.toCode { _value := JSNumber.finite (k : ℚ) } code = .ok (JSNumber.finite a) ∧
      |a * 10 ^ d - k| ≤ |(k : ℚ)| / 2 ^ 53 := by
  have hpos : (0 : ℚ) < 10 ^ d := by positivity
  have h10 : (10 : ℚ) ^ d ≤ 10 ^ 8 := pow_le_pow_right₀ (by norm_num) hd
  have h1le : (1 : ℚ) ≤ 10 ^ d := one_le_pow₀ (by norm_num)
  have hkq : |(k : ℚ)| ≤ 2 ^ 51 - 1 := by
    have h1 : k.natAbs ≤ 2 ^ 51 - 1 := by omega
    have h2 : ((k.natAbs : ℕ) : ℚ) ≤ ((2 ^ 51 - 1 : ℕ) : ℚ) := by exact_mod_cast h1
    rw [natAbs_cast_abs] at h2
    have h3 : ((2 ^ 51 - 1 : ℕ) : ℚ) = 2 ^ 51 - 1 := by norm_num
    rw [h3] at h2; exact h2
  have hDk : |(k : ℚ) / 10 ^ d| * 10 ^ d = |(k : ℚ)| := by
    rw [abs_div, abs_of_pos hpos]; field_simp
  have hDle : |(k : ℚ) / 10 ^ d| ≤ |(k : ℚ)| := by
    rw [← hDk]; exact le_mul_of_one_le_right (abs_nonneg _) h1le
  have hk1 : k ≠ 0 → (1 : ℚ) ≤ |(k : ℚ)| := by
    intro hne
    have : (1 : ℤ) ≤ |k| := Int.one_le_abs hne
    have h2 : ((1 : ℤ) : ℚ) ≤ ((|k| : ℤ) : ℚ) := by exact_mod_cast this
    simpa using h2
  -- the double of the amount
  obtain ⟨a, ha, hae, -, haC⟩ := roundDouble_step ((k : ℚ) / 10 ^ d) (2 ^ 51 - 1)
    (by
      by_cases h0 : k = 0
      · left; rw [h0]; simp
      · right
        have h2 : 1 / (10 : ℚ) ^ d ≤ |(k : ℚ) / 10 ^ d| := by
          rw [abs_div, abs_of_pos hpos]
          exact div_le_div_of_nonneg_right (hk1 h0) hpos.le
        have h3 : (1 : ℚ) / 10 ^ 8 ≤ 1 / 10 ^ d :=
          one_div_le_one_div_of_le hpos h10
        have h4 : (1 : ℚ) / 2 ^ 100 ≤ 1 / 10 ^ 8 := by norm_num
        linarith)
    (le_trans hDle hkq) (by norm_num)
  have key1 : |a * 10 ^ d - k| ≤ |(k : ℚ)| / 2 ^ 53 := by
    have e : a * 10 ^ d - k = (a - (k : ℚ) / 10 ^ d) * 10 ^ d := by field_simp
    rw [e, abs_mul, abs_of_pos hpos]
    calc |a - (k : ℚ) / 10 ^ d| * 10 ^ d ≤ |(k : ℚ) / 10 ^ d| / 2 ^ 53 * 10 ^ d := by gcongr
      _ = |(k : ℚ) / 10 ^ d| * 10 ^ d / 2 ^ 53 := by ring
      _ = |(k : ℚ)| / 2 ^ 53 := by rw [hDk]
  have key2 : |a * 10 ^ d - k| ≤ (2 ^ 51 - 1) / 2 ^ 53 :=
    le_trans key1 (by gcongr)
  have hy : |a * 10 ^ d| ≤ (2 ^ 51 - 1) + (2 ^ 51 - 1) / 2 ^ 53 := by
    have h1 : |a * 10 ^ d| ≤ |a * 10 ^ d - k| + |(k : ℚ)| := by
      have := abs_add (a * 10 ^ d - k) (k : ℚ)
      simpa using this
    linarith
  -- the product the constructor rounds
  obtain ⟨p, hp, -, hpe, -⟩ := roundDouble_step (a * 10 ^ d)
    ((2 ^ 51 - 1) + (2 ^ 51 - 1) / 2 ^ 53)
    (by
      by_cases h0 : k = 0
      · left
        rw [h0] at key1
        simp only [Int.cast_zero, sub_zero, abs_zero, zero_div] at key1
        exact abs_eq_zero.mp (le_antisymm key1 (abs_nonneg _))
      · right
        have h1 := hk1 h0
        have h2 : |(k : ℚ)| ≤ |a * 10 ^ d - k| + |a * 10 ^ d| := by
          have := abs_sub (a * 10 ^ d) (a * 10 ^ d - k)
          have e : a * 10 ^ d - (a * 10 ^ d - k) = k := by ring
          rw [e] at this
          linarith [abs_sub_comm (a * 10 ^ d) (k : ℚ)]
        have h3 : |(k : ℚ)| / 2 ^ 53 ≤ |(k : ℚ)| / 2 := by
          apply div_le_div_of_nonneg_left (abs_nonneg _) (by norm_num) (by norm_num)
        have h4 : (1 : ℚ) / 2 ^ 100 ≤ 1 / 2 := by norm_num
        linarith)
    hy (by norm_num)
  have hpk : |p - k| < 1 / 2 := by
    have h1 : |p - k| ≤ |p - a * 10 ^ d| + |a * 10 ^ d - k| := abs_sub_le _ _ _
    have h2 : ((2 : ℚ) ^ 51 - 1 + (2 ^ 51 - 1) / 2 ^ 53) / 2 ^ 53 + (2 ^ 51 - 1) / 2 ^ 53
        < 1 / 2 := by norm_num
    linarith
  have hak : |a * 10 ^ d - k| < 1 / 2 := by
    have h2 : ((2 : ℚ) ^ 51 - 1) / 2 ^ 53 < 1 / 2 := by norm_num
    linarith
  have ha21 : |a| < 10 ^ 21 := by
    have h2 : ((2 : ℚ) ^ 51 - 1) + (2 ^ 51 - 1) / 2 ^ 53 < 10 ^ 21 := by norm_num
    linarith
  refine ⟨a, ha, ?_, ?_, key1⟩
  · unfold Unit._from
    rw [hU]
    simp only [UnitsEntry.factor, JSNumber.mul]
    rw [hF, hp, store_near p k hpk (lt_trans hk (by norm_num))]
  · unfold Unit.toCode
    rw [hU]
    simp only [UnitsEntry.factor, UnitsEntry.decimals, JSNumber.div]
    rw [hF, if_neg hpos.ne', ha, read_near a d k hak ha21, ha]

/-- The factor and the decimals of each of the six unit codes. -/
theorem UNITS_unitCodes (code : List Char) (hc : code ∈ unitCodes) :
    ∃ d : ℕ, d ≤ 8 ∧ UNITS code = UnitsEntry.unit (10 ^ d) d := by
  simp only [unitCodes, List.mem_cons, List.mem_singleton, List.not_mem_nil, or_false] at hc
  rcases hc with h | h | h | h | h | h <;> subst h
  · exact ⟨8, by norm_num, by decide⟩
  · exact ⟨5, by norm_num, by decide⟩
  · exact ⟨2, by norm_num, by decide⟩
  · exact ⟨2, by norm_num, by decide⟩
  · exact ⟨2, by norm_num, by decide⟩
  · exact ⟨0, by norm_num, by decide⟩

/-- C21: for every unit code and every amount, a number or a string, whose value is the
double nearest to a decimal `k / 10^d` with `d` the decimals of the code and `k` an
integer below 2^51 in magnitude, the constructor returns a unit, the unit holds `k`
exels, and reading it in the same unit returns the amount. -/
theorem unit_round_trip (amount : Amount) (code : List Char) (k : ℤ)
    (hc : code ∈ unitCodes) (hk : |k| < 2 ^ 51)
    (ha : amount.toNumber = lit ((k : ℚ) / 10 ^ (UNITS code).decimals)) :
    ∃ u : Unit, Unit.new amount (Code.string code) = .ok u ∧
      u._value = JSNumber.finite (k : ℚ) ∧
      u.to_ (Code.string code) = .ok amount.toNumber := by
  obtain ⟨d, hd, hU⟩ := UNITS_unitCodes code hc
  have hk2 : k.natAbs < 2 ^ 51 := by
    have : (k.natAbs : ℤ) < 2 ^ 51 := by rw [Int.natCast_natAbs]; exact hk
    exact_mod_cast this
  obtain ⟨a, h1, h2, h3, -⟩ := Unit.exels_round_trip code (10 ^ d) d hU rfl hd k hk2
  rw [hU] at ha
  simp only [UnitsEntry.decimals, lit] at ha
  rw [h1] at ha
  refine ⟨{ _value := JSNumber.finite (k : ℚ) }, ?_, rfl, ?_⟩
  · simp only [Unit.new, ha, h2]
  · simp only [Unit.to_, ha, h3]

theorem unit_round_trip_witness :
    "EXCC".toList ∈ unitCodes ∧ |(130000000 : ℤ)| < 2 ^ 51 ∧
    ∃ u : Unit, Unit.new (Amount.string "1.3".toList) (Code.string "EXCC".toList) = .ok u ∧
      u._value = JSNumber.finite ((130000000 : ℤ) : ℚ) ∧
      u.to_ (Code.string "EXCC".toList) = .ok (Amount.string "1.3".toList).toNumber :=
  ⟨by decide, by decide,
   unit_round_trip (Amount.string "1.3".toList) "EXCC".toList 130000000 (by decide) (by decide)
     (by decide!)⟩

/-- C21, as stated, fails: 33554432.00000019 EXCC has eight decimals, the unit made of it
holds 3355443200000020 exels, not 3355443200000019, and reads back as
33554432.0000002 EXCC, another double. -/
theorem unit_round_trip_fails :
    Unit.new (Amount.number (lit (3355443200000019 / 10 ^ 8))) (Code.string "EXCC".toList) =
      .ok { _value := JSNumber.finite 3355443200000020 } ∧
    convert (Amount.number (lit (3355443200000019 / 10 ^ 8))) (Code.string "EXCC".toList)
      (Code.string "EXCC".toList) = .ok (lit (3355443200000020 / 10 ^ 8)) ∧
    lit (3355443200000020 / 10 ^ 8) ≠ lit (3355443200000019 / 10 ^ 8) := by
  refine ⟨by decide!, by decide!, by decide!⟩

/-- C22: for every unit that holds an integer number of exels below 2^51 in magnitude,
`toObject` gives the amount in EXCC with the code `EXCC`, `fromObject` on that object
returns a unit that holds the same number of exels, and its `toObject` is the same
object. -/
theorem fromObject_toObject (u : Unit) (N : ℤ) (hN : |N| < 2 ^ 51)
    (hu : u._value = JSNumber.finite (N : ℚ)) :
    u.toObject = { amount := Amount.number u.EXCC, code := Code.string "EXCC".toList } ∧
    Unit.fromObject u.toObject = .ok u ∧
    ∀ v : Unit, Unit.fromObject u.toObject = .ok v → v.toObject = u.toObject := by
  have hN2 : N.natAbs < 2 ^ 51 := by
    have : (N.natAbs : ℤ) < 2 ^ 51 := by rw [Int.natCast_natAbs]; exact hN
    exact_mod_cast this
  obtain ⟨a, h1, h2, h3, -⟩ := Unit.exels_round_trip "EXCC".toList (10 ^ 8) 8
    (by decide) rfl le_rfl N hN2
  have hu2 : u = { _value := JSNumber.finite (N : ℚ) } := by
    cases u; simp only at hu; rw [hu]
  have hE : u.EXCC = JSNumber.finite a := by
    have h4 : Unit.toCode u "EXCC".toList = .ok u.EXCC := by
      simp only [Unit.toCode, UNITS_EXCC, Unit.EXCC, UnitsEntry.factor, UnitsEntry.decimals]
    rw [hu2] at h4 ⊢
    rw [h3] at h4
    simp only [Except.ok.injEq] at h4
    exact h4.symm
  have hback : Unit.fromObject u.toObject = .ok u := by
    simp only [Unit.fromObject, Unit.toObject, Unit.new, Amount.toNumber, hE, h2]
    rw [hu2]
  refine ⟨rfl, hback, ?_⟩
  intro v hv
  rw [hback] at hv
  simp only [Except.ok.injEq] at hv
  rw [← hv]

theorem fromObject_toObject_witness :
    |(130000000 : ℤ)| < 2 ^ 51 ∧
    Unit.fromObject (Unit.toObject { _value := JSNumber.finite ((130000000 : ℤ) : ℚ) }) =
      .ok { _value := JSNumber.finite ((130000000 : ℤ) : ℚ) } :=
  ⟨by decide,
   (fromObject_toObject { _value := JSNumber.finite ((130000000 : ℤ) : ℚ) } 130000000
     (by decide) rfl).2.1⟩

/-- C22, as stated, fails: the unit `Unit.fromExels(3355443200000019)` holds
3355443200000019 exels, and the unit made of its exported object holds
3355443200000020. -/
theorem fromObject_toObject_fails :
    Unit.fromExels (Amount.number (lit 3355443200000019)) =
      .ok { _value := JSNumber.finite 3355443200000019 } ∧
    Unit.fromObject (Unit.toObject { _value := JSNumber.finite 3355443200000019 }) =
      .ok { _value := JSNumber.finite 3355443200000020 } := by
  refine ⟨by decide!, by decide!⟩

/-! ## Fiat amounts -/

/-- A number of magnitude at most 2^52 is stored, through `toFixed()` and `parseInt`, as
an integer at most a half away from it. -/
theorem store_round (p : ℚ) (hp : |p| ≤ 2 ^ 52) :
    ∃ N : ℤ, jsParseInt (toFixed (JSNumber.finite p) 0) = JSNumber.finite (N : ℚ) ∧
      |p - N| ≤ 1 / 2 := by
  have h21 : |p| < 10 ^ 21 := lt_of_le_of_lt hp (by norm_num)
  have herr := roundHalfUp_err |p| (abs_nonneg p)
  have hnq : ((roundHalfUp |p| : ℕ) : ℚ) ≤ 2 ^ 52 + 1 / 2 := by
    have := (abs_le.mp herr).2; linarith
  have hn53 : roundHalfUp |p| < 2 ^ 53 := by
    have h0 : ((roundHalfUp |p| : ℕ) : ℚ) < 2 ^ 53 := by
      have : (2 : ℚ) ^ 52 + 1 / 2 < 2 ^ 53 := by norm_num
      linarith
    have h1 : ((roundHalfUp |p| : ℕ) : ℚ) < ((2 ^ 53 : ℕ) : ℚ) := by
      push_cast; exact h0
    exact_mod_cast h1
  rw [jsParseInt_toFixed p h21]
  by_cases hq : p < 0
  · refine ⟨-((roundHalfUp |p| : ℕ) : ℤ), ?_, ?_⟩
    · simp only [hq, if_true]
      have := roundDouble_intCast (-((roundHalfUp |p| : ℕ) : ℤ)) (by simpa using hn53)
      simpa using this
    · have e : p - ((-((roundHalfUp |p| : ℕ) : ℤ) : ℤ) : ℚ) =
          ((roundHalfUp |p| : ℕ) : ℚ) - |p| := by
        rw [abs_of_neg hq]; push_cast; ring
      rw [e]; exact herr
  · refine ⟨((roundHalfUp |p| : ℕ) : ℤ), ?_, ?_⟩
    · simp only [hq, if_false]
      have := roundDouble_intCast ((roundHalfUp |p| : ℕ) : ℤ) (by simpa using hn53)
      simpa using this
    · have e : p - ((((roundHalfUp |p| : ℕ) : ℤ) : ℤ) : ℚ) =
          -(((roundHalfUp |p| : ℕ) : ℚ) - |p|) := by
        rw [abs_of_nonneg (not_lt.mp hq)]; push_cast; ring
      rw [e, abs_neg]; exact herr

/-- The accessor `EXCC` is `to` with the code `EXCC`. -/
theorem Unit.toCode_EXCC (u : Unit) : Unit.toCode u "EXCC".toList = .ok u.EXCC := by
  simp only [Unit.toCode, UNITS_EXCC, Unit.EXCC, UnitsEntry.factor, UnitsEntry.decimals]


theorem abs_le_add_of_sub (x y e : ℚ) (h : |x - y| ≤ e) : |x| ≤ |y| + e ∧ |y| - e ≤ |x| := by
  have h1 : |x| ≤ |x - y| + |y| := by
    have := abs_add (x - y) y
    simpa using this
  have h2 : |y| ≤ |y - x| + |x| := by
    have := abs_add (y - x) x
    simpa using this
  rw [abs_sub_comm y x] at h2
  constructor <;> linarith

/-- A fiat amount of `j` hundredths, `j` not zero, at a rate of at most 10^5 that makes
it at most 2^50 exels: the unit made of the amount over the rate holds an integer number
of exels, and at the same rate it is worth the double nearest to `j / 100` again. -/
theorem Unit.fiat_core (j : ℤ) (ρ : ℚ) (hj : j ≠ 0) (hρ : 0 < ρ)
    (hR : ρ ≤ 100000) (hX : |(j : ℚ)| * 10 ^ 6 ≤ 2 ^ 50 * ρ) :
    ∃ a0 : ℚ, ∃ N : ℤ, roundDouble ((j : ℚ) / 100) = JSNumber.finite a0 ∧
      Unit._from (JSNumber.div (JSNumber.finite a0) (JSNumber.finite ρ)) "EXCC".toList =
        .ok (JSNumber.finite (N : ℚ)) ∧
      Unit.to_ { _value := JSNumber.finite (N : ℚ) } (Code.number (JSNumber.finite ρ)) =
        .ok (JSNumber.finite a0) := by
  have hj1 : (1 : ℚ) ≤ |(j : ℚ)| := by
    have : (1 : ℤ) ≤ |j| := Int.one_le_abs hj
    have h2 : ((1 : ℤ) : ℚ) ≤ ((|j| : ℤ) : ℚ) := by exact_mod_cast this
    simpa using h2
  have hjB : |(j : ℚ)| ≤ 2 ^ 50 / 10 := by
    have h1 : (2 : ℚ) ^ 50 * ρ ≤ 2 ^ 50 * 100000 := by gcongr
    have h2 : |(j : ℚ)| * 10 ^ 6 ≤ 2 ^ 50 * 100000 := le_trans hX h1
    linarith
  -- the exact number of exels
  obtain ⟨X, hXdef⟩ : ∃ X : ℚ, X = (j : ℚ) * 10 ^ 6 / ρ := ⟨_, rfl⟩
  have hXρ : X * ρ = (j : ℚ) * 10 ^ 6 := by rw [hXdef]; field_simp
  have hXabs : |X| = |(j : ℚ)| * 10 ^ 6 / ρ := by
    rw [hXdef, abs_div, abs_mul, abs_of_pos hρ, abs_of_pos (by positivity : (0 : ℚ) < 10 ^ 6)]
  have hXB : |X| ≤ 2 ^ 50 := by
    rw [hXabs, div_le_iff₀ hρ]; exact hX
  have hX10 : 10 ≤ |X| := by
    rw [hXabs, le_div_iff₀ hρ]
    have : (10 : ℚ) * ρ ≤ 1 * 10 ^ 6 := by linarith
    calc (10 : ℚ) * ρ ≤ 1 * 10 ^ 6 := this
      _ ≤ |(j : ℚ)| * 10 ^ 6 := by gcongr
  -- the double of the amount
  have hAabs : |(j : ℚ) / 100| = |(j : ℚ)| / 100 := by
    rw [abs_div, abs_of_pos (by norm_num : (0 : ℚ) < 100)]
  obtain ⟨a0, ha0, hae, -, -⟩ := roundDouble_step ((j : ℚ) / 100) (2 ^ 50 / 1000)
    (Or.inr (by
      rw [hAabs]
      have : (1 : ℚ) / 2 ^ 100 ≤ 1 / 100 := by norm_num
      linarith))
    (by rw [hAabs]; linarith) (by norm_num)
  -- the quotient by the rate, in exels
  obtain ⟨E1, hE1d⟩ : ∃ E1 : ℚ, E1 = a0 / ρ * 10 ^ 8 := ⟨_, rfl⟩
  have hE1 : |E1 - X| ≤ |X| / 2 ^ 53 := by
    have e : E1 - X = (a0 - (j : ℚ) / 100) * (10 ^ 8 / ρ) := by
      rw [hE1d, hXdef]; field_simp; ring
    have hpos : (0 : ℚ) < 10 ^ 8 / ρ := by positivity
    rw [e, abs_mul, abs_of_pos hpos]
    calc |a0 - (j : ℚ) / 100| * (10 ^ 8 / ρ)
        ≤ |(j : ℚ) / 100| / 2 ^ 53 * (10 ^ 8 / ρ) := by gcongr
      _ = |(j : ℚ)| * 10 ^ 6 / ρ / 2 ^ 53 := by rw [hAabs]; field_simp; ring
      _ = |X| / 2 ^ 53 := by rw [hXabs]
  have hE1b : |E1 - X| ≤ 1 / 8 := by
    have h1 : |X| / 2 ^ 53 ≤ 2 ^ 50 / 2 ^ 53 := by gcongr
    have e : (2 : ℚ) ^ 50 / 2 ^ 53 = 1 / 8 := by norm_num
    rw [e] at h1
    exact le_trans hE1 h1
  obtain ⟨hE1u, hE1l⟩ := abs_le_add_of_sub _ _ _ hE1b
  have hx1 : |a0 / ρ| = |E1| / 10 ^ 8 := by
    rw [hE1d, abs_mul, abs_of_pos (by positivity : (0 : ℚ) < 10 ^ 8)]; field_simp
  have hE1C : |E1| ≤ 2 ^ 50 + 1 / 8 := by linarith only [hE1u, hXB]
  have hE1L : 9 ≤ |E1| := by linarith only [hE1l, hX10]
  obtain ⟨q, hq, -, hqe, -⟩ := roundDouble_step (a0 / ρ) ((2 ^ 50 + 1 / 8) / 10 ^ 8)
    (Or.inr (by
      rw [hx1, le_div_iff₀ (by positivity)]
      have : (1 : ℚ) / 2 ^ 100 * 10 ^ 8 ≤ 9 := by norm_num
      exact le_trans this hE1L))
    (by rw [hx1]; gcongr) (by norm_num)
  obtain ⟨E2, hE2d⟩ : ∃ E2 : ℚ, E2 = q * 10 ^ 8 := ⟨_, rfl⟩
  have hE2 : |E2 - E1| ≤ 1 / 4 := by
    have e : E2 - E1 = (q - a0 / ρ) * 10 ^ 8 := by rw [hE2d, hE1d]; ring
    rw [e, abs_mul, abs_of_pos (by positivity : (0 : ℚ) < 10 ^ 8)]
    calc |q - a0 / ρ| * 10 ^ 8 ≤ (2 ^ 50 + 1 / 8) / 10 ^ 8 / 2 ^ 53 * 10 ^ 8 := by gcongr
      _ ≤ 1 / 4 := by norm_num
  obtain ⟨hE2u, hE2l⟩ := abs_le_add_of_sub _ _ _ hE2
  have hE2C : |E2| ≤ 2 ^ 50 + 1 := by linarith only [hE2u, hE1C]
  have hE2L : 8 ≤ |E2| := by linarith only [hE2l, hE1L]
  -- the product the constructor rounds and stores
  obtain ⟨p, hp, -, hpe, hpC⟩ := roundDouble_step (q * 10 ^ 8) (2 ^ 50 + 1)
    (Or.inr (by
      rw [← hE2d]
      have : (1 : ℚ) / 2 ^ 100 ≤ 8 := by norm_num
      exact le_trans this hE2L))
    (by rw [← hE2d]; exact hE2C)
    (by norm_num)
  rw [← hE2d] at hpe
  have hpe2 : |p - E2| ≤ 1 / 4 := le_trans hpe (by norm_num)
  obtain ⟨N, hN, hNe⟩ := store_round p (le_trans hpC (by norm_num))
  have hNX : |(N : ℚ) - X| ≤ 9 / 8 := by
    have t1 := abs_sub_le (N : ℚ) p X
    have t2 := abs_sub_le p E2 X
    have t3 := abs_sub_le E2 E1 X
    rw [abs_sub_comm (N : ℚ) p] at t1
    linarith only [t1, t2, t3, hNe, hpe2, hE2, hE1b]
  obtain ⟨hNu, hNl⟩ := abs_le_add_of_sub _ _ _ hNX
  have hNC : |(N : ℚ)| ≤ 2 ^ 50 + 9 / 8 := by linarith only [hNu, hXB]
  have hN51 : N.natAbs < 2 ^ 51 := by
    have h0 : |(N : ℚ)| < 2 ^ 51 := lt_of_le_of_lt hNC (by norm_num)
    have h1 : ((N.natAbs : ℕ) : ℚ) < ((2 ^ 51 : ℕ) : ℚ) := by
      rw [natAbs_cast_abs]; push_cast; exact h0
    exact_mod_cast h1
  -- the amount in EXCC the unit shows
  obtain ⟨e1, -, -, he3, he4⟩ := Unit.exels_round_trip "EXCC".toList (10 ^ 8) 8
    (by decide) rfl le_rfl N hN51
  have hEX : Unit.EXCC { _value := JSNumber.finite (N : ℚ) } = JSNumber.finite e1 := by
    have h4 := Unit.toCode_EXCC { _value := JSNumber.finite (N : ℚ) }
    rw [he3] at h4
    simp only [Except.ok.injEq] at h4
    exact h4.symm
  obtain ⟨E3, hE3d⟩ : ∃ E3 : ℚ, E3 = e1 * 10 ^ 8 := ⟨_, rfl⟩
  rw [← hE3d] at he4
  have hE3 : |E3 - N| ≤ 1 / 4 := by
    have h2 : |(N : ℚ)| / 2 ^ 53 ≤ (2 ^ 50 + 9 / 8) / 2 ^ 53 := by gcongr
    have h3 : ((2 : ℚ) ^ 50 + 9 / 8) / 2 ^ 53 ≤ 1 / 4 := by norm_num
    exact le_trans he4 (le_trans h2 h3)
  have he1X : |E3 - X| ≤ 11 / 8 := by
    have h1 := abs_sub_le E3 (N : ℚ) X
    linarith only [h1, hE3, hNX]
  -- the worth at the rate, in hundredths
  obtain ⟨Y, hYd⟩ : ∃ Y : ℚ, Y = e1 * ρ * 100 := ⟨_, rfl⟩
  have hY : |Y - j| ≤ 11 / 80 := by
    have e : Y - j = (E3 - X) * (ρ / 10 ^ 6) := by
      have : (j : ℚ) = X * ρ / 10 ^ 6 := by rw [hXρ]; field_simp
      rw [this, hYd, hE3d]; ring
    have hpos : (0 : ℚ) ≤ ρ / 10 ^ 6 := by positivity
    rw [e, abs_mul, abs_of_nonneg hpos]
    calc |E3 - X| * (ρ / 10 ^ 6) ≤ 11 / 8 * (100000 / 10 ^ 6) := by gcongr
      _ = 11 / 80 := by norm_num
  obtain ⟨hYu, hYl⟩ := abs_le_add_of_sub _ _ _ hY
  have hYC : |Y| ≤ 2 ^ 50 / 10 + 1 := by linarith only [hYu, hjB]
  have hYL : 1 / 2 ≤ |Y| := by linarith only [hYl, hj1]
  have hYabs : |e1 * ρ| = |Y| / 100 := by
    rw [hYd, abs_mul (e1 * ρ) 100, abs_of_pos (by norm_num : (0 : ℚ) < 100)]; field_simp
  obtain ⟨m, hm, -, hme, hmC⟩ := roundDouble_step (e1 * ρ) ((2 ^ 50 / 10 + 1) / 100)
    (Or.inr (by
      rw [hYabs, le_div_iff₀ (by norm_num)]
      have : (1 : ℚ) / 2 ^ 100 * 100 ≤ 1 / 2 := by norm_num
      exact le_trans this hYL))
    (by rw [hYabs]; gcongr) (by norm_num)
  obtain ⟨M, hMd⟩ : ∃ M : ℚ, M = m * 10 ^ 2 := ⟨_, rfl⟩
  have hMY : |M - Y| ≤ 1 / 8 := by
    have e : M - Y = (m - e1 * ρ) * 100 := by rw [hMd, hYd]; ring
    rw [e, abs_mul, abs_of_pos (by norm_num : (0 : ℚ) < 100)]
    calc |m - e1 * ρ| * 100 ≤ (2 ^ 50 / 10 + 1) / 100 / 2 ^ 53 * 100 := by gcongr
      _ ≤ 1 / 8 := by norm_num
  have hmj : |m * 10 ^ 2 - j| < 1 / 2 := by
    rw [← hMd]
    have h1 := abs_sub_le M Y (j : ℚ)
    linarith only [h1, hMY, hY]
  have hm21 : |m| < 10 ^ 21 := lt_of_le_of_lt hmC (by norm_num)
  refine ⟨a0, N, ha0, ?_, ?_⟩
  · unfold Unit._from
    rw [UNITS_EXCC]
    simp only [UnitsEntry.factor, JSNumber.div, JSNumber.mul, if_neg hρ.ne', hq]
    have e8 : (100000000 : ℚ) = 10 ^ 8 := by norm_num
    rw [e8, hp, hN]
  · have hle : JSNumber.leZero (JSNumber.finite ρ) = false := by
      simp [JSNumber.leZero, hρ]
    simp only [Unit.to_, hle, hEX, JSNumber.mul, hm, Bool.false_eq_true, if_false]
    rw [read_near m 2 j hmj hm21]
    have e2 : ((10 : ℚ) ^ 2) = 100 := by norm_num
    rw [e2, ha0]

/-- C23: for every fiat amount, a number or a string, whose value is the double nearest
to `j / 100` with `j` an integer, and every exchange rate `r` with `0 < r ≤ 100000` at
which the amount is worth at most 2^50 exels (`|j| * 10^6 ≤ 2^50 * r`), the constructor
returns a unit, and `atRate` with the same rate returns the amount. -/
theorem fiat_round_trip (amount : Amount) (j : ℤ) (r : ℚ) (hr : 0 < r) (hR : r ≤ 100000)
    (hX : |(j : ℚ)| * 10 ^ 6 ≤ 2 ^ 50 * r)
    (ha : amount.toNumber = lit ((j : ℚ) / 100)) :
    ∃ u : Unit, Unit.new amount (Code.number (JSNumber.finite r)) = .ok u ∧
      u.atRate (Code.number (JSNumber.finite r)) = .ok amount.toNumber := by
  have hle : JSNumber.leZero (JSNumber.finite r) = false := by
    simp [JSNumber.leZero, hr]
  by_cases hj : j = 0
  · subst hj
    have ha0 : amount.toNumber = JSNumber.finite 0 := by
      rw [ha]; simp [lit, roundDouble_zero]
    have h1 : Unit._from (JSNumber.finite 0) "EXCC".toList = .ok (JSNumber.finite 0) := by
      decide!
    have h2 : Unit.EXCC { _value := JSNumber.finite 0 } = JSNumber.finite 0 := by decide!
    have h3 : jsParseFloat (toFixed (JSNumber.finite 0) 2) = JSNumber.finite 0 := by decide!
    refine ⟨{ _value := JSNumber.finite 0 }, ?_, ?_⟩
    · simp only [Unit.new, hle, ha0, JSNumber.div, if_neg hr.ne', zero_div, roundDouble_zero,
        h1, Bool.false_eq_true, if_false]
    · simp only [Unit.atRate, Unit.to_, hle, h2, JSNumber.mul, zero_mul, roundDouble_zero,
        h3, ha0, Bool.false_eq_true, if_false]
  · obtain ⟨a0, N, h1, h2, h3⟩ := Unit.fiat_core j r hj hr hR hX
    have ha0 : amount.toNumber = JSNumber.finite a0 := by rw [ha, lit, h1]
    refine ⟨{ _value := JSNumber.finite (N : ℚ) }, ?_, ?_⟩
    · simp only [Unit.new, hle, ha0, h2, Bool.false_eq_true, if_false]
    · rw [Unit.atRate, h3, ha0]

theorem fiat_round_trip_witness :
    (0 : ℚ) < 350 ∧ (350 : ℚ) ≤ 100000 ∧ |((130 : ℤ) : ℚ)| * 10 ^ 6 ≤ 2 ^ 50 * 350 ∧
    ∃ u : Unit, Unit.new (Amount.number (lit (13 / 10))) (Code.number (JSNumber.finite 350)) =
        .ok u ∧
      u.atRate (Code.number (JSNumber.finite 350)) =
        .ok (Amount.number (lit (13 / 10))).toNumber :=
  ⟨by norm_num, by norm_num, by norm_num,
   fiat_round_trip (Amount.number (lit (13 / 10))) 130 350 (by norm_num) (by norm_num)
     (by norm_num) (by decide!)⟩

/-- C23, as stated, fails: at the rate 2000000 the fiat amount 0.01 makes a unit of one
exel, which is worth 0.02 at that rate. -/
theorem fiat_round_trip_fails :
    Unit.new (Amount.number (lit (1 / 100))) (Code.number (lit 2000000)) =
      .ok { _value := JSNumber.finite 1 } ∧
    Unit.atRate { _value := JSNumber.finite 1 } (Code.number (lit 2000000)) =
      .ok (lit (2 / 100)) ∧
    lit (2 / 100) ≠ lit (1 / 100) := by
  refine ⟨by decide!, by decide!, by decide!⟩

/-! ## The three entry points that decode bytes -/

/-- The header and the reader `fromBufferReader` returns on a reader at the start of a
buffer of at least 272 bytes. -/
theorem fromBufferReader_eq (sha256 : Buffer → Buffer) (b : Buffer) (hb : 272 ≤ b.length) :
    BlockHeader.fromBufferReader sha256 (BufferReader.ofBuffer b) =
      .ok ({ assignFields (layoutInfo b 0) with freshStake := none },
           { BufferReader.ofBuffer b with pos := 272 }) := by
  have h0 := fromBufferReader_ok (BufferReader.ofBuffer b)
    (by simpa [BufferReader.ofBuffer] using hb)
  simp only [BlockHeader.fromBufferReader, h0, bind, Except.bind, BlockHeader.new, _from]
  simp [BufferReader.ofBuffer, layoutInfo, checkHash, truthyStr, defaultTimestamp, assignFields,
    _fromObject, Info.toFieldMap, hashFieldBytes, pure, Except.pure]

/-- C24: for every buffer of at least 272 bytes the three entry points return a header;
`fromBuffer` and `fromBufferReader` return the same one, and it is the header of the
constructor with `freshStake` left undefined, while the constructor holds the byte at
offset 102 there: the entry points never agree field for field. -/
theorem decoders_differ_on_freshStake (sha256 : Buffer → Buffer) (b : Buffer)
    (hb : 272 ≤ b.length) :
    ∃ h : BlockHeader,
      BlockHeader.new sha256 (Arg.buffer b) = .ok h ∧
      BlockHeader.fromBuffer sha256 b = .ok { h with freshStake := none } ∧
      BlockHeader.fromBufferReader sha256 (BufferReader.ofBuffer b) =
        .ok ({ h with freshStake := none }, { BufferReader.ofBuffer b with pos := 272 }) ∧
      h.freshStake = some (uintLEAt b 102 1) ∧
      BlockHeader.fromBuffer sha256 b ≠ BlockHeader.new sha256 (Arg.buffer b) := by
  refine ⟨assignFields (layoutInfo b 0), new_buffer sha256 b hb, fromBuffer_eq sha256 b hb,
    fromBufferReader_eq sha256 b hb, ?_, ?_⟩
  · simp [assignFields, layoutInfo]
  · rw [new_buffer sha256 b hb, fromBuffer_eq sha256 b hb]
    intro h
    have h2 := congrArg (fun r => r.toOption.bind BlockHeader.freshStake) h
    simp [Except.toOption, assignFields, layoutInfo] at h2

theorem decoders_differ_on_freshStake_witness :
    272 ≤ zeroBuffer.length ∧
    ∃ h : BlockHeader,
      BlockHeader.new sampleDigest (Arg.buffer zeroBuffer) = .ok h ∧
      BlockHeader.fromBuffer sampleDigest zeroBuffer = .ok { h with freshStake := none } ∧
      BlockHeader.fromBufferReader sampleDigest (BufferReader.ofBuffer zeroBuffer) =
        .ok ({ h with freshStake := none },
             { BufferReader.ofBuffer zeroBuffer with pos := 272 }) ∧
      h.freshStake = some (uintLEAt zeroBuffer 102 1) ∧
      BlockHeader.fromBuffer sampleDigest zeroBuffer ≠
        BlockHeader.new sampleDigest (Arg.buffer zeroBuffer) :=
  ⟨le_of_eq (List.length_replicate 272 0).symm,
   decoders_differ_on_freshStake sampleDigest zeroBuffer
     (le_of_eq (List.length_replicate 272 0).symm)⟩

end Bitcore
